import Mathlib

/-!
# Folding, hidden regions and selection-preserving indentation

A shallow embedding of `PowerEditor/src/QtCore/ScintillaEditViewQt.cpp`
(the fold engine, the hidden-region manager and `setLineIndent`) over an
explicit model of the editing widget's line table, followed by theorems
about the embedded functions.

* Line numbers are `Int`: the source keeps them in `size_t`/`intptr_t` and
  tests `static_cast<intptr_t>(startMarker) >= 0`, so the value reached by
  `--startMarker` at line 0 is modelled as `-1`. Line counts stay far below
  `2^63`, so no other wrap-around is reachable in the walks over the lines of
  the document; `scope` (an `int`) changes by one per marker and is an `Int`
  here. In `expand` the answer of `SCI_GETLASTCHILD` is stored in a `size_t`
  without a test, so there the conversion and `++line` are taken modulo `2^64`
  (`asSize`).
* The widget behind `execute(...)` and the buffer class are not part of
  `ScintillaEditViewQt.cpp`. They are modelled by the structure `Buffer` after
  the buffer interface of the specification: per line the two hide-marker
  flags, a visibility flag, the raw fold level and the fold-expanded flag.
* Loops are structural recursions on the number of iterations that are left; a
  loop whose guard is not a count carries its guard and a bound that the guard
  reaches first.
-/

namespace NppFold

/-! ## The buffer (the editing widget seen through `execute`) -/

/-- Calls to the widget whose order or number matters to the callers. -/
inductive Call where
  | showLines (fromLine toLine : Int)
  | hideLines (fromLine toLine : Int)
  | toggleFold (line : Int)
  | setFoldExpanded (line : Int) (value : Bool)
  | colourise
  | hideLineChanged (isHide : Bool) (location : Int)
  deriving DecidableEq, Repr

/-- The lexers `isFoldIndentationBased` tests for, and any other one. -/
inductive Lexer where
  | python | coffeescript | haskell | nimrod | vb | yaml | other
  deriving DecidableEq, Repr

/-- The widget state read and written by the embedded functions.
`hasBegin`/`hasEnd` are the `MARK_HIDELINESBEGIN`/`MARK_HIDELINESEND` bits of
the per-line marker set, `foldLevel` is the raw `SCI_GETFOLDLEVEL` value
(level number and flag bits), `calls` records the calls issued, oldest first. -/
structure Buffer where
  nbLines : Nat
  hasBegin : Int → Bool
  hasEnd : Int → Bool
  visible : Int → Bool
  foldLevel : Int → Nat
  foldParent : Int → Int
  lastChild : Int → Int → Int
  expanded : Int → Bool
  endStyled : Int
  textLength : Int
  lexer : Lexer
  calls : List Call

namespace Buffer

/-- Modelled from the spec: a line number of the document,
`0 ≤ line < lineCount()`. -/
def validLine (b : Buffer) (line : Int) : Bool :=
  decide (0 ≤ line) && decide (line < (b.nbLines : Int))

/-- Modelled from the spec: `markerGet(line)` tested for the BEGIN-HIDE bit, the
source's `(execute(SCI_MARKERGET, line) & (1 << MARK_HIDELINESBEGIN)) != 0`; a
line outside the document has no marker. -/
def markerBegin (b : Buffer) (line : Int) : Bool :=
  b.validLine line && b.hasBegin line

/-- Modelled from the spec: `markerGet(line)` tested for the END-HIDE bit, the
source's `(execute(SCI_MARKERGET, line) & (1 << MARK_HIDELINESEND)) != 0`. -/
def markerEnd (b : Buffer) (line : Int) : Bool :=
  b.validLine line && b.hasEnd line

/-- Modelled from the spec: `markerAdd(line, BEGIN-HIDE)`, the call
`execute(SCI_MARKERADD, line, MARK_HIDELINESBEGIN)`; without effect for a line
outside the document. -/
def markerAddBegin (b : Buffer) (line : Int) : Buffer :=
  if b.validLine line then
    { b with hasBegin := fun l => if l = line then true else b.hasBegin l }
  else b

/-- Modelled from the spec: `markerAdd(line, END-HIDE)`, the call
`execute(SCI_MARKERADD, line, MARK_HIDELINESEND)`. -/
def markerAddEnd (b : Buffer) (line : Int) : Buffer :=
  if b.validLine line then
    { b with hasEnd := fun l => if l = line then true else b.hasEnd l }
  else b

/-- Modelled from the spec: `markerDelete(line, BEGIN-HIDE)`, the call
`execute(SCI_MARKERDELETE, line, MARK_HIDELINESBEGIN)`. -/
def markerDeleteBegin (b : Buffer) (line : Int) : Buffer :=
  if b.validLine line then
    { b with hasBegin := fun l => if l = line then false else b.hasBegin l }
  else b

/-- Modelled from the spec: `markerDelete(line, END-HIDE)`, the call
`execute(SCI_MARKERDELETE, line, MARK_HIDELINESEND)`. -/
def markerDeleteEnd (b : Buffer) (line : Int) : Buffer :=
  if b.validLine line then
    { b with hasEnd := fun l => if l = line then false else b.hasEnd l }
  else b

/-- Modelled from the spec: `showLines(fromLine, toLine)`, the call
`execute(SCI_SHOWLINES, fromLine, toLine)`: the lines become visible. -/
def showLines (b : Buffer) (fromLine toLine : Int) : Buffer :=
  { b with
    visible := fun l => if fromLine ≤ l ∧ l ≤ toLine then true else b.visible l
    calls := b.calls ++ [Call.showLines fromLine toLine] }

/-- Modelled from the spec: `hideLines(fromLine, toLine)`, the call
`execute(SCI_HIDELINES, fromLine, toLine)`: the lines become invisible. -/
def hideLinesCall (b : Buffer) (fromLine toLine : Int) : Buffer :=
  { b with
    visible := fun l => if fromLine ≤ l ∧ l ≤ toLine then false else b.visible l
    calls := b.calls ++ [Call.hideLines fromLine toLine] }

/-- Modelled from the spec: `notifyHideLineChange(isHide, line)`, the call
`_currentBuffer->setHideLineChanged(isHide, location)`; the buffer class is not
part of the sources, the notification is recorded among the calls. -/
def setHideLineChanged (b : Buffer) (isHide : Bool) (location : Int) : Buffer :=
  { b with calls := b.calls ++ [Call.hideLineChanged isHide location] }

end Buffer

/-! ## `hideLines` -/

/-- The locals `scope` and `recentMarkerWasOpen` captured by the `removeMarker`
lambda, together with the buffer it edits. -/
structure HideScan where
  buf : Buffer
  scope : Int
  recentMarkerWasOpen : Bool

/-- The lambda `removeMarker(line, markerMask)` of `hideLines`; `maskOpen` and
`maskClose` say whether `markerMask` contains the BEGIN bit and the END bit. -/
def removeMarker (line : Int) (maskOpen maskClose : Bool) (st : HideScan) : HideScan :=
  let closePresent := maskClose && st.buf.markerEnd line
  let openPresent := maskOpen && st.buf.markerBegin line
  let st1 : HideScan :=
    if closePresent then
      { buf := st.buf.markerDeleteEnd line, scope := st.scope - 1, recentMarkerWasOpen := false }
    else st
  if openPresent then
    { buf := st1.buf.markerDeleteBegin line, scope := st1.scope + 1, recentMarkerWasOpen := true }
  else st1

/-- The loop `for (i = startLine; i <= endLine; ++i) removeMarker(i, BEGIN | END)`,
`count` being the number of lines still to visit. -/
def removeRange : Nat → Int → HideScan → HideScan
  | 0, _, st => st
  | count + 1, i, st => removeRange count (i + 1) (removeMarker i true true st)

/-- The loops `while (cond(scope) && static_cast<intptr_t>(startMarker) >= 0)
removeMarker(--startMarker, BEGIN)`. The first argument bounds the number of
iterations; `startMarker + 1` of them always suffice. -/
def walkStart (cond : Int → Bool) : Nat → Int → HideScan → Int × HideScan
  | 0, startMarker, st => (startMarker, st)
  | fuel + 1, startMarker, st =>
    if cond st.scope && decide (0 ≤ startMarker) then
      walkStart cond fuel (startMarker - 1) (removeMarker (startMarker - 1) true false st)
    else (startMarker, st)

/-- The loops `while (cond(scope) && endMarker < nbLines)
removeMarker(++endMarker, END)`. The first argument bounds the number of
iterations; `nbLines - endMarker` of them always suffice. -/
def walkEnd (cond : Int → Bool) (nbLines : Int) : Nat → Int → HideScan → Int × HideScan
  | 0, endMarker, st => (endMarker, st)
  | fuel + 1, endMarker, st =>
    if cond st.scope && decide (endMarker < nbLines) then
      walkEnd cond nbLines fuel (endMarker + 1) (removeMarker (endMarker + 1) false true st)
    else (endMarker, st)

/-- What a call of `hideLines` that does not return early leaves behind: the
buffer and the final values of `startMarker` and `endMarker`. -/
structure HideOutcome where
  buf : Buffer
  startMarker : Int
  endMarker : Int

/-- The first part of `hideLines` after the range check ("Previous markers must be
removed in the selected region"): `removeMarker` on `startMarker = startLine - 1`
for BEGIN, on every line of `startLine..endLine` for both markers, and on
`endMarker = endLine + 1` for END, starting from `scope = 0`. -/
def removeSelected (b : Buffer) (startLine endLine : Int) : HideScan :=
  let st0 : HideScan := { buf := b, scope := 0, recentMarkerWasOpen := false }
  let st1 := removeMarker (startLine - 1) true false st0
  let st2 := removeRange (endLine + 1 - startLine).toNat startLine st1
  removeMarker (endLine + 1) false true st2

/-- The second part ("merge them into one hidden section"): the `if` with its
two pairs of `while` loops; the result is the final `startMarker`, the final
`endMarker` and the scan state. -/
def mergeWalk (nbLines startMarker endMarker : Int) (st3 : HideScan) : Int × Int × HideScan :=
  if st3.scope = 0 ∧ st3.recentMarkerWasOpen = true then
    let up := walkStart (fun s => s == 0) (startMarker + 1).toNat startMarker st3
    let down := walkEnd (fun s => s != 0) nbLines (nbLines - endMarker).toNat endMarker up.2
    (up.1, down.1, down.2)
  else
    let up := walkStart (fun s => decide (s < 0)) (startMarker + 1).toNat startMarker st3
    let down := walkEnd (fun s => decide (s > 0)) nbLines (nbLines - endMarker).toNat
      endMarker up.2
    (up.1, down.1, down.2)

/-- The statements of `hideLines` after the range check, from `int scope = 0` on;
`startLine` and `endLine` are the clamped lines. -/
def hideLinesFrom (b : Buffer) (startLine endLine : Int) : HideOutcome :=
  let st3 := removeSelected b startLine endLine
  let walked := mergeWalk b.nbLines (startLine - 1) (endLine + 1) st3
  let b1 := walked.2.2.buf.markerAddBegin walked.1
  let b2 := b1.markerAddEnd walked.2.1
  { buf := b2.setHideLineChanged true walked.1
    startMarker := walked.1
    endMarker := walked.2.1 }

/-- The body of `ScintillaEditView::hideLines`; `selStartLine` and `selEndLine`
are the lines of the selection start and end. `none` is an early return. -/
def hideLinesRun (b : Buffer) (selStartLine selEndLine : Int) : Option HideOutcome :=
  let nbLines : Int := b.nbLines
  if nbLines < 3 then none
  else
    let startLine := if selStartLine = 0 then selStartLine + 1 else selStartLine
    let endLine := if selEndLine = nbLines - 1 then selEndLine - 1 else selEndLine
    if startLine > endLine then none
    else some (hideLinesFrom b startLine endLine)

/-- The function `ScintillaEditView::hideLines` as a buffer transformer. -/
def hideLines (b : Buffer) (selStartLine selEndLine : Int) : Buffer :=
  match hideLinesRun b selStartLine selEndLine with
  | none => b
  | some out => out.buf

/-- A document of `n` visible lines without markers or folds. -/
def plainBuffer (n : Nat) : Buffer :=
  { nbLines := n
    hasBegin := fun _ => false
    hasEnd := fun _ => false
    visible := fun _ => true
    foldLevel := fun _ => 0
    foldParent := fun _ => -1
    lastChild := fun l _ => l
    expanded := fun _ => true
    endStyled := 0
    textLength := 0
    lexer := Lexer.other
    calls := [] }

/-! ## Hidden regions -/

/-- A hidden region: a BEGIN marker on line `s`, an END marker on a greater line
`e`, and no BEGIN or END marker strictly between them. -/
def Region (b : Buffer) (s e : Int) : Prop :=
  b.markerBegin s = true ∧ b.markerEnd e = true ∧ s < e ∧
    ∀ l, s < l → l < e → b.markerBegin l = false ∧ b.markerEnd l = false

/-- The markers are well paired: every BEGIN marker opens a region and every END
marker closes one. -/
def WellPaired (b : Buffer) : Prop :=
  (∀ s, b.markerBegin s = true → ∃ e, Region b s e) ∧
  (∀ e, b.markerEnd e = true → ∃ s, Region b s e)

/-- Line `l` lies strictly between the two markers of a region. -/
def MidAt (b : Buffer) (l : Int) : Prop := ∃ s e, Region b s e ∧ s < l ∧ l < e

/-- Line `l` is the BEGIN line of a region or lies strictly inside it. -/
def OpenAt (b : Buffer) (l : Int) : Prop := ∃ s e, Region b s e ∧ s ≤ l ∧ l < e

/-- A region begun on one of the lines `lo..l` is still open after line `l`. -/
def RecentAt (b : Buffer) (lo l : Int) : Prop :=
  ∃ s e, Region b s e ∧ lo ≤ s ∧ s ≤ l ∧ l < e

/-- The clamped range `a..c` lies inside a region, at least one line away from
both of its markers. -/
def DeepInside (b : Buffer) (a c : Int) : Prop :=
  ∃ s e, Region b s e ∧ s + 2 ≤ a ∧ c + 2 ≤ e

/-- No line carries a hide marker. -/
def NoMarkers (b : Buffer) : Prop :=
  ∀ l, b.markerBegin l = false ∧ b.markerEnd l = false

/-! ## `hideMarkedLines`, `showHiddenLines`, `hidelineMarkerClicked`, `restoreHiddenLines` -/

/-- The `for` loop of `hideMarkedLines` from line `i` on, `count` lines being
left, followed by the code after the loop. -/
def hideMarkedScan (endOfDoc : Bool) (maxLines : Int) :
    Nat → Int → Int → Bool → Buffer → Buffer
  | 0, _, startHiding, isInSection, b =>
    if isInSection && endOfDoc then b.hideLinesCall startHiding (maxLines - 1) else b
  | count + 1, i, startHiding, isInSection, b =>
    let endHere := b.markerEnd i
    let beginHere := b.markerBegin i
    if endHere && isInSection && !endOfDoc then
      b.hideLinesCall startHiding (i - 1)
    else
      let b1 := if endHere && isInSection then b.hideLinesCall startHiding (i - 1) else b
      let isInSection1 := if endHere then false else isInSection
      if beginHere then hideMarkedScan endOfDoc maxLines count (i + 1) (i + 1) true b1
      else hideMarkedScan endOfDoc maxLines count (i + 1) startHiding isInSection1 b1

/-- The function `ScintillaEditView::hideMarkedLines(searchStart, endOfDoc)`. -/
def hideMarkedLines (b : Buffer) (searchStart : Int) (endOfDoc : Bool) : Buffer :=
  let maxLines : Int := b.nbLines
  hideMarkedScan endOfDoc maxLines (maxLines - searchStart).toNat searchStart searchStart false b

/-- The inner loop of `showHiddenLines`: from line `j` on, `count` lines being
left, the value of `endLine` when the loop ends (`endLine` on entry if no END
marker is met). -/
def findEndLine (b : Buffer) : Nat → Int → Int → Int
  | 0, _, endLine => endLine
  | count + 1, j, endLine =>
    if b.markerEnd j then j - 1 else findEndLine b count (j + 1) endLine

/-- The outer loop of `showHiddenLines` from line `i` on, `count` lines being left. -/
def showHiddenScan (endOfDoc doDelete : Bool) (maxLines : Int) : Nat → Int → Buffer → Buffer
  | 0, _, b => b
  | count + 1, i, b =>
    if b.markerBegin i then
      let startLine := i + 1
      let endLine := findEndLine b (maxLines - startLine).toNat startLine startLine
      let b1 := b.showLines startLine endLine
      let b2 := if doDelete then (b1.markerDeleteBegin i).markerDeleteEnd (endLine + 1) else b1
      if !endOfDoc then b2 else showHiddenScan endOfDoc doDelete maxLines count (i + 1) b2
    else showHiddenScan endOfDoc doDelete maxLines count (i + 1) b

/-- The function `ScintillaEditView::showHiddenLines(searchStart, endOfDoc, doDelete)`. -/
def showHiddenLines (b : Buffer) (searchStart : Int) (endOfDoc doDelete : Bool) : Buffer :=
  let maxLines : Int := b.nbLines
  showHiddenScan endOfDoc doDelete maxLines (maxLines - searchStart).toNat searchStart b

/-- The backward search of `hidelineMarkerClicked`: the value of `openingLine`
when the loop `while (openingLine >= 0)` ends; `fuel` bounds the iterations. -/
def findOpeningLine (b : Buffer) : Nat → Int → Int
  | 0, openingLine => openingLine
  | fuel + 1, openingLine =>
    if 0 ≤ openingLine then
      if b.markerBegin openingLine then openingLine
      else findOpeningLine b fuel (openingLine - 1)
    else openingLine

/-- The function `ScintillaEditView::hidelineMarkerClicked(lineNumber)`: the
returned flag and the buffer left behind. -/
def hidelineMarkerClicked (b : Buffer) (lineNumber : Int) : Bool × Buffer :=
  let openPresent := b.markerBegin lineNumber
  let closePresent := b.markerEnd lineNumber
  if !openPresent && !closePresent then (false, b)
  else if openPresent then (true, showHiddenLines b lineNumber false true)
  else
    let openingLine := findOpeningLine b (lineNumber + 1).toNat lineNumber
    if 0 ≤ openingLine then (true, showHiddenLines b openingLine false true)
    else (true, b)

/-- The constant `SC_FOLDLEVELBASE` of the widget's interface (0x400). -/
def SC_FOLDLEVELBASE : Nat := 0x400

/-- The constant `SC_FOLDLEVELHEADERFLAG` of the widget's interface (0x2000). -/
def SC_FOLDLEVELHEADERFLAG : Nat := 0x2000

/-- The constant `SC_FOLDLEVELNUMBERMASK` of the widget's interface (0x0FFF). -/
def SC_FOLDLEVELNUMBERMASK : Nat := 0x0FFF

/-- Modelled from the spec: the mode constant `fold_expand` (declared in
`ScintillaEditView.h`), the fold-expanded state a header has after expanding. -/
def fold_expand : Bool := true

/-- Modelled from the spec: the mode constant `fold_collapse`. -/
def fold_collapse : Bool := false

/-- The test `level & SC_FOLDLEVELHEADERFLAG` on a raw fold level. -/
def isHeaderLevel (level : Nat) : Bool :=
  level &&& SC_FOLDLEVELHEADERFLAG != 0

/-- Modelled from the spec: `isFolded(line)`, declared in `ScintillaEditView.h`,
is the buffer query `isExpanded(line)`, the value `fold` compares with `mode`. -/
def isFolded (b : Buffer) (line : Int) : Bool :=
  b.expanded line

/-- Modelled from the spec: the call `execute(SCI_TOGGLEFOLD, line)` flips the
fold-expanded flag of `line`. -/
def toggleFold (b : Buffer) (line : Int) : Buffer :=
  { b with
    expanded := fun l => if l = line then !b.expanded l else b.expanded l
    calls := b.calls ++ [Call.toggleFold line] }

/-- The call `execute(SCI_COLOURISE, 0, -1)`: the whole text is styled, after
which `SCI_GETENDSTYLED` is the text length. -/
def colourise (b : Buffer) : Buffer :=
  { b with endStyled := b.textLength, calls := b.calls ++ [Call.colourise] }

/-- The function `ScintillaEditView::fold(line, mode, shouldBeNotified)`; the
third parameter has no effect in the source and is left out. -/
def fold (b : Buffer) (line : Int) (mode : Bool) : Buffer :=
  let b1 := if b.endStyled < b.textLength then colourise b else b
  let level := b1.foldLevel line
  if isHeaderLevel level then
    if isFolded b1 line != mode then toggleFold b1 line else b1
  else
    let headerLine := b1.foldParent line
    if headerLine = -1 then b1
    else if isFolded b1 headerLine != mode then toggleFold b1 headerLine else b1

/-- The struct `FoldLevelStack`: `levelCount` and the array `levelStack[8]`. -/
structure FoldLevelStack where
  levelCount : Nat
  levelStack : List Nat
  deriving DecidableEq, Repr

namespace FoldLevelStack

/-- A freshly constructed `FoldLevelStack`. -/
def empty : FoldLevelStack :=
  { levelCount := 0, levelStack := List.replicate 8 0 }

/-- The loop `while (levelCount != 0 && level <= levelStack[levelCount - 1])
--levelCount;` of `push`: the value of `levelCount` when it ends. -/
def popCount (levelStack : List Nat) (level : Nat) : Nat → Nat
  | 0 => 0
  | levelCount + 1 =>
    if level ≤ levelStack.getD levelCount 0 then popCount levelStack level levelCount
    else levelCount + 1

/-- The method `FoldLevelStack::push(level)`; `none` when the store
`levelStack[levelCount++] = level` falls outside the eight-entry array. -/
def push (s : FoldLevelStack) (level : Nat) : Option FoldLevelStack :=
  let levelCount := popCount s.levelStack level s.levelCount
  if levelCount < 8 then
    some { levelCount := levelCount + 1, levelStack := s.levelStack.set levelCount level }
  else none

end FoldLevelStack

/-- Why a run of `foldIndentationBasedLevel` has no result in the model. -/
inductive FoldFault where
  | arrayOverrun
  | outOfFuel
  deriving DecidableEq, Repr

/-- The loop `while (line < maxLine)` of `foldIndentationBasedLevel`;
`level2Collapse` is the value after `++level2Collapse`, `fuel` bounds the
number of iterations. -/
def foldIndentScan (level2Collapse : Int) (mode : Bool) (maxLine : Int) :
    Nat → Int → FoldLevelStack → Buffer → Except FoldFault Buffer
  | 0, line, _, b => if line < maxLine then Except.error FoldFault.outOfFuel else Except.ok b
  | fuel + 1, line, levelStack, b =>
    if line < maxLine then
      let level := b.foldLevel line
      if isHeaderLevel level then
        match levelStack.push (level &&& SC_FOLDLEVELNUMBERMASK) with
        | none => Except.error FoldFault.arrayOverrun
        | some levelStack1 =>
          if level2Collapse = (levelStack1.levelCount : Int) then
            let b1 := if isFolded b line != mode then fold b line mode else b
            let line1 := b1.lastChild line (-1)
            foldIndentScan level2Collapse mode maxLine fuel (line1 + 1) levelStack1 b1
          else foldIndentScan level2Collapse mode maxLine fuel (line + 1) levelStack1 b
      else foldIndentScan level2Collapse mode maxLine fuel (line + 1) levelStack b
    else Except.ok b

/-- The function `ScintillaEditView::foldIndentationBasedLevel(level2Collapse, mode)`. -/
def foldIndentationBasedLevel (b : Buffer) (level2Collapse : Int) (mode : Bool) :
    Except FoldFault Buffer :=
  foldIndentScan (level2Collapse + 1) mode b.nbLines b.nbLines 0 FoldLevelStack.empty b

/-- The function `ScintillaEditView::isFoldIndentationBased`. -/
def isFoldIndentationBased (b : Buffer) : Bool :=
  b.lexer == Lexer.python || b.lexer == Lexer.coffeescript || b.lexer == Lexer.haskell
    || b.lexer == Lexer.nimrod || b.lexer == Lexer.vb || b.lexer == Lexer.yaml

/-- The `for` loop of `foldLevel` from line `line` on, `count` lines being left. -/
def foldLevelScan (level2Collapse : Int) (mode : Bool) : Nat → Int → Buffer → Buffer
  | 0, _, b => b
  | count + 1, line, b =>
    let level := b.foldLevel line
    let b1 :=
      if isHeaderLevel level then
        if level2Collapse = (((level - SC_FOLDLEVELBASE) &&& SC_FOLDLEVELNUMBERMASK : Nat) : Int) then
          if isFolded b line != mode then fold b line mode else b
        else b
      else b
    foldLevelScan level2Collapse mode count (line + 1) b1

/-- The function `ScintillaEditView::foldLevel(level2Collapse, mode)`. -/
def foldLevel (b : Buffer) (level2Collapse : Int) (mode : Bool) : Except FoldFault Buffer :=
  if isFoldIndentationBased b then foldIndentationBasedLevel b level2Collapse mode
  else
    let b1 := foldLevelScan level2Collapse mode b.nbLines 0 b
    Except.ok (if mode = fold_expand then hideMarkedLines b1 0 true else b1)

/-! ## `setLineIndent` -/

/-- The part of the widget `setLineIndent` reads and writes: the selection
ranges as (start, end) offsets, the answers to `SCI_LINEFROMPOSITION` and
`SCI_GETLINEINDENTPOSITION`, and the undo-group marks issued (`true` for
`SCI_BEGINUNDOACTION`, `false` for `SCI_ENDUNDOACTION`). -/
structure EditView where
  selections : List (Int × Int)
  lineFromPosition : Int → Int
  lineIndentPosition : Int → Int
  undoMarks : List Bool

/-- The selection arithmetic of the single-selection path of `setLineIndent`, as it
is applied to `crange.cpMin` and, with the same tests, to `crange.cpMax`, once
`posBefore` and `posAfter` are known. -/
def adjustOffset (posBefore posAfter offset : Int) : Int :=
  let posDifference := posAfter - posBefore
  if posAfter > posBefore then
    if offset ≥ posBefore then offset + posDifference else offset
  else if posAfter < posBefore then
    if offset ≥ posAfter then
      if offset ≥ posBefore then offset + posDifference else posAfter
    else offset
  else offset

/-- The body of the loop over the selections in the multi-selection path of
`setLineIndent`, for selection `i`: the reads of `posStart` and `posEnd`, the
indentation of the line of `posStart`, the "move selection on" / "move selection
back" arithmetic on the pair, and the two writes `SCI_SETSELECTIONNSTART` and
`SCI_SETSELECTIONNEND`; `setLineIndentation` is the widget's
`SCI_SETLINEINDENTATION`. -/
def setLineIndentStep (setLineIndentation : Int → Nat → EditView → EditView) (indent : Nat)
    (i : Nat) (v : EditView) : EditView :=
  let posStart := (v.selections.getD i (0, 0)).1
  let posEnd := (v.selections.getD i (0, 0)).2
  let l := v.lineFromPosition posStart
  let posBefore := v.lineIndentPosition l
  let v1 := setLineIndentation l indent v
  let posAfter := v1.lineIndentPosition l
  let posDifference := posAfter - posBefore
  let moved : Int × Int :=
    if posAfter > posBefore then
      (if posStart ≥ posBefore then posStart + posDifference else posStart,
        if posEnd ≥ posBefore then posEnd + posDifference else posEnd)
    else if posAfter < posBefore then
      (if posStart ≥ posAfter then
          (if posStart ≥ posBefore then posStart + posDifference else posAfter)
        else posStart,
        if posEnd ≥ posAfter then
          (if posEnd ≥ posBefore then posEnd + posDifference else posAfter)
        else posEnd)
    else (posStart, posEnd)
  let v2 : EditView :=
    { v1 with selections := List.set v1.selections i (moved.1, (v1.selections.getD i (0, 0)).2) }
  { v2 with selections := List.set v2.selections i ((v2.selections.getD i (0, 0)).1, moved.2) }

/-- The loop over the selections in the multi-selection path of `setLineIndent`,
from selection `i` on, `count` selections being left. -/
def setLineIndentScan (setLineIndentation : Int → Nat → EditView → EditView) (indent : Nat) :
    Nat → Nat → EditView → EditView
  | 0, _, v => v
  | count + 1, i, v =>
    setLineIndentScan setLineIndentation indent count (i + 1)
      (setLineIndentStep setLineIndentation indent i v)

/-- The function `ScintillaEditView::setLineIndent(line, indent)`. -/
def setLineIndent (setLineIndentation : Int → Nat → EditView → EditView)
    (line : Int) (indent : Nat) (v : EditView) : EditView :=
  let nbSelections := v.selections.length
  if nbSelections = 1 then
    let crange := v.selections.getD 0 (0, 0)
    let posBefore := v.lineIndentPosition line
    let v1 := setLineIndentation line indent v
    let posAfter := v1.lineIndentPosition line
    { v1 with selections :=
        [(adjustOffset posBefore posAfter crange.1, adjustOffset posBefore posAfter crange.2)] }
  else
    let v0 : EditView := { v with undoMarks := v.undoMarks ++ [true] }
    let v1 := setLineIndentScan setLineIndentation indent nbSelections 0 v0
    { v1 with undoMarks := v1.undoMarks ++ [false] }

/-- Calls `hideLines` once for every selection (start line, end line) of the list, in order. -/
def hideLinesSeq (b : Buffer) : List (Int × Int) → Buffer
  | [] => b
  | sel :: rest => hideLinesSeq (hideLines b sel.1 sel.2) rest

/-- Every selection of the list avoids the first and the last line and, in the
state it is applied to, does not lie deep inside a region. -/
def SelectionsOk (b : Buffer) : List (Int × Int) → Prop
  | [] => True
  | sel :: rest =>
    1 ≤ sel.1 ∧ sel.1 ≤ sel.2 ∧ sel.2 + 2 ≤ (b.nbLines : Int) ∧ ¬ DeepInside b sel.1 sel.2 ∧
      SelectionsOk (hideLines b sel.1 sel.2) rest

/-- An eight-line document with one hidden region: BEGIN on line 1, END on line 4. -/
def oneRegionDoc : Buffer := hideLines (plainBuffer 8) 2 3

/-- A ten-line document with two regions sharing line 3: BEGIN on 1, END and
BEGIN on 3, END on 6. -/
def twoRegionDoc : Buffer := hideLines (hideLines (plainBuffer 10) 2 2) 4 5

/-- The five-line indentation-based document with fold level numbers 0, 1, 2, 1, 0:
lines 0, 1 and 3 are headers, every header is expanded, and the last child of each
header is the last following line with a greater level number. -/
def exampleDoc : Buffer :=
  { plainBuffer 5 with
    lexer := Lexer.python
    foldLevel := fun l =>
      if l = 0 then 0 ||| SC_FOLDLEVELHEADERFLAG
      else if l = 1 then 1 ||| SC_FOLDLEVELHEADERFLAG
      else if l = 2 then 2
      else if l = 3 then 1 ||| SC_FOLDLEVELHEADERFLAG
      else 0
    foldParent := fun l => if l = 1 then 0 else if l = 2 then 1 else if l = 3 then 0 else -1
    lastChild := fun l _ => if l = 0 then 3 else if l = 1 then 2 else l }

/-- A view with the single selection `[10, 20]` whose line 0 has its indent
position at offset 5. -/
def exampleView : EditView :=
  { selections := [(10, 20)]
    lineFromPosition := fun _ => 0
    lineIndentPosition := fun _ => 5
    undoMarks := [] }

/-- A stand-in for `SCI_SETLINEINDENTATION` that moves the indent position of
every line to offset `pos`. -/
def indentTo (pos : Int) : Int → Nat → EditView → EditView :=
  fun _ _ v => { v with lineIndentPosition := fun _ => pos }

/-- A view with the single selection `[6, 12]` whose line 0 has its indent
position at offset 8. -/
def exampleViewShrink : EditView :=
  { selections := [(6, 12)]
    lineFromPosition := fun _ => 0
    lineIndentPosition := fun _ => 8
    undoMarks := [] }

/-- A two-line document without markers or folds. -/
def twoLineDoc : Buffer := plainBuffer 2

/-- A twelve-line document with three regions: (1, 3), (4, 6) and (6, 8). -/
def threeRegionDoc : Buffer :=
  hideLines (hideLines (hideLines (plainBuffer 12) 2 2) 5 5) 7 7

/-- A view with the two selections `[10, 20]` and `[30, 40]`: offsets below 25 lie
on line 0, the others on line 1; the indent positions are 5 and 28. -/
def exampleViewMulti : EditView :=
  { selections := [(10, 20), (30, 40)]
    lineFromPosition := fun p => if p < 25 then 0 else 1
    lineIndentPosition := fun l => if l = 0 then 5 else 28
    undoMarks := [] }

/-- A stand-in for `SCI_SETLINEINDENTATION` that moves the indent position of the
line `l` by three offsets and leaves the rest of the view as it is. -/
def indentBy3 : Int → Nat → EditView → EditView :=
  fun l _ v =>
    { v with lineIndentPosition := fun k =>
        if k = l then v.lineIndentPosition k + 3 else v.lineIndentPosition k }

/-- A view with two selections on line 0, the range `[3, 4]` and a caret on
offset 1 (the empty range `[1, 1]`); the indent position of line 0 is offset 1
(one character of indentation). -/
def twoSelectionView : EditView :=
  { selections := [(3, 4), (1, 1)]
    lineFromPosition := fun _ => 0
    lineIndentPosition := fun _ => 1
    undoMarks := [] }

/-- A stand-in for `SCI_SETLINEINDENTATION` rewriting the one character of
indentation of a line that starts at offset 0 (a tab written as a blank): the
indent position stays at offset 1, and the widget, which keeps the selections in
step with the text it replaces, leaves a caret that stood on offset 1 on offset 0. -/
def retab : Int → Nat → EditView → EditView :=
  fun _ _ v =>
    { v with selections := v.selections.map (fun r => if r = (1, 1) then (0, 0) else r) }

/-- A six-line document with BEGIN markers on the lines 1 and 3 and no END marker. -/
def twoBeginDoc : Buffer :=
  ((plainBuffer 6).markerAddBegin 1).markerAddBegin 3

/-- Pushing the levels of a list onto `s` in order, first element first; `none` as
soon as one `push` stores outside the eight-entry array. -/
def FoldLevelStack.pushAll (s : FoldLevelStack) : List Nat → Option FoldLevelStack
  | [] => some s
  | level :: rest =>
    match s.push level with
    | none => none
    | some s1 => FoldLevelStack.pushAll s1 rest

/-- The first `levelCount` entries of `levelStack` are strictly increasing from
bottom to top, in an array of eight entries. -/
def FoldLevelStack.Increasing (s : FoldLevelStack) : Prop :=
  s.levelCount ≤ 8 ∧ s.levelStack.length = 8 ∧
  ∀ i j, i < j → j < s.levelCount → s.levelStack.getD i 0 < s.levelStack.getD j 0

/-- The stack `t` is the stack `s` with every stored level relabelled by `f`. -/
def FoldLevelStack.Relabelled (f : Nat → Nat) (s t : FoldLevelStack) : Prop :=
  t.levelCount = s.levelCount ∧ s.levelStack.length = 8 ∧ t.levelStack.length = 8 ∧
  ∀ i, i < s.levelCount → t.levelStack.getD i 0 = f (s.levelStack.getD i 0)

/-- Modelled from the spec: `setExpanded(line, value)`, the call
`execute(SCI_SETFOLDEXPANDED, line, value)`: the fold-expanded flag of `line`
becomes `value`. -/
def Buffer.setFoldExpanded (b : Buffer) (line : Int) (value : Bool) : Buffer :=
  { b with
    expanded := fun l => if l = line then value else b.expanded l
    calls := b.calls ++ [Call.setFoldExpanded line value] }

/-- The expression `x & mask` for an `intptr_t` value `x` (64-bit two's complement)
and a non-negative constant `mask`. -/
def landMask (x : Int) (mask : Nat) : Nat :=
  (x % 18446744073709551616).toNat &&& mask

/-- The first statement of the loop body of `expand`: with `force` the line is
shown or hidden according to `visLevels > 0`, without `force` it is shown when
`doExpand` holds. -/
def expandVisit (doExpand force : Bool) (visLevels line : Int) (b : Buffer) : Buffer :=
  if force then
    (if visLevels > 0 then b.showLines line line else b.hideLinesCall line line)
  else if doExpand then b.showLines line line else b

/-- The value of `levelLine` in the loop body of `expand`: `level`, or the fold
level of the line when `level` is `-1`. -/
def expandLevelLine (level line : Int) (b : Buffer) : Int :=
  if level = -1 then (b.foldLevel line : Int) else level

/-- The statements of the header branch of the loop body of `expand` that precede
the recursive call: with `force` the flag of the line is set according to
`visLevels > 1`, without `force` it is set to 1 when `doExpand` holds and
`isFolded(line)` is false. -/
def expandHeader (doExpand force : Bool) (visLevels line : Int) (b : Buffer) : Buffer :=
  if force then
    (if visLevels > 1 then b.setFoldExpanded line true else b.setFoldExpanded line false)
  else if doExpand then
    (if !isFolded b line then b.setFoldExpanded line true else b)
  else b

/-- The conversion of an `intptr_t` value to `size_t` (64 bits), as in
`size_t lineMaxSubord = execute(SCI_GETLASTCHILD, ...)`, and the wrap-around of
`++line` on a `size_t`: the value modulo `2^64`. -/
def asSize (x : Int) : Int :=
  x % 18446744073709551616

/-- The loop `while (line <= lineMaxSubord)` of `expand`, from the current value of
`line` on; `line` and `lineMaxSubord` are `size_t` values, `++line` wraps. `callee`
is the recursive call `expand(line, doExpand, force, visLevels - 1)` as a function
of `line` and the buffer, returning the new value of the reference parameter
`line` and the buffer. The first argument bounds the number of iterations; `none`
when it is used up or a recursive call has no result. -/
def expandLoop (callee : Int → Buffer → Option (Int × Buffer)) (doExpand force : Bool)
    (visLevels level lineMaxSubord : Int) : Nat → Int → Buffer → Option (Int × Buffer)
  | 0, _, _ => none
  | fuel + 1, line, b =>
    if line ≤ lineMaxSubord then
      let b1 := expandVisit doExpand force visLevels line b
      if landMask (expandLevelLine level line b1) SC_FOLDLEVELHEADERFLAG ≠ 0 then
        match callee line (expandHeader doExpand force visLevels line b1) with
        | none => none
        | some r =>
          expandLoop callee doExpand force visLevels level lineMaxSubord fuel r.1 r.2
      else
        expandLoop callee doExpand force visLevels level lineMaxSubord fuel (asSize (line + 1))
          b1
    else some (line, b)

/-- The function `ScintillaEditView::expand(line, doExpand, force, visLevels,
level)`: the result is the final value of the reference parameter `line` and the
buffer. `line` is a `size_t` value (`0 ≤ line < 2^64`), and the answer of
`SCI_GETLASTCHILD` is converted to `size_t`, so a negative answer is a line
number no document reaches. The recursive calls leave out `level`; its default
stands in the declaration in `ScintillaEditView.h`, which is not part of the
sources, and is taken to be `-1`, the value the body tests for. They pass
`doExpand` on in every branch. The first argument bounds the depth of the calls
and the iterations of each loop; `none` when it is used up. -/
def expand : Nat → Int → Bool → Bool → Int → Int → Buffer → Option (Int × Buffer)
  | 0, _, _, _, _, _, _ => none
  | fuel + 1, line, doExpand, force, visLevels, level, b =>
    let lineMaxSubord := asSize (b.lastChild line (landMask level SC_FOLDLEVELNUMBERMASK))
    expandLoop (fun l b1 => expand fuel l doExpand force (visLevels - 1) (-1) b1)
      doExpand force visLevels level lineMaxSubord fuel (asSize (line + 1)) b

/-- A three-line document: line 0 is an expanded header, line 1 a collapsed header
below it, line 2 the child of line 1. -/
def nestedFoldDoc : Buffer :=
  { plainBuffer 3 with
    foldLevel := fun l =>
      if l = 0 then SC_FOLDLEVELBASE ||| SC_FOLDLEVELHEADERFLAG
      else if l = 1 then (SC_FOLDLEVELBASE + 1) ||| SC_FOLDLEVELHEADERFLAG
      else SC_FOLDLEVELBASE + 2
    foldParent := fun l => if l = 1 then 0 else if l = 2 then 1 else -1
    lastChild := fun _ _ => 2
    expanded := fun l => if l = 1 then false else true
    visible := fun l => if l = 2 then false else true }

/-- From `b` to `b1` lines were only shown and fold-expanded flags only set: the
calls added are `SCI_SHOWLINES(l, l)` and `SCI_SETFOLDEXPANDED(l, 1)` calls, a flag
or a visibility that differs was raised by one of them, and the rest of the
buffer is the same. -/
def OnlyRaised (b b1 : Buffer) : Prop :=
  b1.nbLines = b.nbLines ∧ b1.hasBegin = b.hasBegin ∧ b1.hasEnd = b.hasEnd ∧
  b1.foldLevel = b.foldLevel ∧ b1.foldParent = b.foldParent ∧ b1.lastChild = b.lastChild ∧
  (∀ l, b.expanded l = true → b1.expanded l = true) ∧
  (∀ l, b.visible l = true → b1.visible l = true) ∧
  ∃ extra, b1.calls = b.calls ++ extra ∧
    (∀ c, c ∈ extra → (∃ l, c = Call.showLines l l) ∨ (∃ l, c = Call.setFoldExpanded l true)) ∧
    (∀ l, b1.expanded l = true → b.expanded l = true ∨ Call.setFoldExpanded l true ∈ extra) ∧
    (∀ l, b1.visible l = true → b.visible l = true ∨ Call.showLines l l ∈ extra)

/-- Reading the markers of line `i` in a scan of the lines upward, the END marker
before the BEGIN marker; `openLine` is the line of the BEGIN marker read last when
no END marker has been read after it. The result is the new value of `openLine`,
or `none` when the markers do not alternate BEGIN, END, BEGIN, END or an END is
less than two lines after its BEGIN. -/
def alternateStep (b : Buffer) (i : Int) (openLine : Option Int) : Option (Option Int) :=
  let afterEnd : Option (Option Int) :=
    if b.markerEnd i then
      (match openLine with
       | some s => if s + 2 ≤ i then some none else none
       | none => none)
    else some openLine
  match afterEnd with
  | none => none
  | some o =>
    if b.markerBegin i then
      (match o with
       | none => some (some i)
       | some _ => none)
    else some o

/-- The scan of the lines upward from line `i`, `count` lines being left: every
line passes `alternateStep` and no BEGIN marker is left without its END marker. -/
def alternateScan (b : Buffer) : Nat → Int → Option Int → Bool
  | 0, _, openLine => openLine.isNone
  | count + 1, i, openLine =>
    match alternateStep b i openLine with
    | none => false
    | some o => alternateScan b count (i + 1) o

/-- The hide markers of the document alternate BEGIN, END, BEGIN, END when the
lines are scanned upward (an END read before a BEGIN on the same line), every END
being at least two lines after its BEGIN. -/
def Alternating (b : Buffer) : Prop :=
  alternateScan b b.nbLines 0 none = true

/-- The loop of `foldIndentationBasedLevel` as in `foldIndentScan`, with the values
`levelStack.levelCount` has after each `push`, in order; for a `push` that stores
outside the array the value recorded is the one `levelCount++` gives. -/
def foldIndentTrace (level2Collapse : Int) (mode : Bool) (maxLine : Int) :
    Nat → Int → FoldLevelStack → Buffer → Except FoldFault Buffer × List Nat
  | 0, line, _, b =>
    (if line < maxLine then Except.error FoldFault.outOfFuel else Except.ok b, [])
  | fuel + 1, line, levelStack, b =>
    if line < maxLine then
      let level := b.foldLevel line
      if isHeaderLevel level then
        match levelStack.push (level &&& SC_FOLDLEVELNUMBERMASK) with
        | none =>
          (Except.error FoldFault.arrayOverrun,
            [FoldLevelStack.popCount levelStack.levelStack (level &&& SC_FOLDLEVELNUMBERMASK)
              levelStack.levelCount + 1])
        | some levelStack1 =>
          if level2Collapse = (levelStack1.levelCount : Int) then
            let b1 := if isFolded b line != mode then fold b line mode else b
            let line1 := b1.lastChild line (-1)
            ((foldIndentTrace level2Collapse mode maxLine fuel (line1 + 1) levelStack1 b1).1,
              levelStack1.levelCount ::
                (foldIndentTrace level2Collapse mode maxLine fuel (line1 + 1) levelStack1 b1).2)
          else
            ((foldIndentTrace level2Collapse mode maxLine fuel (line + 1) levelStack1 b).1,
              levelStack1.levelCount ::
                (foldIndentTrace level2Collapse mode maxLine fuel (line + 1) levelStack1 b).2)
      else foldIndentTrace level2Collapse mode maxLine fuel (line + 1) levelStack b
    else (Except.ok b, [])

/-- The depths reached by `foldIndentationBasedLevel(level2Collapse, mode)`: the
value of `levelStack.levelCount` after each `push`. -/
def foldIndentationBasedDepths (b : Buffer) (level2Collapse : Int) (mode : Bool) : List Nat :=
  (foldIndentTrace (level2Collapse + 1) mode b.nbLines b.nbLines 0 FoldLevelStack.empty b).2

/-- A ten-line indentation-based document: the lines 0 to 7 are headers with the
level numbers 1 to 8, line 8 is not a header and has level number 8, line 9 is a
header with level number 9. The last child of line 7 is line 7 itself, the last
child of every other line is the last line. -/
def deepDoc : Buffer :=
  { plainBuffer 10 with
    lexer := Lexer.python
    foldLevel := fun l =>
      if 0 ≤ l ∧ l ≤ 7 then (l + 1).toNat ||| SC_FOLDLEVELHEADERFLAG
      else if l = 8 then 8
      else 9 ||| SC_FOLDLEVELHEADERFLAG
    lastChild := fun l _ => if l = 7 then 7 else 9 }

/-- The calls `expand(line, true, false, visLevels)` issues for the `count` lines
from `l` on, in the order of the lines: `SCI_SHOWLINES(l, l)` for every line, and
after it `SCI_SETFOLDEXPANDED(l, 1)` when the fold level of the line has the header
flag and its fold-expanded flag is not set in `b`. -/
def raisedCalls (b : Buffer) : Nat → Int → List Call
  | 0, _ => []
  | count + 1, l =>
    Call.showLines l l ::
      ((if landMask (b.foldLevel l) SC_FOLDLEVELHEADERFLAG ≠ 0 ∧ b.expanded l = false then
          [Call.setFoldExpanded l true]
        else []) ++ raisedCalls b count (l + 1))

/-- From `b` to `b1` exactly the lines `lo ≤ l < hi` were shown, no flag of another
line was touched and the rest of the buffer is the same; when `level` is `-1`,
the flags set are those of the lines `lo ≤ l < hi` whose fold level has the header
flag, and the calls added are `raisedCalls`. -/
def RaisedOn (level : Int) (b b1 : Buffer) (lo hi : Int) : Prop :=
  lo ≤ hi ∧
  b1.nbLines = b.nbLines ∧ b1.hasBegin = b.hasBegin ∧ b1.hasEnd = b.hasEnd ∧
  b1.foldLevel = b.foldLevel ∧ b1.foldParent = b.foldParent ∧ b1.lastChild = b.lastChild ∧
  (∀ l, b1.visible l = true ↔ (b.visible l = true ∨ (lo ≤ l ∧ l < hi))) ∧
  (∀ l, ¬ (lo ≤ l ∧ l < hi) → b1.expanded l = b.expanded l) ∧
  (level = -1 →
    (∀ l, b1.expanded l = true ↔
      (b.expanded l = true ∨
        (lo ≤ l ∧ l < hi ∧ landMask (b.foldLevel l) SC_FOLDLEVELHEADERFLAG ≠ 0))) ∧
    b1.calls = b.calls ++ raisedCalls b (hi - lo).toNat lo)

/-! ## Theorems -/

/-! ### Buffer primitives -/

namespace Buffer

@[simp] theorem nbLines_markerAddBegin (b : Buffer) (k : Int) :
    (b.markerAddBegin k).nbLines = b.nbLines := by
  unfold markerAddBegin; split <;> rfl

@[simp] theorem nbLines_markerAddEnd (b : Buffer) (k : Int) :
    (b.markerAddEnd k).nbLines = b.nbLines := by
  unfold markerAddEnd; split <;> rfl

@[simp] theorem nbLines_markerDeleteBegin (b : Buffer) (k : Int) :
    (b.markerDeleteBegin k).nbLines = b.nbLines := by
  unfold markerDeleteBegin; split <;> rfl

@[simp] theorem nbLines_markerDeleteEnd (b : Buffer) (k : Int) :
    (b.markerDeleteEnd k).nbLines = b.nbLines := by
  unfold markerDeleteEnd; split <;> rfl

@[simp] theorem nbLines_setHideLineChanged (b : Buffer) (h : Bool) (k : Int) :
    (b.setHideLineChanged h k).nbLines = b.nbLines := rfl

@[simp] theorem nbLines_showLines (b : Buffer) (f t : Int) :
    (b.showLines f t).nbLines = b.nbLines := rfl

@[simp] theorem nbLines_hideLinesCall (b : Buffer) (f t : Int) :
    (b.hideLinesCall f t).nbLines = b.nbLines := rfl

@[simp] theorem calls_markerAddBegin (b : Buffer) (k : Int) :
    (b.markerAddBegin k).calls = b.calls := by
  unfold markerAddBegin; split <;> rfl

@[simp] theorem calls_markerAddEnd (b : Buffer) (k : Int) :
    (b.markerAddEnd k).calls = b.calls := by
  unfold markerAddEnd; split <;> rfl

@[simp] theorem calls_markerDeleteBegin (b : Buffer) (k : Int) :
    (b.markerDeleteBegin k).calls = b.calls := by
  unfold markerDeleteBegin; split <;> rfl

@[simp] theorem calls_markerDeleteEnd (b : Buffer) (k : Int) :
    (b.markerDeleteEnd k).calls = b.calls := by
  unfold markerDeleteEnd; split <;> rfl

theorem validLine_iff (b : Buffer) (l : Int) :
    b.validLine l = true ↔ 0 ≤ l ∧ l < (b.nbLines : Int) := by
  simp [validLine]

theorem markerBegin_valid {b : Buffer} {l : Int} (h : b.markerBegin l = true) :
    0 ≤ l ∧ l < (b.nbLines : Int) := by
  simp [markerBegin, validLine] at h
  omega

theorem markerEnd_valid {b : Buffer} {l : Int} (h : b.markerEnd l = true) :
    0 ≤ l ∧ l < (b.nbLines : Int) := by
  simp [markerEnd, validLine] at h
  omega

@[simp] theorem markerBegin_markerDeleteBegin (b : Buffer) (k l : Int) :
    (b.markerDeleteBegin k).markerBegin l = (b.markerBegin l && !decide (l = k)) := by
  unfold markerDeleteBegin markerBegin validLine
  by_cases hk : l = k
  · subst hk; split <;> simp_all
  · split <;> simp [hk]

@[simp] theorem markerEnd_markerDeleteBegin (b : Buffer) (k l : Int) :
    (b.markerDeleteBegin k).markerEnd l = b.markerEnd l := by
  unfold markerDeleteBegin markerEnd validLine
  split <;> rfl

@[simp] theorem markerEnd_markerDeleteEnd (b : Buffer) (k l : Int) :
    (b.markerDeleteEnd k).markerEnd l = (b.markerEnd l && !decide (l = k)) := by
  unfold markerDeleteEnd markerEnd validLine
  by_cases hk : l = k
  · subst hk; split <;> simp_all
  · split <;> simp [hk]

@[simp] theorem markerBegin_markerDeleteEnd (b : Buffer) (k l : Int) :
    (b.markerDeleteEnd k).markerBegin l = b.markerBegin l := by
  unfold markerDeleteEnd markerBegin validLine
  split <;> rfl

@[simp] theorem markerBegin_markerAddBegin (b : Buffer) (k l : Int) :
    (b.markerAddBegin k).markerBegin l = (b.markerBegin l || (decide (l = k) && b.validLine k)) := by
  unfold markerAddBegin markerBegin validLine
  by_cases hk : l = k
  · subst hk; split <;> simp_all
  · split <;> simp [hk]

@[simp] theorem markerEnd_markerAddBegin (b : Buffer) (k l : Int) :
    (b.markerAddBegin k).markerEnd l = b.markerEnd l := by
  unfold markerAddBegin markerEnd validLine
  split <;> rfl

@[simp] theorem markerEnd_markerAddEnd (b : Buffer) (k l : Int) :
    (b.markerAddEnd k).markerEnd l = (b.markerEnd l || (decide (l = k) && b.validLine k)) := by
  unfold markerAddEnd markerEnd validLine
  by_cases hk : l = k
  · subst hk; split <;> simp_all
  · split <;> simp [hk]

@[simp] theorem markerBegin_markerAddEnd (b : Buffer) (k l : Int) :
    (b.markerAddEnd k).markerBegin l = b.markerBegin l := by
  unfold markerAddEnd markerBegin validLine
  split <;> rfl

@[simp] theorem markerBegin_setHideLineChanged (b : Buffer) (h : Bool) (k l : Int) :
    (b.setHideLineChanged h k).markerBegin l = b.markerBegin l := rfl

@[simp] theorem markerEnd_setHideLineChanged (b : Buffer) (h : Bool) (k l : Int) :
    (b.setHideLineChanged h k).markerEnd l = b.markerEnd l := rfl

@[simp] theorem markerBegin_showLines (b : Buffer) (f t l : Int) :
    (b.showLines f t).markerBegin l = b.markerBegin l := rfl

@[simp] theorem markerEnd_showLines (b : Buffer) (f t l : Int) :
    (b.showLines f t).markerEnd l = b.markerEnd l := rfl

@[simp] theorem markerBegin_hideLinesCall (b : Buffer) (f t l : Int) :
    (b.hideLinesCall f t).markerBegin l = b.markerBegin l := rfl

@[simp] theorem markerEnd_hideLinesCall (b : Buffer) (f t l : Int) :
    (b.hideLinesCall f t).markerEnd l = b.markerEnd l := rfl

end Buffer

/-! ### `removeMarker` and the loops of `hideLines` -/

@[simp] theorem removeMarker_nbLines (k : Int) (mo mc : Bool) (st : HideScan) :
    (removeMarker k mo mc st).buf.nbLines = st.buf.nbLines := by
  unfold removeMarker
  simp only
  split <;> split <;> simp

theorem removeMarker_markerBegin (k : Int) (mo mc : Bool) (st : HideScan) (l : Int) :
    (removeMarker k mo mc st).buf.markerBegin l
      = (st.buf.markerBegin l && !(mo && decide (l = k))) := by
  unfold removeMarker
  cases mo <;> cases mc <;> cases hb : st.buf.markerBegin k <;>
    cases he : st.buf.markerEnd k <;> by_cases hk : l = k <;> simp_all

theorem removeMarker_markerEnd (k : Int) (mo mc : Bool) (st : HideScan) (l : Int) :
    (removeMarker k mo mc st).buf.markerEnd l
      = (st.buf.markerEnd l && !(mc && decide (l = k))) := by
  unfold removeMarker
  cases mo <;> cases mc <;> cases hb : st.buf.markerBegin k <;>
    cases he : st.buf.markerEnd k <;> by_cases hk : l = k <;> simp_all

theorem removeMarker_scope (k : Int) (mo mc : Bool) (st : HideScan) :
    (removeMarker k mo mc st).scope
      = st.scope - (if (mc && st.buf.markerEnd k) = true then 1 else 0)
          + (if (mo && st.buf.markerBegin k) = true then 1 else 0) := by
  unfold removeMarker
  simp only
  split <;> split <;> simp_all

theorem removeMarker_recent (k : Int) (mo mc : Bool) (st : HideScan) :
    (removeMarker k mo mc st).recentMarkerWasOpen
      = (if (mo && st.buf.markerBegin k) = true then true
         else if (mc && st.buf.markerEnd k) = true then false
         else st.recentMarkerWasOpen) := by
  unfold removeMarker
  simp only
  split <;> split <;> simp_all

theorem removeMarker_calls (k : Int) (mo mc : Bool) (st : HideScan) :
    (removeMarker k mo mc st).buf.calls = st.buf.calls := by
  unfold removeMarker
  cases mo <;> cases mc <;> cases hb : st.buf.markerBegin k <;>
    cases he : st.buf.markerEnd k <;> simp_all

theorem removeMarker_absent (k : Int) (mo mc : Bool) (st : HideScan)
    (hb : (mo && st.buf.markerBegin k) = false) (he : (mc && st.buf.markerEnd k) = false) :
    removeMarker k mo mc st = st := by
  unfold removeMarker
  simp [hb, he]

theorem walkStart_stop (cond : Int → Bool) (fuel : Nat) (sm : Int) (st : HideScan)
    (h : cond st.scope = false) : walkStart cond fuel sm st = (sm, st) := by
  cases fuel <;> simp [walkStart, h]

theorem walkEnd_stop (cond : Int → Bool) (n : Int) (fuel : Nat) (em : Int) (st : HideScan)
    (h : cond st.scope = false) : walkEnd cond n fuel em st = (em, st) := by
  cases fuel <;> simp [walkEnd, h]

/-- More iterations than `startMarker + 1` never change the result of the upward
walk: the guard `startMarker >= 0` ends the loop first. -/
theorem walkStart_fuel (cond : Int → Bool) :
    ∀ (fuel : Nat) (sm : Int) (st : HideScan), (sm + 1).toNat ≤ fuel →
      walkStart cond fuel sm st = walkStart cond (sm + 1).toNat sm st := by
  intro fuel
  induction fuel with
  | zero =>
    intro sm st h
    have : (sm + 1).toNat = 0 := by omega
    rw [this]
  | succ f ih =>
    intro sm st h
    by_cases hs : 0 ≤ sm
    · obtain ⟨k, hk⟩ : ∃ k, (sm + 1).toNat = k + 1 := ⟨(sm + 1).toNat - 1, by omega⟩
      have hk' : (sm - 1 + 1).toNat = k := by omega
      rw [hk]
      unfold walkStart
      split
      · rw [ih (sm - 1) _ (by omega), hk']
      · rfl
    · have h0 : (sm + 1).toNat = 0 := by omega
      rw [h0]
      simp [walkStart, hs]

/-- More iterations than `nbLines - endMarker` never change the result of the
downward walk: the guard `endMarker < nbLines` ends the loop first. -/
theorem walkEnd_fuel (cond : Int → Bool) (n : Int) :
    ∀ (fuel : Nat) (em : Int) (st : HideScan), (n - em).toNat ≤ fuel →
      walkEnd cond n fuel em st = walkEnd cond n (n - em).toNat em st := by
  intro fuel
  induction fuel with
  | zero =>
    intro em st h
    have : (n - em).toNat = 0 := by omega
    rw [this]
  | succ f ih =>
    intro em st h
    by_cases hs : em < n
    · obtain ⟨k, hk⟩ : ∃ k, (n - em).toNat = k + 1 := ⟨(n - em).toNat - 1, by omega⟩
      have hk' : (n - (em + 1)).toNat = k := by omega
      rw [hk]
      unfold walkEnd
      split
      · rw [ih (em + 1) _ (by omega), hk']
      · rfl
    · have h0 : (n - em).toNat = 0 := by omega
      rw [h0]
      simp [walkEnd, hs]

theorem removeRange_nbLines (count : Nat) (i : Int) (st : HideScan) :
    (removeRange count i st).buf.nbLines = st.buf.nbLines := by
  induction count generalizing i st with
  | zero => rfl
  | succ n ih => simp [removeRange, ih]

theorem removeRange_calls (count : Nat) (i : Int) (st : HideScan) :
    (removeRange count i st).buf.calls = st.buf.calls := by
  induction count generalizing i st with
  | zero => rfl
  | succ n ih => simp [removeRange, ih, removeMarker_calls]

theorem removeMarker_begin_iff (k : Int) (mo mc : Bool) (st : HideScan) (l : Int) :
    (removeMarker k mo mc st).buf.markerBegin l = true
      ↔ st.buf.markerBegin l = true ∧ ¬ (mo = true ∧ l = k) := by
  rw [removeMarker_markerBegin]
  cases mo <;> simp

theorem removeMarker_end_iff (k : Int) (mo mc : Bool) (st : HideScan) (l : Int) :
    (removeMarker k mo mc st).buf.markerEnd l = true
      ↔ st.buf.markerEnd l = true ∧ ¬ (mc = true ∧ l = k) := by
  rw [removeMarker_markerEnd]
  cases mc <;> simp

theorem removeRange_begin_iff (count : Nat) (i : Int) (st : HideScan) (l : Int) :
    (removeRange count i st).buf.markerBegin l = true
      ↔ st.buf.markerBegin l = true ∧ ¬ (i ≤ l ∧ l < i + count) := by
  induction count generalizing i st with
  | zero =>
    simp only [removeRange, Nat.cast_zero, add_zero]
    constructor
    · intro h; exact ⟨h, by omega⟩
    · intro h; exact h.1
  | succ n ih =>
    simp only [removeRange, ih, removeMarker_begin_iff]
    push_cast
    constructor
    · rintro ⟨⟨h1, h2⟩, h3⟩
      refine ⟨h1, ?_⟩
      simp only [true_and] at h2
      omega
    · rintro ⟨h1, h2⟩
      refine ⟨⟨h1, ?_⟩, ?_⟩
      · simp only [true_and]; omega
      · omega

theorem removeRange_end_iff (count : Nat) (i : Int) (st : HideScan) (l : Int) :
    (removeRange count i st).buf.markerEnd l = true
      ↔ st.buf.markerEnd l = true ∧ ¬ (i ≤ l ∧ l < i + count) := by
  induction count generalizing i st with
  | zero =>
    simp only [removeRange, Nat.cast_zero, add_zero]
    constructor
    · intro h; exact ⟨h, by omega⟩
    · intro h; exact h.1
  | succ n ih =>
    simp only [removeRange, ih, removeMarker_end_iff]
    push_cast
    constructor
    · rintro ⟨⟨h1, h2⟩, h3⟩
      refine ⟨h1, ?_⟩
      simp only [true_and] at h2
      omega
    · rintro ⟨h1, h2⟩
      refine ⟨⟨h1, ?_⟩, ?_⟩
      · simp only [true_and]; omega
      · omega

/-! ### Regions of a well-paired marker state -/

theorem Region.end_unique {b : Buffer} {s e e' : Int} (h : Region b s e) (h' : Region b s e') :
    e = e' := by
  rcases lt_trichotomy e e' with hlt | heq | hgt
  · have := (h'.2.2.2 e h.2.2.1 hlt).2
    rw [h.2.1] at this; cases this
  · exact heq
  · have := (h.2.2.2 e' h'.2.2.1 hgt).2
    rw [h'.2.1] at this; cases this

theorem Region.begin_unique {b : Buffer} {s s' e : Int} (h : Region b s e) (h' : Region b s' e) :
    s = s' := by
  rcases lt_trichotomy s s' with hlt | heq | hgt
  · have := (h.2.2.2 s' hlt h'.2.2.1).1
    rw [h'.1] at this; cases this
  · exact heq
  · have := (h'.2.2.2 s hgt h.2.2.1).1
    rw [h.1] at this; cases this

theorem MidAt.no_begin {b : Buffer} {l : Int} (h : MidAt b l) : b.markerBegin l = false := by
  obtain ⟨s, e, hr, h1, h2⟩ := h
  exact (hr.2.2.2 l h1 h2).1

theorem MidAt.no_end {b : Buffer} {l : Int} (h : MidAt b l) : b.markerEnd l = false := by
  obtain ⟨s, e, hr, h1, h2⟩ := h
  exact (hr.2.2.2 l h1 h2).2

/-- Two regions that both contain line `l` (BEGIN line included) are the same region. -/
theorem Region.same_of_open {b : Buffer} {s e s' e' l : Int} (h : Region b s e)
    (h' : Region b s' e') (h1 : s ≤ l) (h2 : l < e) (h1' : s' ≤ l) (h2' : l < e') :
    s = s' ∧ e = e' := by
  have hs : s = s' := by
    rcases lt_trichotomy s s' with hlt | heq | hgt
    · have := (h.2.2.2 s' hlt (by omega)).1
      rw [h'.1] at this; cases this
    · exact heq
    · have := (h'.2.2.2 s hgt (by omega)).1
      rw [h.1] at this; cases this
  subst hs
  exact ⟨rfl, h.end_unique h'⟩

theorem openAt_iff {b : Buffer} (hwp : WellPaired b) (l : Int) :
    OpenAt b l ↔ MidAt b l ∨ b.markerBegin l = true := by
  constructor
  · rintro ⟨s, e, hr, h1, h2⟩
    rcases eq_or_lt_of_le h1 with heq | hlt
    · right; rw [← heq]; exact hr.1
    · left; exact ⟨s, e, hr, hlt, h2⟩
  · rintro (⟨s, e, hr, h1, h2⟩ | hb)
    · exact ⟨s, e, hr, le_of_lt h1, h2⟩
    · obtain ⟨e, hr⟩ := hwp.1 l hb
      exact ⟨l, e, hr, le_refl l, hr.2.2.1⟩

theorem midAt_iff_pred {b : Buffer} (l : Int) :
    MidAt b l ↔ OpenAt b (l - 1) ∧ b.markerEnd l = false := by
  constructor
  · intro h
    refine ⟨?_, h.no_end⟩
    obtain ⟨s, e, hr, h1, h2⟩ := h
    exact ⟨s, e, hr, by omega, by omega⟩
  · rintro ⟨⟨s, e, hr, h1, h2⟩, he⟩
    refine ⟨s, e, hr, by omega, ?_⟩
    rcases lt_or_eq_of_le (show l ≤ e by omega) with hlt | heq
    · exact hlt
    · rw [heq, hr.2.1] at he; cases he

theorem openAt_pred_of_end {b : Buffer} (hwp : WellPaired b) {l : Int}
    (he : b.markerEnd l = true) : OpenAt b (l - 1) := by
  obtain ⟨s, hr⟩ := hwp.2 l he
  exact ⟨s, l, hr, by have := hr.2.2.1; omega, by omega⟩

theorem recentAt_iff_pred {b : Buffer} (hwp : WellPaired b) {lo l : Int} (hlo : lo ≤ l) :
    RecentAt b lo l ↔
      b.markerBegin l = true ∨ (RecentAt b lo (l - 1) ∧ b.markerEnd l = false) := by
  constructor
  · rintro ⟨s, e, hr, h1, h2, h3⟩
    rcases eq_or_lt_of_le h2 with heq | hlt
    · left; rw [← heq]; exact hr.1
    · right
      exact ⟨⟨s, e, hr, h1, by omega, by omega⟩, (hr.2.2.2 l hlt h3).2⟩
  · rintro (hb | ⟨⟨s, e, hr, h1, h2, h3⟩, he⟩)
    · obtain ⟨e, hr⟩ := hwp.1 l hb
      exact ⟨l, e, hr, hlo, le_refl l, hr.2.2.1⟩
    · refine ⟨s, e, hr, h1, by omega, ?_⟩
      rcases lt_or_eq_of_le (show l ≤ e by omega) with hlt | heq
      · exact hlt
      · rw [heq, hr.2.1] at he; cases he

/-- One line of the removal loop keeps `scope` in step with the regions of the
original markers: `base + 1` inside a region, `base` outside. -/
theorem scope_step {b : Buffer} (hwp : WellPaired b) (i sc base : Int)
    (h1 : OpenAt b (i - 1) → sc = base + 1) (h0 : ¬ OpenAt b (i - 1) → sc = base) :
    (OpenAt b i →
      sc - (if b.markerEnd i = true then 1 else 0) + (if b.markerBegin i = true then 1 else 0)
        = base + 1) ∧
    (¬ OpenAt b i →
      sc - (if b.markerEnd i = true then 1 else 0) + (if b.markerBegin i = true then 1 else 0)
        = base) := by
  have hopen := openAt_iff hwp i
  have hmid := midAt_iff_pred (b := b) i
  cases he : b.markerEnd i <;> cases hb : b.markerBegin i <;>
    simp only [Bool.false_eq_true, if_true, if_false, sub_zero, add_zero] <;>
    rw [he] at hmid <;> rw [hb] at hopen
  · have hiff : OpenAt b i ↔ OpenAt b (i - 1) := by
      rw [hopen, hmid]; simp
    exact ⟨fun h => h1 (hiff.1 h), fun h => h0 (fun h' => h (hiff.2 h'))⟩
  · have ho : OpenAt b i := hopen.2 (Or.inr rfl)
    have hnm : ¬ MidAt b i := fun h => by rw [h.no_begin] at hb; cases hb
    have hprev : ¬ OpenAt b (i - 1) := fun h => hnm (hmid.2 ⟨h, rfl⟩)
    have hsc := h0 hprev
    exact ⟨fun _ => by omega, fun h => absurd ho h⟩
  · have hprev := openAt_pred_of_end hwp he
    have hsc := h1 hprev
    have ho : ¬ OpenAt b i := fun h => by
      rcases hopen.1 h with h | h
      · exact Bool.noConfusion (hmid.1 h).2
      · exact Bool.noConfusion h
    exact ⟨fun h => absurd h ho, fun _ => by omega⟩
  · have hprev := openAt_pred_of_end hwp he
    have hsc := h1 hprev
    have ho : OpenAt b i := hopen.2 (Or.inr rfl)
    exact ⟨fun _ => by omega, fun h => absurd ho h⟩

theorem removeRange_inv {b0 : Buffer} (hwp : WellPaired b0) (lo base : Int) :
    ∀ (count : Nat) (i : Int) (st : HideScan), lo < i →
      (∀ l, i ≤ l → st.buf.markerBegin l = b0.markerBegin l ∧
        st.buf.markerEnd l = b0.markerEnd l) →
      (OpenAt b0 (i - 1) → st.scope = base + 1) → (¬ OpenAt b0 (i - 1) → st.scope = base) →
      (st.recentMarkerWasOpen = true ↔ RecentAt b0 lo (i - 1)) →
      (OpenAt b0 (i + count - 1) → (removeRange count i st).scope = base + 1) ∧
      (¬ OpenAt b0 (i + count - 1) → (removeRange count i st).scope = base) ∧
      ((removeRange count i st).recentMarkerWasOpen = true ↔ RecentAt b0 lo (i + count - 1)) := by
  intro count
  induction count with
  | zero =>
    intro i st _ _ h1 h0 hr
    simp only [removeRange, Nat.cast_zero, add_zero]
    exact ⟨h1, h0, hr⟩
  | succ n ih =>
    intro i st hlo hag h1 h0 hr
    have hidx : i + ((n + 1 : Nat) : Int) - 1 = (i + 1) + (n : Int) - 1 := by
      push_cast; ring
    rw [hidx]
    simp only [removeRange]
    have hBi := (hag i (le_refl i)).1
    have hEi := (hag i (le_refl i)).2
    apply ih (i + 1) (removeMarker i true true st) (by omega)
    · intro l hl
      have hne : l ≠ i := by omega
      rw [removeMarker_markerBegin, removeMarker_markerEnd]
      simp only [hne, decide_False, Bool.and_false, Bool.not_false, Bool.and_true]
      exact hag l (by omega)
    · intro ho
      rw [removeMarker_scope]
      simp only [Bool.true_and, hBi, hEi]
      have hi : i + 1 - 1 = i := by omega
      rw [hi] at ho
      exact (scope_step hwp i st.scope base h1 h0).1 ho
    · intro ho
      rw [removeMarker_scope]
      simp only [Bool.true_and, hBi, hEi]
      have hi : i + 1 - 1 = i := by omega
      rw [hi] at ho
      exact (scope_step hwp i st.scope base h1 h0).2 ho
    · have hi : i + 1 - 1 = i := by omega
      rw [hi, removeMarker_recent, recentAt_iff_pred hwp (le_of_lt hlo)]
      simp only [Bool.true_and, hBi, hEi]
      cases hb : b0.markerBegin i <;> cases he : b0.markerEnd i <;>
        simp [hr]

theorem removeSelected_nbLines (b : Buffer) (a c : Int) :
    (removeSelected b a c).buf.nbLines = b.nbLines := by
  simp [removeSelected, removeRange_nbLines]

theorem removeSelected_calls (b : Buffer) (a c : Int) :
    (removeSelected b a c).buf.calls = b.calls := by
  simp [removeSelected, removeRange_calls, removeMarker_calls]

theorem removeSelected_begin_iff (b : Buffer) (a c : Int) (hac : a ≤ c) (l : Int) :
    (removeSelected b a c).buf.markerBegin l = true
      ↔ b.markerBegin l = true ∧ ¬ (a - 1 ≤ l ∧ l ≤ c) := by
  have hcnt : ((c + 1 - a).toNat : Int) = c + 1 - a := Int.toNat_of_nonneg (by omega)
  simp only [removeSelected, removeMarker_begin_iff, removeRange_begin_iff, hcnt]
  constructor
  · rintro ⟨⟨⟨h1, h2⟩, h3⟩, _⟩
    refine ⟨h1, ?_⟩
    simp only [true_and] at h2
    omega
  · rintro ⟨h1, h2⟩
    refine ⟨⟨⟨h1, ?_⟩, ?_⟩, ?_⟩
    · simp only [true_and]; omega
    · omega
    · simp

theorem removeSelected_end_iff (b : Buffer) (a c : Int) (hac : a ≤ c) (l : Int) :
    (removeSelected b a c).buf.markerEnd l = true
      ↔ b.markerEnd l = true ∧ ¬ (a ≤ l ∧ l ≤ c + 1) := by
  have hcnt : ((c + 1 - a).toNat : Int) = c + 1 - a := Int.toNat_of_nonneg (by omega)
  simp only [removeSelected, removeMarker_end_iff, removeRange_end_iff, hcnt]
  constructor
  · rintro ⟨⟨⟨h1, _⟩, h3⟩, h4⟩
    refine ⟨h1, ?_⟩
    simp only [true_and] at h4
    omega
  · rintro ⟨h1, h2⟩
    refine ⟨⟨⟨h1, ?_⟩, ?_⟩, ?_⟩
    · simp
    · omega
    · simp only [true_and]; omega

/-- After the removal phase on a well-paired state, `scope` is the number of
regions entered minus the number of regions left, and `recentMarkerWasOpen` says
that a region begun within `startMarker..endLine` ends after `endMarker`. -/
theorem removeSelected_scope {b : Buffer} (hwp : WellPaired b) (a c : Int) (hac : a ≤ c) :
    ∃ base : Int,
      (MidAt b (a - 1) → base = -1) ∧ (¬ MidAt b (a - 1) → base = 0) ∧
      (MidAt b (c + 1) → (removeSelected b a c).scope = base + 1) ∧
      (¬ MidAt b (c + 1) → (removeSelected b a c).scope = base) ∧
      ((removeSelected b a c).recentMarkerWasOpen = true ↔
        ∃ s e, Region b s e ∧ a - 1 ≤ s ∧ s ≤ c ∧ c + 1 < e) := by
  have hcnt : ((c + 1 - a).toNat : Int) = c + 1 - a := Int.toNat_of_nonneg (by omega)
  obtain ⟨base, hb1, hb0⟩ : ∃ base : Int,
      (MidAt b (a - 1) → base = -1) ∧ (¬ MidAt b (a - 1) → base = 0) := by
    by_cases h : MidAt b (a - 1)
    · exact ⟨-1, fun _ => rfl, fun h' => absurd h h'⟩
    · exact ⟨0, fun h' => absurd h' h, fun _ => rfl⟩
  refine ⟨base, hb1, hb0, ?_⟩
  let st0 : HideScan := { buf := b, scope := 0, recentMarkerWasOpen := false }
  let st1 := removeMarker (a - 1) true false st0
  have hopen := openAt_iff hwp (a - 1)
  have hsc1 : st1.scope = if b.markerBegin (a - 1) = true then 1 else 0 := by
    show (removeMarker (a - 1) true false st0).scope = _
    rw [removeMarker_scope]; simp [st0]
  have hrec1 : st1.recentMarkerWasOpen = b.markerBegin (a - 1) := by
    show (removeMarker (a - 1) true false st0).recentMarkerWasOpen = _
    rw [removeMarker_recent]
    cases hbb : b.markerBegin (a - 1) <;> simp [st0, hbb]
  have hinv := removeRange_inv hwp (a - 1) base (c + 1 - a).toNat a st1 (by omega)
    (by
      intro l hl
      have hne : l ≠ a - 1 := by omega
      show (removeMarker (a - 1) true false st0).buf.markerBegin l = _ ∧
        (removeMarker (a - 1) true false st0).buf.markerEnd l = _
      rw [removeMarker_markerBegin, removeMarker_markerEnd]
      simp [hne, st0])
    (by
      intro ho
      rw [hsc1]
      by_cases hm : MidAt b (a - 1)
      · rw [hm.no_begin, hb1 hm]; simp
      · rcases hopen.1 ho with h | h
        · exact absurd h hm
        · rw [h, hb0 hm]; simp)
    (by
      intro ho
      have hm : ¬ MidAt b (a - 1) := fun h => ho (hopen.2 (Or.inl h))
      have hbb : ¬ b.markerBegin (a - 1) = true := fun h => ho (hopen.2 (Or.inr h))
      rw [hsc1, hb0 hm]; simp [hbb])
    (by
      rw [hrec1]
      constructor
      · intro hbb
        obtain ⟨e, hr⟩ := hwp.1 _ hbb
        exact ⟨a - 1, e, hr, le_refl _, le_refl _, hr.2.2.1⟩
      · rintro ⟨s, e, hr, h1, h2, _⟩
        have : s = a - 1 := by omega
        rw [← this]; exact hr.1)
  have hidx : a + ((c + 1 - a).toNat : Int) - 1 = c := by rw [hcnt]; ring
  rw [hidx] at hinv
  obtain ⟨hs1, hs0, hrec⟩ := hinv
  have hE : (removeRange (c + 1 - a).toNat a st1).buf.markerEnd (c + 1) = b.markerEnd (c + 1) := by
    have h := removeRange_end_iff (c + 1 - a).toNat a st1 (c + 1)
    have h' := removeMarker_end_iff (a - 1) true false st0 (c + 1)
    rw [hcnt] at h
    have key : (removeRange (c + 1 - a).toNat a st1).buf.markerEnd (c + 1) = true
        ↔ b.markerEnd (c + 1) = true := by
      rw [h]
      constructor
      · rintro ⟨h1, _⟩; exact (h'.1 h1).1
      · intro h1; exact ⟨h'.2 ⟨h1, by simp⟩, by omega⟩
    cases hx : b.markerEnd (c + 1) <;>
      cases hy : (removeRange (c + 1 - a).toNat a st1).buf.markerEnd (c + 1) <;>
      simp_all
  have hmid := midAt_iff_pred (b := b) (c + 1)
  have hc : c + 1 - 1 = c := by omega
  rw [hc] at hmid
  have hscope : (removeSelected b a c).scope
      = (removeRange (c + 1 - a).toNat a st1).scope
        - (if b.markerEnd (c + 1) = true then 1 else 0) := by
    show (removeMarker (c + 1) false true (removeRange (c + 1 - a).toNat a st1)).scope = _
    rw [removeMarker_scope, hE]; simp
  have hrecent : (removeSelected b a c).recentMarkerWasOpen
      = (if b.markerEnd (c + 1) = true then false
         else (removeRange (c + 1 - a).toNat a st1).recentMarkerWasOpen) := by
    show (removeMarker (c + 1) false true
      (removeRange (c + 1 - a).toNat a st1)).recentMarkerWasOpen = _
    rw [removeMarker_recent, hE]; simp
  refine ⟨?_, ?_, ?_⟩
  · intro hm
    obtain ⟨ho, he⟩ := hmid.1 hm
    rw [hscope, he, hs1 ho]; simp
  · intro hm
    rw [hscope]
    by_cases ho : OpenAt b c
    · have he : b.markerEnd (c + 1) = true := by
        cases hx : b.markerEnd (c + 1)
        · exact absurd (hmid.2 ⟨ho, hx⟩) hm
        · rfl
      rw [he, hs1 ho]; simp
    · have he : b.markerEnd (c + 1) = false := by
        cases hx : b.markerEnd (c + 1)
        · rfl
        · have := openAt_pred_of_end hwp hx
          rw [hc] at this
          exact absurd this ho
      rw [he, hs0 ho]; simp
  · rw [hrecent]
    cases hx : b.markerEnd (c + 1)
    · simp only [Bool.false_eq_true, if_false]
      rw [hrec]
      constructor
      · rintro ⟨s, e, hr, h1, h2, h3⟩
        refine ⟨s, e, hr, h1, h2, ?_⟩
        rcases lt_or_eq_of_le (show c + 1 ≤ e by omega) with hlt | heq
        · exact hlt
        · have := hr.2.1
          rw [← heq, hx] at this; cases this
      · rintro ⟨s, e, hr, h1, h2, h3⟩
        exact ⟨s, e, hr, h1, h2, by omega⟩
    · simp only [if_true, Bool.false_eq_true, false_iff]
      rintro ⟨s, e, hr, h1, h2, h3⟩
      have := (hr.2.2.2 (c + 1) (by omega) h3).2
      rw [hx] at this; cases this

theorem walkStart_find (cond : Int → Bool) (s : Int) (hs : 0 ≤ s) :
    ∀ (k : Nat) (sm : Int) (st : HideScan) (fuel : Nat),
      sm = s + 1 + k → k + 1 ≤ fuel → cond st.scope = true → cond (st.scope + 1) = false →
      st.buf.markerBegin s = true →
      (∀ l, s < l → l < sm → st.buf.markerBegin l = false) →
      walkStart cond fuel sm st = (s, removeMarker s true false st) := by
  intro k
  induction k with
  | zero =>
    intro sm st fuel hsm hfuel hc hc' hb _
    obtain ⟨f, rfl⟩ : ∃ f, fuel = f + 1 := ⟨fuel - 1, by omega⟩
    have h0 : (0 : Int) ≤ sm := by omega
    have hsm' : sm - 1 = s := by simp at hsm; omega
    simp only [walkStart, hc, h0, decide_True, Bool.and_self, if_true, hsm']
    apply walkStart_stop
    rw [removeMarker_scope]
    simp [hb, hc']
  | succ n ih =>
    intro sm st fuel hsm hfuel hc hc' hb hno
    obtain ⟨f, rfl⟩ : ∃ f, fuel = f + 1 := ⟨fuel - 1, by omega⟩
    have h0 : (0 : Int) ≤ sm := by omega
    have habs : removeMarker (sm - 1) true false st = st :=
      removeMarker_absent _ _ _ _ (by simp [hno (sm - 1) (by push_cast at hsm; omega) (by omega)])
        (by simp)
    simp only [walkStart, hc, h0, decide_True, Bool.and_self, if_true, habs]
    exact ih (sm - 1) st f (by push_cast at hsm ⊢; omega) (by omega) hc hc' hb
      (fun l h1 h2 => hno l h1 (by omega))

theorem walkEnd_find (cond : Int → Bool) (n e : Int) (he : e < n) :
    ∀ (k : Nat) (em : Int) (st : HideScan) (fuel : Nat),
      e = em + 1 + k → k + 1 ≤ fuel → cond st.scope = true → cond (st.scope - 1) = false →
      st.buf.markerEnd e = true →
      (∀ l, em < l → l < e → st.buf.markerEnd l = false) →
      walkEnd cond n fuel em st = (e, removeMarker e false true st) := by
  intro k
  induction k with
  | zero =>
    intro em st fuel hem hfuel hc hc' hb _
    obtain ⟨f, rfl⟩ : ∃ f, fuel = f + 1 := ⟨fuel - 1, by omega⟩
    have h0 : em < n := by omega
    have hem' : em + 1 = e := by simp at hem; omega
    simp only [walkEnd, hc, h0, decide_True, Bool.and_self, if_true, hem']
    apply walkEnd_stop
    rw [removeMarker_scope]
    simp [hb, hc']
  | succ m ih =>
    intro em st fuel hem hfuel hc hc' hb hno
    obtain ⟨f, rfl⟩ : ∃ f, fuel = f + 1 := ⟨fuel - 1, by omega⟩
    have h0 : em < n := by omega
    have habs : removeMarker (em + 1) false true st = st :=
      removeMarker_absent _ _ _ _ (by simp)
        (by simp [hno (em + 1) (by omega) (by push_cast at hem; omega)])
    simp only [walkEnd, hc, h0, decide_True, Bool.and_self, if_true, habs]
    exact ih (em + 1) st f (by push_cast at hem ⊢; omega) (by omega) hc hc' hb
      (fun l h1 h2 => hno l (by omega) h2)

/-- Replacing everything strictly between two lines that are not strictly inside a
region by one region keeps a well-paired state well paired. -/
theorem wellPaired_rebuild {b b' : Buffer} (hwp : WellPaired b) (S T : Int) (hST : S < T)
    (hS : ¬ MidAt b S) (hT : ¬ MidAt b T)
    (hB : ∀ l, b'.markerBegin l = true ↔ l = S ∨ (b.markerBegin l = true ∧ (l < S ∨ T ≤ l)))
    (hE : ∀ l, b'.markerEnd l = true ↔ l = T ∨ (b.markerEnd l = true ∧ (l ≤ S ∨ T < l))) :
    WellPaired b' := by
  have hnoB : ∀ l, b'.markerBegin l = false ↔ ¬ (l = S ∨ (b.markerBegin l = true ∧ (l < S ∨ T ≤ l))) := by
    intro l; rw [← hB]; simp
  have hnoE : ∀ l, b'.markerEnd l = false ↔ ¬ (l = T ∨ (b.markerEnd l = true ∧ (l ≤ S ∨ T < l))) := by
    intro l; rw [← hE]; simp
  have hnew : Region b' S T := by
    refine ⟨(hB S).2 (Or.inl rfl), (hE T).2 (Or.inl rfl), hST, ?_⟩
    intro l h1 h2
    refine ⟨(hnoB l).2 ?_, (hnoE l).2 ?_⟩
    · rintro (h | ⟨_, h⟩) <;> omega
    · rintro (h | ⟨_, h⟩) <;> omega
  -- an old region ending at or before `S`, or beginning at or after `T`, survives
  have hkeep : ∀ s e, Region b s e → (e ≤ S ∨ T ≤ s) → Region b' s e := by
    intro s e hr hpos
    have hse := hr.2.2.1
    refine ⟨(hB s).2 (Or.inr ⟨hr.1, by omega⟩), (hE e).2 (Or.inr ⟨hr.2.1, by omega⟩), hse, ?_⟩
    intro l h1 h2
    have hin := hr.2.2.2 l h1 h2
    refine ⟨(hnoB l).2 ?_, (hnoE l).2 ?_⟩
    · rintro (h | ⟨h, _⟩)
      · omega
      · rw [hin.1] at h; cases h
    · rintro (h | ⟨h, _⟩)
      · omega
      · rw [hin.2] at h; cases h
  constructor
  · intro s hs
    rcases (hB s).1 hs with h | ⟨hb, hpos⟩
    · subst h; exact ⟨T, hnew⟩
    · obtain ⟨e, hr⟩ := hwp.1 s hb
      refine ⟨e, hkeep s e hr ?_⟩
      rcases hpos with h | h
      · left
        by_contra hc
        exact hS ⟨s, e, hr, h, by omega⟩
      · right; exact h
  · intro e he
    rcases (hE e).1 he with h | ⟨hb, hpos⟩
    · subst h; exact ⟨S, hnew⟩
    · obtain ⟨s, hr⟩ := hwp.2 e hb
      refine ⟨s, hkeep s e hr ?_⟩
      rcases hpos with h | h
      · left; exact h
      · right
        by_contra hc
        exact hT ⟨s, e, hr, by omega, h⟩

theorem mergeWalk_none (n sm em : Int) (st : HideScan) (hscope : st.scope = 0)
    (hrec : st.recentMarkerWasOpen = false) : mergeWalk n sm em st = (sm, em, st) := by
  unfold mergeWalk
  simp only [hrec, Bool.false_eq_true, and_false, if_false]
  rw [walkStart_stop _ _ _ _ (by simp [hscope])]
  simp only
  rw [walkEnd_stop _ _ _ _ _ (by simp [hscope])]

theorem mergeWalk_up (n sm em : Int) (st : HideScan) (s : Int) (hs : 0 ≤ s) (hlt : s < sm)
    (hscope : st.scope = -1) (hb : st.buf.markerBegin s = true)
    (hno : ∀ l, s < l → l < sm → st.buf.markerBegin l = false) :
    mergeWalk n sm em st = (s, em, removeMarker s true false st) := by
  unfold mergeWalk
  have hne : ¬ (st.scope = 0 ∧ st.recentMarkerWasOpen = true) := by omega
  simp only [hne, if_false]
  rw [walkStart_find _ s hs (sm - s - 1).toNat sm st (sm + 1).toNat (by omega) (by omega)
    (by simp [hscope]) (by simp [hscope]) hb hno]
  simp only
  rw [walkEnd_stop _ _ _ _ _ (by rw [removeMarker_scope]; simp [hb, hscope])]

theorem mergeWalk_down (n sm em : Int) (st : HideScan) (e : Int) (he : e < n) (hlt : em < e)
    (hscope : st.scope = 1) (hb : st.buf.markerEnd e = true)
    (hno : ∀ l, em < l → l < e → st.buf.markerEnd l = false) :
    mergeWalk n sm em st = (sm, e, removeMarker e false true st) := by
  unfold mergeWalk
  have hne : ¬ (st.scope = 0 ∧ st.recentMarkerWasOpen = true) := by omega
  simp only [hne, if_false]
  rw [walkStart_stop _ _ _ _ (by simp [hscope])]
  simp only
  rw [walkEnd_find _ n e he (e - em - 1).toNat em st (n - em).toNat (by omega) (by omega)
    (by simp [hscope]) (by simp [hscope]) hb hno]

theorem mergeWalk_both (n sm em : Int) (st : HideScan) (s e : Int) (hs : 0 ≤ s) (hlt : s < sm)
    (he : e < n) (hlt' : em < e)
    (hscope : st.scope = 0) (hrec : st.recentMarkerWasOpen = true)
    (hb : st.buf.markerBegin s = true)
    (hno : ∀ l, s < l → l < sm → st.buf.markerBegin l = false)
    (hb' : st.buf.markerEnd e = true)
    (hno' : ∀ l, em < l → l < e → st.buf.markerEnd l = false) :
    mergeWalk n sm em st = (s, e, removeMarker e false true (removeMarker s true false st)) := by
  unfold mergeWalk
  simp only [hscope, hrec, and_self, if_true]
  rw [walkStart_find _ s hs (sm - s - 1).toNat sm st (sm + 1).toNat (by omega) (by omega)
    (by simp [hscope]) (by simp [hscope]) hb hno]
  simp only
  have hsc : (removeMarker s true false st).scope = 1 := by
    rw [removeMarker_scope]; simp [hb, hscope]
  rw [walkEnd_find _ n e he (e - em - 1).toNat em (removeMarker s true false st) (n - em).toNat
    (by omega) (by omega) (by simp [hsc]) (by simp [hsc])
    (by rw [removeMarker_markerEnd]; simp [hb'])
    (by
      intro l h1 h2
      rw [removeMarker_markerEnd]; simp [hno' l h1 h2])]

theorem hideLinesFrom_of_walk (b : Buffer) (a c : Int) (hac : a ≤ c) (S T : Int)
    (st5 : HideScan)
    (hw : mergeWalk b.nbLines (a - 1) (c + 1) (removeSelected b a c) = (S, T, st5))
    (hS : 0 ≤ S ∧ S < (b.nbLines : Int)) (hT : 0 ≤ T ∧ T < (b.nbLines : Int))
    (hn : st5.buf.nbLines = b.nbLines)
    (hB5 : ∀ l, l ≠ S → st5.buf.markerBegin l = (removeSelected b a c).buf.markerBegin l)
    (hE5 : ∀ l, l ≠ T → st5.buf.markerEnd l = (removeSelected b a c).buf.markerEnd l) :
    (hideLinesFrom b a c).startMarker = S ∧ (hideLinesFrom b a c).endMarker = T ∧
    (∀ l, (hideLinesFrom b a c).buf.markerBegin l = true ↔
      l = S ∨ (b.markerBegin l = true ∧ ¬ (a - 1 ≤ l ∧ l ≤ c))) ∧
    (∀ l, (hideLinesFrom b a c).buf.markerEnd l = true ↔
      l = T ∨ (b.markerEnd l = true ∧ ¬ (a ≤ l ∧ l ≤ c + 1))) := by
  have hvS : st5.buf.validLine S = true := by
    rw [Buffer.validLine_iff, hn]; exact hS
  have hvT : (st5.buf.markerAddBegin S).validLine T = true := by
    rw [Buffer.validLine_iff, Buffer.nbLines_markerAddBegin, hn]; exact hT
  refine ⟨by simp [hideLinesFrom, hw], by simp [hideLinesFrom, hw], ?_, ?_⟩
  · intro l
    simp only [hideLinesFrom, hw, Buffer.markerBegin_setHideLineChanged,
      Buffer.markerBegin_markerAddEnd, Buffer.markerBegin_markerAddBegin, hvS,
      Bool.and_true, Bool.or_eq_true, decide_eq_true_eq]
    by_cases hl : l = S
    · simp [hl]
    · rw [hB5 l hl, removeSelected_begin_iff b a c hac]
      simp [hl]
  · intro l
    simp only [hideLinesFrom, hw, Buffer.markerEnd_setHideLineChanged,
      Buffer.markerEnd_markerAddEnd, Buffer.markerEnd_markerAddBegin, hvT,
      Bool.and_true, Bool.or_eq_true, decide_eq_true_eq]
    by_cases hl : l = T
    · simp [hl]
    · rw [hE5 l hl, removeSelected_end_iff b a c hac]
      simp [hl]

theorem bool_eq_false_of_not {x : Bool} (h : ¬ x = true) : x = false := by
  cases x <;> simp_all

/-- What `hideLinesFrom` does on a well-paired state: where the two markers are
placed and which markers are left. -/
theorem hideLinesFrom_spec {b : Buffer} (hwp : WellPaired b) (a c : Int) (ha : 1 ≤ a)
    (hac : a ≤ c) (hc : c + 2 ≤ (b.nbLines : Int)) :
    ∃ S T, (hideLinesFrom b a c).startMarker = S ∧ (hideLinesFrom b a c).endMarker = T ∧
      0 ≤ S ∧ S ≤ a - 1 ∧ c + 1 ≤ T ∧ T < (b.nbLines : Int) ∧
      (∀ l, (hideLinesFrom b a c).buf.markerBegin l = true ↔
        l = S ∨ (b.markerBegin l = true ∧ ¬ (a - 1 ≤ l ∧ l ≤ c))) ∧
      (∀ l, (hideLinesFrom b a c).buf.markerEnd l = true ↔
        l = T ∨ (b.markerEnd l = true ∧ ¬ (a ≤ l ∧ l ≤ c + 1))) ∧
      (DeepInside b a c → S = a - 1 ∧ T = c + 1) ∧
      (¬ DeepInside b a c →
        (¬ MidAt b (a - 1) → S = a - 1) ∧
        (MidAt b (a - 1) → ∃ e, Region b S e ∧ S < a - 1 ∧ a - 1 < e) ∧
        (¬ MidAt b (c + 1) → T = c + 1) ∧
        (MidAt b (c + 1) → ∃ s, Region b s T ∧ s < c + 1 ∧ c + 1 < T)) := by
  obtain ⟨base, hb1, hb0, hq1, hq0, hrec⟩ := removeSelected_scope hwp a c hac
  have hB3 := removeSelected_begin_iff b a c hac
  have hE3 := removeSelected_end_iff b a c hac
  have hn3 := removeSelected_nbLines b a c
  -- the walk towards the BEGIN of a region around `startMarker`
  have upFacts : ∀ s1 e1, Region b s1 e1 → s1 < a - 1 → a - 1 < e1 →
      0 ≤ s1 ∧ (removeSelected b a c).buf.markerBegin s1 = true ∧
      ∀ l, s1 < l → l < a - 1 → (removeSelected b a c).buf.markerBegin l = false := by
    intro s1 e1 hr1 hs1 he1
    refine ⟨(Buffer.markerBegin_valid hr1.1).1, (hB3 s1).2 ⟨hr1.1, by omega⟩, ?_⟩
    intro l h1 h2
    apply bool_eq_false_of_not
    intro h
    have := ((hB3 l).1 h).1
    rw [(hr1.2.2.2 l h1 (by omega)).1] at this
    cases this
  -- the walk towards the END of a region around `endMarker`
  have downFacts : ∀ s2 e2, Region b s2 e2 → s2 < c + 1 → c + 1 < e2 →
      e2 < (b.nbLines : Int) ∧ (removeSelected b a c).buf.markerEnd e2 = true ∧
      ∀ l, c + 1 < l → l < e2 → (removeSelected b a c).buf.markerEnd l = false := by
    intro s2 e2 hr2 hs2 he2
    refine ⟨(Buffer.markerEnd_valid hr2.2.1).2, (hE3 e2).2 ⟨hr2.2.1, by omega⟩, ?_⟩
    intro l h1 h2
    apply bool_eq_false_of_not
    intro h
    have := ((hE3 l).1 h).1
    rw [(hr2.2.2.2 l (by omega) h2).2] at this
    cases this
  by_cases hP : MidAt b (a - 1)
  · obtain ⟨s1, e1, hr1, hs1, he1⟩ := id hP
    obtain ⟨hs1v, hb1', hno1⟩ := upFacts s1 e1 hr1 hs1 he1
    by_cases hQ : MidAt b (c + 1)
    · obtain ⟨s2, e2, hr2, hs2, he2⟩ := id hQ
      obtain ⟨he2v, hb2', hno2⟩ := downFacts s2 e2 hr2 hs2 he2
      have hscope : (removeSelected b a c).scope = 0 := by
        rw [hq1 hQ, hb1 hP]; rfl
      by_cases hD : s2 < a - 1
      · -- the range lies deep inside one region
        have hrecf : (removeSelected b a c).recentMarkerWasOpen = false := by
          apply bool_eq_false_of_not
          intro h
          obtain ⟨s, e, hr, h1, h2, h3⟩ := hrec.1 h
          have := (Region.same_of_open hr hr2 (l := c + 1) (by omega) h3 (by omega) he2).1
          omega
        have hw := mergeWalk_none (b.nbLines : Int) (a - 1) (c + 1) _ hscope hrecf
        obtain ⟨hS, hT, hB, hE⟩ := hideLinesFrom_of_walk b a c hac (a - 1) (c + 1) _ hw
          (by omega) (by omega) hn3 (fun _ _ => rfl) (fun _ _ => rfl)
        refine ⟨a - 1, c + 1, hS, hT, by omega, le_refl _, le_refl _, by omega, hB, hE,
          fun _ => ⟨rfl, rfl⟩, fun h => absurd ⟨s2, e2, hr2, by omega, by omega⟩ h⟩
      · -- two different regions around `startMarker` and `endMarker`
        have hrect : (removeSelected b a c).recentMarkerWasOpen = true :=
          hrec.2 ⟨s2, e2, hr2, by omega, by omega, he2⟩
        have hw := mergeWalk_both (b.nbLines : Int) (a - 1) (c + 1) _ s1 e2 hs1v hs1 he2v he2
          hscope hrect hb1' hno1 hb2' hno2
        obtain ⟨hS, hT, hB, hE⟩ := hideLinesFrom_of_walk b a c hac s1 e2 _ hw
          (by omega) (by have := (Buffer.markerEnd_valid hr2.2.1).1; omega)
          (by simp [hn3])
          (fun l hl => by simp [removeMarker_markerBegin, hl])
          (fun l hl => by simp [removeMarker_markerEnd, hl])
        refine ⟨s1, e2, hS, hT, hs1v, by omega, by omega, he2v, hB, hE, ?_, ?_⟩
        · rintro ⟨s, e, hr, h1, h2⟩
          have := (Region.same_of_open hr hr2 (l := c + 1) (by omega) (by omega)
            (by omega) he2).1
          omega
        · intro _
          exact ⟨fun h => absurd hP h, fun _ => ⟨e1, hr1, hs1, he1⟩,
            fun h => absurd hQ h, fun _ => ⟨s2, hr2, hs2, he2⟩⟩
    · -- only `startMarker` lies inside a region
      have hscope : (removeSelected b a c).scope = -1 := by
        rw [hq0 hQ, hb1 hP]
      have hw := mergeWalk_up (b.nbLines : Int) (a - 1) (c + 1) _ s1 hs1v hs1 hscope hb1' hno1
      obtain ⟨hS, hT, hB, hE⟩ := hideLinesFrom_of_walk b a c hac s1 (c + 1) _ hw
        (by omega) (by omega) (by simp [hn3])
        (fun l hl => by simp [removeMarker_markerBegin, hl])
        (fun l hl => by simp [removeMarker_markerEnd])
      refine ⟨s1, c + 1, hS, hT, hs1v, by omega, le_refl _, by omega, hB, hE, ?_, ?_⟩
      · rintro ⟨s, e, hr, h1, h2⟩
        exact absurd ⟨s, e, hr, by omega, by omega⟩ hQ
      · intro _
        exact ⟨fun h => absurd hP h, fun _ => ⟨e1, hr1, hs1, he1⟩,
          fun _ => rfl, fun h => absurd h hQ⟩
  · by_cases hQ : MidAt b (c + 1)
    · -- only `endMarker` lies inside a region
      obtain ⟨s2, e2, hr2, hs2, he2⟩ := id hQ
      obtain ⟨he2v, hb2', hno2⟩ := downFacts s2 e2 hr2 hs2 he2
      have hscope : (removeSelected b a c).scope = 1 := by
        rw [hq1 hQ, hb0 hP]; rfl
      have hw := mergeWalk_down (b.nbLines : Int) (a - 1) (c + 1) _ e2 he2v he2 hscope hb2' hno2
      obtain ⟨hS, hT, hB, hE⟩ := hideLinesFrom_of_walk b a c hac (a - 1) e2 _ hw
        (by omega) (by have := (Buffer.markerEnd_valid hr2.2.1).1; omega) (by simp [hn3])
        (fun l hl => by simp [removeMarker_markerBegin])
        (fun l hl => by simp [removeMarker_markerEnd, hl])
      refine ⟨a - 1, e2, hS, hT, by omega, le_refl _, by omega, he2v, hB, hE, ?_, ?_⟩
      · rintro ⟨s, e, hr, h1, h2⟩
        exact absurd ⟨s, e, hr, by omega, by omega⟩ hP
      · intro _
        exact ⟨fun _ => rfl, fun h => absurd h hP,
          fun h => absurd hQ h, fun _ => ⟨s2, hr2, hs2, he2⟩⟩
    · -- neither boundary line lies inside a region
      have hscope : (removeSelected b a c).scope = 0 := by
        rw [hq0 hQ, hb0 hP]
      have hrecf : (removeSelected b a c).recentMarkerWasOpen = false := by
        apply bool_eq_false_of_not
        intro h
        obtain ⟨s, e, hr, h1, h2, h3⟩ := hrec.1 h
        exact hQ ⟨s, e, hr, by omega, h3⟩
      have hw := mergeWalk_none (b.nbLines : Int) (a - 1) (c + 1) _ hscope hrecf
      obtain ⟨hS, hT, hB, hE⟩ := hideLinesFrom_of_walk b a c hac (a - 1) (c + 1) _ hw
        (by omega) (by omega) hn3 (fun _ _ => rfl) (fun _ _ => rfl)
      refine ⟨a - 1, c + 1, hS, hT, by omega, le_refl _, le_refl _, by omega, hB, hE,
        fun _ => ⟨rfl, rfl⟩, fun _ => ⟨fun _ => rfl, fun h => absurd h hP,
          fun _ => rfl, fun h => absurd h hQ⟩⟩

theorem NoMarkers.wellPaired {b : Buffer} (h : NoMarkers b) : WellPaired b :=
  ⟨fun s hs => (by rw [(h s).1] at hs; cases hs), fun e he => (by rw [(h e).2] at he; cases he)⟩

theorem NoMarkers.not_midAt {b : Buffer} (h : NoMarkers b) (l : Int) : ¬ MidAt b l := by
  rintro ⟨s, e, hr, _, _⟩
  have := hr.1
  rw [(h s).1] at this; cases this

theorem NoMarkers.not_deepInside {b : Buffer} (h : NoMarkers b) (a c : Int) :
    ¬ DeepInside b a c := by
  rintro ⟨s, e, hr, _, _⟩
  have := hr.1
  rw [(h s).1] at this; cases this

theorem hideLinesRun_eq (b : Buffer) (sa sb : Int) (hn : 3 ≤ (b.nbLines : Int))
    (hac : (if sa = 0 then sa + 1 else sa) ≤ (if sb = (b.nbLines : Int) - 1 then sb - 1 else sb)) :
    hideLinesRun b sa sb = some (hideLinesFrom b (if sa = 0 then sa + 1 else sa)
      (if sb = (b.nbLines : Int) - 1 then sb - 1 else sb)) := by
  unfold hideLinesRun
  have h1 : ¬ ((b.nbLines : Int) < 3) := by omega
  simp only [h1, if_false]
  rw [if_neg (by omega)]

theorem hideLines_eq_from (b : Buffer) (a c : Int) (h1 : 1 ≤ a) (hac : a ≤ c)
    (hc : c + 2 ≤ (b.nbLines : Int)) : hideLines b a c = (hideLinesFrom b a c).buf := by
  have ha : (if a = 0 then a + 1 else a) = a := by rw [if_neg (by omega)]
  have hc' : (if c = (b.nbLines : Int) - 1 then c - 1 else c) = c := by rw [if_neg (by omega)]
  have := hideLinesRun_eq b a c (by omega) (by rw [ha, hc']; exact hac)
  rw [ha, hc'] at this
  simp [hideLines, this]

/-- On a well-paired state, `hideLinesFrom` on a range that is not deep inside a
region leaves a well-paired state. -/
theorem hideLinesFrom_wellPaired {b : Buffer} (hwp : WellPaired b) (a c : Int) (ha : 1 ≤ a)
    (hac : a ≤ c) (hc : c + 2 ≤ (b.nbLines : Int)) (hnd : ¬ DeepInside b a c) :
    WellPaired (hideLinesFrom b a c).buf := by
  obtain ⟨S, T, -, -, hS0, hSa, hTc, hTn, hB, hE, -, hcase⟩ := hideLinesFrom_spec hwp a c ha hac hc
  obtain ⟨hS1, hS2, hT1, hT2⟩ := hcase hnd
  have hnS : ¬ MidAt b S := by
    by_cases hP : MidAt b (a - 1)
    · obtain ⟨e, hr, _, _⟩ := hS2 hP
      intro hm
      have := hr.1
      rw [hm.no_begin] at this; cases this
    · rw [hS1 hP]; exact hP
  have hnT : ¬ MidAt b T := by
    by_cases hQ : MidAt b (c + 1)
    · obtain ⟨s, hr, _, _⟩ := hT2 hQ
      intro hm
      have := hr.2.1
      rw [hm.no_end] at this; cases this
    · rw [hT1 hQ]; exact hQ
  -- lines between the placed markers and the range carry no marker of the old state
  have hgapSB : ∀ l, S < l → l < a - 1 → b.markerBegin l = false := by
    intro l h1 h2
    by_cases hP : MidAt b (a - 1)
    · obtain ⟨e, hr, _, h4⟩ := hS2 hP
      exact (hr.2.2.2 l h1 (by omega)).1
    · have := hS1 hP; omega
  have hgapSE : ∀ l, S < l → l ≤ a - 1 → b.markerEnd l = false := by
    intro l h1 h2
    by_cases hP : MidAt b (a - 1)
    · obtain ⟨e, hr, _, h4⟩ := hS2 hP
      exact (hr.2.2.2 l h1 (by omega)).2
    · have := hS1 hP; omega
  have hgapTB : ∀ l, c + 1 ≤ l → l < T → b.markerBegin l = false := by
    intro l h1 h2
    by_cases hQ : MidAt b (c + 1)
    · obtain ⟨s, hr, h3, _⟩ := hT2 hQ
      exact (hr.2.2.2 l (by omega) h2).1
    · have := hT1 hQ; omega
  have hgapTE : ∀ l, c + 1 < l → l < T → b.markerEnd l = false := by
    intro l h1 h2
    by_cases hQ : MidAt b (c + 1)
    · obtain ⟨s, hr, h3, _⟩ := hT2 hQ
      exact (hr.2.2.2 l (by omega) h2).2
    · have := hT1 hQ; omega
  apply wellPaired_rebuild hwp S T (by omega) hnS hnT
  · intro l
    rw [hB l]
    constructor
    · rintro (h | ⟨hb, hr⟩)
      · exact Or.inl h
      · by_cases hl : l = S
        · exact Or.inl hl
        · right
          refine ⟨hb, ?_⟩
          by_contra hcon
          by_cases h3 : l < a - 1
          · rw [hgapSB l (by omega) h3] at hb; cases hb
          · rw [hgapTB l (by omega) (by omega)] at hb; cases hb
    · rintro (h | ⟨hb, hr⟩)
      · exact Or.inl h
      · exact Or.inr ⟨hb, by omega⟩
  · intro l
    rw [hE l]
    constructor
    · rintro (h | ⟨hb, hr⟩)
      · exact Or.inl h
      · by_cases hl : l = T
        · exact Or.inl hl
        · right
          refine ⟨hb, ?_⟩
          by_contra hcon
          by_cases h3 : c + 1 < l
          · rw [hgapTE l h3 (by omega)] at hb; cases hb
          · rw [hgapSE l (by omega) (by omega)] at hb; cases hb
    · rintro (h | ⟨hb, hr⟩)
      · exact Or.inl h
      · exact Or.inr ⟨hb, by omega⟩

theorem walkStart_mono (cond : Int → Bool) :
    ∀ (fuel : Nat) (sm : Int) (st : HideScan),
      (walkStart cond fuel sm st).1 ≤ sm ∧
      (walkStart cond fuel sm st).2.buf.nbLines = st.buf.nbLines ∧
      (walkStart cond fuel sm st).2.buf.calls = st.buf.calls ∧
      (∀ l, (walkStart cond fuel sm st).2.buf.markerBegin l = true → st.buf.markerBegin l = true) ∧
      (∀ l, (walkStart cond fuel sm st).2.buf.markerEnd l = true → st.buf.markerEnd l = true) := by
  intro fuel
  induction fuel with
  | zero => intro sm st; simp [walkStart]
  | succ f ih =>
    intro sm st
    unfold walkStart
    split
    · obtain ⟨h1, h2, h3, h4, h5⟩ := ih (sm - 1) (removeMarker (sm - 1) true false st)
      refine ⟨by omega, by rw [h2]; simp, by rw [h3, removeMarker_calls], ?_, ?_⟩
      · intro l hl
        exact ((removeMarker_begin_iff _ _ _ _ _).1 (h4 l hl)).1
      · intro l hl
        exact ((removeMarker_end_iff _ _ _ _ _).1 (h5 l hl)).1
    · simp

theorem walkEnd_mono (cond : Int → Bool) (n : Int) :
    ∀ (fuel : Nat) (em : Int) (st : HideScan),
      em ≤ (walkEnd cond n fuel em st).1 ∧
      (walkEnd cond n fuel em st).2.buf.nbLines = st.buf.nbLines ∧
      (walkEnd cond n fuel em st).2.buf.calls = st.buf.calls ∧
      (∀ l, (walkEnd cond n fuel em st).2.buf.markerBegin l = true → st.buf.markerBegin l = true) ∧
      (∀ l, (walkEnd cond n fuel em st).2.buf.markerEnd l = true → st.buf.markerEnd l = true) := by
  intro fuel
  induction fuel with
  | zero => intro em st; simp [walkEnd]
  | succ f ih =>
    intro em st
    unfold walkEnd
    split
    · obtain ⟨h1, h2, h3, h4, h5⟩ := ih (em + 1) (removeMarker (em + 1) false true st)
      refine ⟨by omega, by rw [h2]; simp, by rw [h3, removeMarker_calls], ?_, ?_⟩
      · intro l hl
        exact ((removeMarker_begin_iff _ _ _ _ _).1 (h4 l hl)).1
      · intro l hl
        exact ((removeMarker_end_iff _ _ _ _ _).1 (h5 l hl)).1
    · simp

theorem mergeWalk_mono (n sm em : Int) (st : HideScan) :
    (mergeWalk n sm em st).1 ≤ sm ∧ em ≤ (mergeWalk n sm em st).2.1 ∧
    (mergeWalk n sm em st).2.2.buf.nbLines = st.buf.nbLines ∧
    (mergeWalk n sm em st).2.2.buf.calls = st.buf.calls ∧
    (∀ l, (mergeWalk n sm em st).2.2.buf.markerBegin l = true → st.buf.markerBegin l = true) ∧
    (∀ l, (mergeWalk n sm em st).2.2.buf.markerEnd l = true → st.buf.markerEnd l = true) := by
  unfold mergeWalk
  split
  · obtain ⟨a1, a2, a3, a4, a5⟩ := walkStart_mono (fun s => s == 0) (sm + 1).toNat sm st
    obtain ⟨b1, b2, b3, b4, b5⟩ := walkEnd_mono (fun s => s != 0) n (n - em).toNat em
      (walkStart (fun s => s == 0) (sm + 1).toNat sm st).2
    exact ⟨a1, b1, by rw [b2, a2], by rw [b3, a3], fun l h => a4 l (b4 l h),
      fun l h => a5 l (b5 l h)⟩
  · obtain ⟨a1, a2, a3, a4, a5⟩ := walkStart_mono (fun s => decide (s < 0)) (sm + 1).toNat sm st
    obtain ⟨b1, b2, b3, b4, b5⟩ := walkEnd_mono (fun s => decide (s > 0)) n (n - em).toNat em
      (walkStart (fun s => decide (s < 0)) (sm + 1).toNat sm st).2
    exact ⟨a1, b1, by rw [b2, a2], by rw [b3, a3], fun l h => a4 l (b4 l h),
      fun l h => a5 l (b5 l h)⟩

theorem hideLinesFrom_nbLines (b : Buffer) (a c : Int) :
    (hideLinesFrom b a c).buf.nbLines = b.nbLines := by
  simp [hideLinesFrom, (mergeWalk_mono _ _ _ _).2.2.1, removeSelected_nbLines]

theorem hideLinesFrom_calls (b : Buffer) (a c : Int) :
    (hideLinesFrom b a c).buf.calls
      = b.calls ++ [Call.hideLineChanged true (hideLinesFrom b a c).startMarker] := by
  simp [hideLinesFrom, Buffer.setHideLineChanged, (mergeWalk_mono _ _ _ _).2.2.2.1,
    removeSelected_calls]

/-- Whatever the marker state, the markers `hideLinesFrom` leaves are the two it
places, at or before `startLine - 1` and at or after `endLine + 1`, and markers
of the old state outside the cleared range. -/
theorem hideLinesFrom_markers_sub (b : Buffer) (a c : Int) (hac : a ≤ c) :
    (hideLinesFrom b a c).startMarker ≤ a - 1 ∧ c + 1 ≤ (hideLinesFrom b a c).endMarker ∧
    (∀ l, (hideLinesFrom b a c).buf.markerBegin l = true →
      l = (hideLinesFrom b a c).startMarker ∨ (b.markerBegin l = true ∧ ¬ (a - 1 ≤ l ∧ l ≤ c))) ∧
    (∀ l, (hideLinesFrom b a c).buf.markerEnd l = true →
      l = (hideLinesFrom b a c).endMarker ∨ (b.markerEnd l = true ∧ ¬ (a ≤ l ∧ l ≤ c + 1))) := by
  obtain ⟨h1, h2, -, -, h5, h6⟩ :=
    mergeWalk_mono (b.nbLines : Int) (a - 1) (c + 1) (removeSelected b a c)
  refine ⟨h1, h2, ?_, ?_⟩
  · intro l hl
    simp only [hideLinesFrom, Buffer.markerBegin_setHideLineChanged,
      Buffer.markerBegin_markerAddEnd, Buffer.markerBegin_markerAddBegin,
      Bool.or_eq_true, Bool.and_eq_true, decide_eq_true_eq] at hl
    rcases hl with hl | ⟨hl, _⟩
    · exact Or.inr ((removeSelected_begin_iff b a c hac l).1 (h5 l hl))
    · exact Or.inl hl
  · intro l hl
    simp only [hideLinesFrom, Buffer.markerEnd_setHideLineChanged,
      Buffer.markerEnd_markerAddEnd, Buffer.markerEnd_markerAddBegin,
      Bool.or_eq_true, Bool.and_eq_true, decide_eq_true_eq] at hl
    rcases hl with hl | ⟨hl, _⟩
    · exact Or.inr ((removeSelected_end_iff b a c hac l).1 (h6 l hl))
    · exact Or.inl hl

/-! ### `hideLines` -/

theorem plainBuffer_noMarkers (n : Nat) : NoMarkers (plainBuffer n) := by
  intro l
  simp [Buffer.markerBegin, Buffer.markerEnd, plainBuffer]

theorem clampStart_eq (sa : Int) (h : 0 ≤ sa) : (if sa = 0 then sa + 1 else sa) = max sa 1 := by
  split <;> omega

theorem clampEnd_eq (sb n : Int) (h : sb < n) :
    (if sb = n - 1 then sb - 1 else sb) = min sb (n - 2) := by
  split <;> omega

/-- C9: on a document of at least three lines without hide markers, `hideLines`
with selection lines `sa`, `sb` whose clamped values `a = max sa 1` and
`b = min sb (n - 2)` satisfy `a ≤ b` leaves exactly one BEGIN marker, on line
`a - 1`, exactly one END marker, on line `b + 1`, and no other hide marker. -/
theorem hideLines_fresh (b : Buffer) (hno : NoMarkers b) (hn : 3 ≤ (b.nbLines : Int))
    (sa sb : Int) (hsa : 0 ≤ sa) (hsb : sb < (b.nbLines : Int))
    (hac : max sa 1 ≤ min sb ((b.nbLines : Int) - 2)) :
    ∀ l, ((hideLines b sa sb).markerBegin l = true ↔ l = max sa 1 - 1) ∧
      ((hideLines b sa sb).markerEnd l = true ↔ l = min sb ((b.nbLines : Int) - 2) + 1) := by
  have hrun := hideLinesRun_eq b sa sb hn
    (by rw [clampStart_eq sa hsa, clampEnd_eq sb _ hsb]; exact hac)
  rw [clampStart_eq sa hsa, clampEnd_eq sb _ hsb] at hrun
  have heq : hideLines b sa sb
      = (hideLinesFrom b (max sa 1) (min sb ((b.nbLines : Int) - 2))).buf := by
    simp [hideLines, hrun]
  obtain ⟨S, T, -, -, -, -, -, -, hB, hE, -, hcase⟩ :=
    hideLinesFrom_spec hno.wellPaired (max sa 1) (min sb ((b.nbLines : Int) - 2))
      (by omega) hac (by omega)
  obtain ⟨hS, -, hT, -⟩ := hcase (hno.not_deepInside _ _)
  have hS' := hS (hno.not_midAt _)
  have hT' := hT (hno.not_midAt _)
  intro l
  rw [heq, hB l, hE l, hS', hT', (hno l).1, (hno l).2]
  simp

/-- C9, an instance: selecting lines 0 to 4 of a marker-free five-line document
puts the BEGIN marker on line 0 and the END marker on line 4. -/
theorem hideLines_fresh_witness :
    NoMarkers (plainBuffer 5) ∧ 3 ≤ ((plainBuffer 5).nbLines : Int) ∧
    (hideLines (plainBuffer 5) 0 4).markerBegin 0 = true ∧
    (hideLines (plainBuffer 5) 0 4).markerEnd 4 = true ∧
    (hideLines (plainBuffer 5) 0 4).markerEnd 3 = false :=
  have h := hideLines_fresh (plainBuffer 5) (plainBuffer_noMarkers 5) (by decide) 0 4
    (by decide) (by decide) (by decide)
  ⟨plainBuffer_noMarkers 5, by decide, (h 0).1.2 (by decide), (h 4).2.2 (by decide),
    bool_eq_false_of_not (fun hc => absurd ((h 3).2.1 hc) (by decide))⟩

/-- C3, as stated, fails: on a marker-free three-line document `hideLines` with the
selection spanning lines 0 to 2 puts a BEGIN marker on line 0 and an END marker on
the last line. -/
theorem hideLines_whole_marks_edges :
    (plainBuffer 3).nbLines = 3 ∧
    (hideLines (plainBuffer 3) 0 2).markerBegin 0 = true ∧
    (hideLines (plainBuffer 3) 0 2).markerEnd 2 = true := by
  decide

/-- C3, amended: on every document of at least three lines, `hideLines` with the
selection spanning line 0 through the last line leaves no hide marker on the
lines `1..n-2` (the lines it hides); on a well-paired state it leaves exactly one
BEGIN marker, on line 0, and exactly one END marker, on the last line. -/
theorem hideLines_whole (b : Buffer) (hn : 3 ≤ (b.nbLines : Int)) :
    (∀ l, 1 ≤ l → l ≤ (b.nbLines : Int) - 2 →
      (hideLines b 0 ((b.nbLines : Int) - 1)).markerBegin l = false ∧
      (hideLines b 0 ((b.nbLines : Int) - 1)).markerEnd l = false) ∧
    (WellPaired b → ∀ l,
      ((hideLines b 0 ((b.nbLines : Int) - 1)).markerBegin l = true ↔ l = 0) ∧
      ((hideLines b 0 ((b.nbLines : Int) - 1)).markerEnd l = true
        ↔ l = (b.nbLines : Int) - 1)) := by
  have hrun := hideLinesRun_eq b 0 ((b.nbLines : Int) - 1) hn (by simp; omega)
  simp only [if_true] at hrun
  have heq : hideLines b 0 ((b.nbLines : Int) - 1)
      = (hideLinesFrom b 1 ((b.nbLines : Int) - 2)).buf := by
    simp only [hideLines, hrun]
    congr 2
    ring
  rw [heq]
  constructor
  · intro l h1 h2
    obtain ⟨hS, hT, hB, hE⟩ := hideLinesFrom_markers_sub b 1 ((b.nbLines : Int) - 2) (by omega)
    constructor
    · apply bool_eq_false_of_not
      intro h
      rcases hB l h with h' | ⟨_, h'⟩ <;> omega
    · apply bool_eq_false_of_not
      intro h
      rcases hE l h with h' | ⟨_, h'⟩ <;> omega
  · intro hwp
    have hnm0 : ¬ MidAt b (1 - 1) := by
      rintro ⟨s, e, hr, h1, _⟩
      have := (Buffer.markerBegin_valid hr.1).1
      omega
    have hnmn : ¬ MidAt b ((b.nbLines : Int) - 2 + 1) := by
      rintro ⟨s, e, hr, _, h2⟩
      have := (Buffer.markerEnd_valid hr.2.1).2
      omega
    have hnd : ¬ DeepInside b 1 ((b.nbLines : Int) - 2) := by
      rintro ⟨s, e, hr, h1, _⟩
      have := (Buffer.markerBegin_valid hr.1).1
      omega
    obtain ⟨S, T, -, -, -, -, -, -, hB, hE, -, hcase⟩ :=
      hideLinesFrom_spec hwp 1 ((b.nbLines : Int) - 2) (le_refl _) (by omega) (by omega)
    obtain ⟨hS, -, hT, -⟩ := hcase hnd
    have hS' := hS hnm0
    have hT' := hT hnmn
    intro l
    rw [hB l, hE l, hS', hT']
    constructor
    · constructor
      · rintro (h | ⟨hb, hr⟩)
        · omega
        · exfalso
          obtain ⟨e, hreg⟩ := hwp.1 l hb
          have h1 := Buffer.markerBegin_valid hb
          have h2 := Buffer.markerEnd_valid hreg.2.1
          have := hreg.2.2.1
          omega
      · intro h; left; omega
    · constructor
      · rintro (h | ⟨hb, hr⟩)
        · omega
        · exfalso
          obtain ⟨s, hreg⟩ := hwp.2 l hb
          have h1 := Buffer.markerEnd_valid hb
          have h2 := Buffer.markerBegin_valid hreg.1
          have := hreg.2.2.1
          omega
      · intro h; left; omega

/-- C3, an instance of the amended statement: on the eight-line document with a
region from line 1 to line 4, selecting lines 0 to 7 clears lines 1 to 6 and
leaves the BEGIN marker on line 0 and the END marker on line 7. -/
theorem hideLines_whole_witness :
    3 ≤ (oneRegionDoc.nbLines : Int) ∧ oneRegionDoc.markerBegin 1 = true ∧
    (hideLines oneRegionDoc 0 ((oneRegionDoc.nbLines : Int) - 1)).markerBegin 1 = false ∧
    (hideLines oneRegionDoc 0 ((oneRegionDoc.nbLines : Int) - 1)).markerEnd 4 = false :=
  have h := hideLines_whole oneRegionDoc (by decide)
  ⟨by decide, by decide, (h.1 1 (by decide) (by decide)).1, (h.1 4 (by decide) (by decide)).2⟩

theorem hideLines_wellPaired {b : Buffer} (hwp : WellPaired b) (a c : Int) (ha : 1 ≤ a)
    (hac : a ≤ c) (hc : c + 2 ≤ (b.nbLines : Int)) (hnd : ¬ DeepInside b a c) :
    WellPaired (hideLines b a c) := by
  rw [hideLines_eq_from b a c ha hac hc]
  exact hideLinesFrom_wellPaired hwp a c ha hac hc hnd

theorem hideLinesSeq_wellPaired : ∀ (sels : List (Int × Int)) (b : Buffer),
    WellPaired b → SelectionsOk b sels → WellPaired (hideLinesSeq b sels) := by
  intro sels
  induction sels with
  | nil => intro b hwp _; exact hwp
  | cons sel rest ih =>
    intro b hwp hok
    obtain ⟨h1, h2, h3, h4, h5⟩ := hok
    exact ih _ (hideLines_wellPaired hwp _ _ h1 h2 h3 h4) h5

theorem SelectionsOk.take : ∀ (sels : List (Int × Int)) (b : Buffer) (k : Nat),
    SelectionsOk b sels → SelectionsOk b (sels.take k) := by
  intro sels
  induction sels with
  | nil => intro b k h; simpa using h
  | cons sel rest ih =>
    intro b k h
    cases k with
    | zero => exact trivial
    | succ k =>
      obtain ⟨h1, h2, h3, h4, h5⟩ := h
      exact ⟨h1, h2, h3, h4, ih _ k h5⟩

theorem WellPaired.unique_end {b : Buffer} (hwp : WellPaired b) (s : Int)
    (hs : b.markerBegin s = true) : ∃! e, Region b s e := by
  obtain ⟨e, hr⟩ := hwp.1 s hs
  exact ⟨e, hr, fun e' hr' => hr'.end_unique hr⟩

theorem WellPaired.apart {b : Buffer} {s e s' e' : Int} (hr : Region b s e)
    (hr' : Region b s' e') (h : s < s') : e ≤ s' := by
  by_contra hc
  have := (hr.2.2.2 s' h (by omega)).1
  rw [hr'.1] at this; cases this

theorem not_deepInside_of_marker {b : Buffer} {a c : Int} (l : Int) (h1 : a - 1 ≤ l)
    (h2 : l ≤ c + 1) (h : b.markerBegin l = true ∨ b.markerEnd l = true) :
    ¬ DeepInside b a c := by
  rintro ⟨s, e, hr, hs, he⟩
  have := hr.2.2.2 l (by omega) (by omega)
  rcases h with h | h
  · rw [this.1] at h; cases h
  · rw [this.2] at h; cases h

theorem not_deepInside_of_low {b : Buffer} {a c : Int} (k : Nat) (hk : a - 1 ≤ (k : Int))
    (h : ∀ s : Nat, s < k → b.markerBegin (s : Int) = false) : ¬ DeepInside b a c := by
  rintro ⟨s, e, hr, hs, he⟩
  have hv := (Buffer.markerBegin_valid hr.1).1
  have := h s.toNat (by omega)
  rw [Int.toNat_of_nonneg hv, hr.1] at this
  cases this

/-- C1, as stated, fails: hiding lines 2 to 7 and then lines 4 to 5 of a marker-free
ten-line document leaves BEGIN markers on lines 1 and 3 (and END markers on 6 and
8), so the BEGIN marker of line 1 has no END marker that closes a region with it. -/
theorem hideLines_nested_counterexample :
    NoMarkers (plainBuffer 10) ∧
    (hideLinesSeq (plainBuffer 10) [(2, 7), (4, 5)]).markerBegin 1 = true ∧
    (hideLinesSeq (plainBuffer 10) [(2, 7), (4, 5)]).markerBegin 3 = true ∧
    ¬ ∃ e, Region (hideLinesSeq (plainBuffer 10) [(2, 7), (4, 5)]) 1 e := by
  refine ⟨plainBuffer_noMarkers 10, by decide, by decide, ?_⟩
  rintro ⟨e, hr⟩
  have h3 : (hideLinesSeq (plainBuffer 10) [(2, 7), (4, 5)]).markerBegin 3 = true := by decide
  have he2 : (hideLinesSeq (plainBuffer 10) [(2, 7), (4, 5)]).markerEnd 2 = false := by decide
  have he3 : (hideLinesSeq (plainBuffer 10) [(2, 7), (4, 5)]).markerEnd 3 = false := by decide
  have hlt := hr.2.2.1
  by_cases h : 3 < e
  · have := (hr.2.2.2 3 (by decide) h).1
    rw [h3] at this; cases this
  · have hcase : e = 2 ∨ e = 3 := by omega
    rcases hcase with h | h
    · have := hr.2.1; rw [h, he2] at this; cases this
    · have := hr.2.1; rw [h, he3] at this; cases this

/-- C1, amended: starting from a document without hide markers, after every call
of a sequence of `hideLines` calls whose selections avoid the first and the last
line and do not lie deep inside a region that exists at the time of the call (a
region with BEGIN on `s` and END on `e` such that `s + 2 ≤ a` and `b + 2 ≤ e` for
the selection lines `a..b`), the markers are well paired: every BEGIN marker has
exactly one END marker on a greater line with no marker strictly between them
(and every END marker such a BEGIN marker), and of two regions the END line of the
first is at or before the BEGIN line of the second, so regions neither overlap
nor touch: a line that is not hidden lies between their hidden lines. -/
theorem hideLines_sequence_wellPaired (b : Buffer) (hno : NoMarkers b)
    (sels : List (Int × Int)) (hok : SelectionsOk b sels) (k : Nat) :
    WellPaired (hideLinesSeq b (sels.take k)) ∧
    (∀ s, (hideLinesSeq b (sels.take k)).markerBegin s = true →
      ∃! e, Region (hideLinesSeq b (sels.take k)) s e) ∧
    (∀ s e s' e', Region (hideLinesSeq b (sels.take k)) s e →
      Region (hideLinesSeq b (sels.take k)) s' e' → s < s' → e ≤ s' ∧ e - 1 + 2 ≤ s' + 1) := by
  have hwp := hideLinesSeq_wellPaired (sels.take k) b hno.wellPaired (hok.take sels b k)
  refine ⟨hwp, fun s hs => hwp.unique_end s hs, ?_⟩
  intro s e s' e' hr hr' h
  have := WellPaired.apart hr hr' h
  exact ⟨this, by omega⟩

theorem selectionsOk_example : SelectionsOk (plainBuffer 8) [(2, 3), (4, 5), (1, 1)] := by
  refine ⟨by decide, by decide, by decide, (plainBuffer_noMarkers 8).not_deepInside _ _,
    by decide, by decide, by decide, ?_, by decide, by decide, by decide, ?_, trivial⟩
  · exact not_deepInside_of_marker 4 (by decide) (by decide) (Or.inr (by decide))
  · exact not_deepInside_of_low 0 (by decide) (by decide)

/-- C1, an instance: hiding lines 2 to 3, then 4 to 5, then line 1 of a marker-free
eight-line document leaves a well-paired state after the third call. -/
theorem hideLines_sequence_wellPaired_witness :
    NoMarkers (plainBuffer 8) ∧ SelectionsOk (plainBuffer 8) [(2, 3), (4, 5), (1, 1)] ∧
    WellPaired (hideLinesSeq (plainBuffer 8) (List.take 3 [(2, 3), (4, 5), (1, 1)])) ∧
    (hideLinesSeq (plainBuffer 8) (List.take 3 [(2, 3), (4, 5), (1, 1)])).markerBegin 0 = true :=
  ⟨plainBuffer_noMarkers 8, selectionsOk_example,
    (hideLines_sequence_wellPaired (plainBuffer 8) (plainBuffer_noMarkers 8)
      [(2, 3), (4, 5), (1, 1)] selectionsOk_example 3).1, by decide⟩

theorem oneRegionDoc_wellPaired : WellPaired oneRegionDoc :=
  hideLines_wellPaired (plainBuffer_noMarkers 8).wellPaired 2 3 (by decide) (by decide)
    (by decide) ((plainBuffer_noMarkers 8).not_deepInside _ _)

theorem twoRegionDoc_wellPaired : WellPaired twoRegionDoc :=
  hideLines_wellPaired
    (hideLines_wellPaired (plainBuffer_noMarkers 10).wellPaired 2 2 (by decide) (by decide)
      (by decide) ((plainBuffer_noMarkers 10).not_deepInside _ _))
    4 5 (by decide) (by decide) (by decide)
    (not_deepInside_of_marker 3 (by decide) (by decide) (Or.inr (by decide)))

theorem hideLinesRun_some_bounds (b : Buffer) (hwp : WellPaired b) (sa sb : Int)
    (hsa : 0 ≤ sa) (hsb : sb < (b.nbLines : Int)) (out : HideOutcome)
    (hrun : hideLinesRun b sa sb = some out) :
    0 ≤ out.startMarker ∧ out.endMarker ≤ (b.nbLines : Int) - 1 ∧
    out.buf.markerBegin out.startMarker = true ∧ out.buf.markerEnd out.endMarker = true ∧
    out.startMarker < out.endMarker := by
  have hn : 3 ≤ (b.nbLines : Int) := by
    by_contra h
    have hnone : hideLinesRun b sa sb = none := by
      unfold hideLinesRun
      simp only
      rw [if_pos (by omega)]
    rw [hnone] at hrun; cases hrun
  have hac : (if sa = 0 then sa + 1 else sa)
      ≤ (if sb = (b.nbLines : Int) - 1 then sb - 1 else sb) := by
    by_contra h
    have hnone : hideLinesRun b sa sb = none := by
      unfold hideLinesRun
      simp only
      rw [if_neg (by omega), if_pos (by omega)]
    rw [hnone] at hrun; cases hrun
  have hout : hideLinesFrom b (if sa = 0 then sa + 1 else sa)
      (if sb = (b.nbLines : Int) - 1 then sb - 1 else sb) = out := by
    have h := hideLinesRun_eq b sa sb hn hac
    rw [h] at hrun
    injection hrun
  rw [clampStart_eq sa hsa, clampEnd_eq sb _ hsb] at hac hout
  obtain ⟨S, T, hS, hT, hS0, hSa, hTc, hTn, hB, hE, -, -⟩ :=
    hideLinesFrom_spec hwp (max sa 1) (min sb ((b.nbLines : Int) - 2))
      (by omega) (by omega) (by omega)
  rw [hout] at hS hT hB hE
  rw [hS, hT]
  exact ⟨hS0, by omega, (hB S).2 (Or.inl rfl), (hE T).2 (Or.inl rfl), by omega⟩

/-- C4: on a well-paired state and for every selection (lines `sa`, `sb` of the
document), `hideLines` either returns at its range check and changes nothing, or
places the BEGIN marker on a line `≥ 0` and the END marker on a greater line
`≤ n - 1`; both markers are then present and no line strictly between them, the
hidden region, is line 0 or line `n - 1`. -/
theorem hideLines_keeps_edges (b : Buffer) (hwp : WellPaired b) (sa sb : Int)
    (hsa : 0 ≤ sa) (hsb : sb < (b.nbLines : Int)) :
    (hideLinesRun b sa sb = none ∧ hideLines b sa sb = b) ∨
    ∃ out, hideLinesRun b sa sb = some out ∧ hideLines b sa sb = out.buf ∧
      0 ≤ out.startMarker ∧ out.endMarker ≤ (b.nbLines : Int) - 1 ∧
      out.buf.markerBegin out.startMarker = true ∧ out.buf.markerEnd out.endMarker = true ∧
      out.startMarker < out.endMarker ∧
      ∀ l, out.startMarker < l → l < out.endMarker → l ≠ 0 ∧ l ≠ (b.nbLines : Int) - 1 := by
  cases hrun : hideLinesRun b sa sb with
  | none => exact Or.inl ⟨rfl, by simp [hideLines, hrun]⟩
  | some out =>
    obtain ⟨h1, h2, h3, h4, h5⟩ := hideLinesRun_some_bounds b hwp sa sb hsa hsb out hrun
    refine Or.inr ⟨out, rfl, by simp [hideLines, hrun], h1, h2, h3, h4, h5, ?_⟩
    intro l hl1 hl2
    constructor <;> omega

/-- C4, an instance: on the document with a region from line 1 to line 4,
selecting lines 4 to 7 (the last line) gets past the range check and keeps the
markers within lines 0 to 7. -/
theorem hideLines_keeps_edges_witness :
    WellPaired oneRegionDoc ∧ hideLinesRun oneRegionDoc 4 7 ≠ none ∧
    ∃ out, hideLinesRun oneRegionDoc 4 7 = some out ∧
      0 ≤ out.startMarker ∧ out.endMarker ≤ (oneRegionDoc.nbLines : Int) - 1 := by
  have hsome : hideLinesRun oneRegionDoc 4 7 = some (hideLinesFrom oneRegionDoc 4 6) := rfl
  refine ⟨oneRegionDoc_wellPaired, by rw [hsome]; exact Option.some_ne_none _, ?_⟩
  rcases hideLines_keeps_edges oneRegionDoc oneRegionDoc_wellPaired 4 7 (by decide)
    (by decide) with h | ⟨out, h1, _, h3, h4, _⟩
  · rw [hsome] at h; exact absurd h.1 (Option.some_ne_none _)
  · exact ⟨out, h1, h3, h4⟩

/-- C10, as stated, fails: in the well-paired state with regions (1, 3) and (3, 6),
for the region with BEGIN on line 1 and END on line 3 and the selection of lines
3 to 4 (no marker on lines 4 to 5), `hideLines` leaves no END marker on line 5:
the merged region ends on line 6. -/
theorem hideLines_merge_counterexample :
    WellPaired twoRegionDoc ∧ Region twoRegionDoc 1 3 ∧
    (∀ l, 4 ≤ l → l ≤ 5 →
      twoRegionDoc.markerBegin l = false ∧ twoRegionDoc.markerEnd l = false) ∧
    (4 : Int) ≠ (twoRegionDoc.nbLines : Int) - 1 ∧
    (hideLines twoRegionDoc 3 4).markerEnd 5 = false ∧
    (hideLines twoRegionDoc 3 4).markerEnd 6 = true := by
  refine ⟨twoRegionDoc_wellPaired, ⟨by decide, by decide, by decide, ?_⟩, ?_, by decide,
    by decide, by decide⟩
  · intro l h1 h2
    have : l = 2 := by omega
    subst this
    exact ⟨by decide, by decide⟩
  · intro l h1 h2
    have : l = 4 ∨ l = 5 := by omega
    rcases this with h | h <;> subst h <;> exact ⟨by decide, by decide⟩

/-- C10, amended: in a well-paired state with a region from BEGIN line `s` to END
line `e`, for a selection of the lines `e..c` (`c` not the last line) such that
the lines `s..c+1` carry no hide marker other than that BEGIN and that END,
`hideLines` merges the range into the region: afterwards the lines `s..c+1` carry
exactly one BEGIN marker, on `s`, and exactly one END marker, on `c + 1`, and
the markers of every line outside `s..c+1` are unchanged. -/
theorem hideLines_merge_below (b : Buffer) (hwp : WellPaired b) (s e c : Int)
    (hr : Region b s e) (hec : e ≤ c) (hc : c + 2 ≤ (b.nbLines : Int))
    (hclean : ∀ l, s ≤ l → l ≤ c + 1 →
      (b.markerBegin l = true → l = s) ∧ (b.markerEnd l = true → l = e)) :
    (∀ l, s ≤ l → l ≤ c + 1 →
      ((hideLines b e c).markerBegin l = true ↔ l = s) ∧
      ((hideLines b e c).markerEnd l = true ↔ l = c + 1)) ∧
    (∀ l, l < s ∨ c + 1 < l →
      (hideLines b e c).markerBegin l = b.markerBegin l ∧
      (hideLines b e c).markerEnd l = b.markerEnd l) := by
  have hs0 := (Buffer.markerBegin_valid hr.1).1
  have hse := hr.2.2.1
  rw [hideLines_eq_from b e c (by omega) hec hc]
  have hnQ : ¬ MidAt b (c + 1) := by
    rintro ⟨s', e', hr', h1, h2⟩
    by_cases h : s' < s
    · have := (hr'.2.2.2 s h (by omega)).1
      rw [hr.1] at this; cases this
    · have hs' := (hclean s' (by omega) (by omega)).1 hr'.1
      subst hs'
      have := hr'.end_unique hr
      omega
  have hnd : ¬ DeepInside b e c := by
    rintro ⟨s', e', hr', h1, h2⟩
    exact hnQ ⟨s', e', hr', by omega, by omega⟩
  obtain ⟨S, T, -, -, -, -, -, -, hB, hE, -, hcase⟩ :=
    hideLinesFrom_spec hwp e c (by omega) hec hc
  obtain ⟨hS1, hS2, hT1, -⟩ := hcase hnd
  have hT := hT1 hnQ
  have hS : S = s := by
    by_cases hP : MidAt b (e - 1)
    · obtain ⟨e', hr', h1, h2⟩ := hS2 hP
      by_cases h : s ≤ e - 1
      · exact ((Region.same_of_open hr' hr (l := e - 1) (by omega) h2 h (by omega)).1)
      · omega
    · rw [hS1 hP]
      by_contra hne
      exact hP ⟨s, e, hr, by omega, by omega⟩
  subst hS hT
  constructor
  · intro l h1 h2
    rw [hB l, hE l]
    constructor
    · constructor
      · rintro (h | ⟨hb, _⟩)
        · exact h
        · exact (hclean l h1 h2).1 hb
      · intro h; exact Or.inl h
    · constructor
      · rintro (h | ⟨hb, hx⟩)
        · exact h
        · have := (hclean l h1 h2).2 hb
          omega
      · intro h; exact Or.inl h
  · intro l hl
    have hBl : (hideLinesFrom b e c).buf.markerBegin l = true ↔ b.markerBegin l = true := by
      rw [hB l]
      constructor
      · rintro (h | ⟨hb, _⟩)
        · omega
        · exact hb
      · intro hb; exact Or.inr ⟨hb, by omega⟩
    have hEl : (hideLinesFrom b e c).buf.markerEnd l = true ↔ b.markerEnd l = true := by
      rw [hE l]
      constructor
      · rintro (h | ⟨hb, _⟩)
        · omega
        · exact hb
      · intro hb; exact Or.inr ⟨hb, by omega⟩
    exact ⟨Bool.eq_iff_iff.2 hBl, Bool.eq_iff_iff.2 hEl⟩

/-- C10, an instance: in the document with a region from line 1 to line 4,
selecting lines 4 to 5 moves the END marker to line 6. -/
theorem hideLines_merge_below_witness :
    WellPaired oneRegionDoc ∧ Region oneRegionDoc 1 4 ∧
    (hideLines oneRegionDoc 4 5).markerBegin 1 = true ∧
    (hideLines oneRegionDoc 4 5).markerEnd 6 = true ∧
    (hideLines oneRegionDoc 4 5).markerEnd 4 = false := by
  have hreg : Region oneRegionDoc 1 4 := by
    refine ⟨by decide, by decide, by decide, ?_⟩
    intro l h1 h2
    have : l = 2 ∨ l = 3 := by omega
    rcases this with h | h <;> subst h <;> exact ⟨by decide, by decide⟩
  have hclean : ∀ l : Int, 1 ≤ l → l ≤ 5 + 1 →
      (oneRegionDoc.markerBegin l = true → l = 1) ∧ (oneRegionDoc.markerEnd l = true → l = 4) := by
    intro l h1 h2
    have : l = 1 ∨ l = 2 ∨ l = 3 ∨ l = 4 ∨ l = 5 ∨ l = 6 := by omega
    rcases this with h | h | h | h | h | h <;> subst h <;> decide
  have h := hideLines_merge_below oneRegionDoc oneRegionDoc_wellPaired 1 4 5 hreg (by decide)
    (by decide) hclean
  exact ⟨oneRegionDoc_wellPaired, hreg, (h.1 1 (by decide) (by decide)).1.2 rfl,
    (h.1 6 (by decide) (by decide)).2.2 rfl,
    bool_eq_false_of_not (fun hc => absurd ((h.1 4 (by decide) (by decide)).2.1 hc) (by decide))⟩

/-! ### `hideLines` followed by `showHiddenLines` -/

theorem findEndLine_find (b : Buffer) (e : Int) (he : b.markerEnd e = true) :
    ∀ (k : Nat) (j : Int) (count : Nat) (endLine : Int), e = j + k → k + 1 ≤ count →
      (∀ l, j ≤ l → l < e → b.markerEnd l = false) →
      findEndLine b count j endLine = e - 1 := by
  intro k
  induction k with
  | zero =>
    intro j count endLine hj hcount _
    obtain ⟨f, rfl⟩ : ∃ f, count = f + 1 := ⟨count - 1, by omega⟩
    have : j = e := by simp at hj; omega
    subst this
    simp [findEndLine, he]
  | succ n ih =>
    intro j count endLine hj hcount hno
    obtain ⟨f, rfl⟩ : ∃ f, count = f + 1 := ⟨count - 1, by omega⟩
    have hjn : b.markerEnd j = false := hno j (le_refl _) (by push_cast at hj; omega)
    simp only [findEndLine, hjn, Bool.false_eq_true, if_false]
    exact ih (j + 1) f endLine (by push_cast at hj ⊢; omega) (by omega)
      (fun l h1 h2 => hno l (by omega) h2)

theorem showHiddenScan_skip (endOfDoc doDelete : Bool) (n : Int) (b : Buffer) :
    ∀ (count : Nat) (i : Int), (∀ l, i ≤ l → b.markerBegin l = false) →
      showHiddenScan endOfDoc doDelete n count i b = b := by
  intro count
  induction count with
  | zero => intro i _; rfl
  | succ f ih =>
    intro i hno
    simp only [showHiddenScan, hno i (le_refl _), Bool.false_eq_true, if_false]
    exact ih (i + 1) (fun l hl => hno l (by omega))

/-! ### `fold` -/

/-- C5: calling `fold(L, M)` a second time changes nothing: the buffer after
two calls is the buffer after one call, fold-expanded flags and issued calls
included, so the second call issues no toggle. -/
theorem fold_twice (b : Buffer) (line : Int) (mode : Bool) :
    fold (fold b line mode) line mode = fold b line mode ∧
    (fold (fold b line mode) line mode).calls = (fold b line mode).calls ∧
    (fold (fold b line mode) line mode).expanded = (fold b line mode).expanded := by
  have key : fold (fold b line mode) line mode = fold b line mode := by
    unfold fold
    by_cases hs : b.endStyled < b.textLength
    · by_cases hh : isHeaderLevel (b.foldLevel line) = true
      · cases hm : mode <;> cases he : b.expanded line <;>
          simp [hs, hh, hm, he, colourise, toggleFold, isFolded]
      · by_cases hp : b.foldParent line = -1
        · simp [hs, hh, hp, colourise, toggleFold, isFolded]
        · cases hm : mode <;> cases he : b.expanded (b.foldParent line) <;>
            simp [hs, hh, hp, hm, he, colourise, toggleFold, isFolded]
    · by_cases hh : isHeaderLevel (b.foldLevel line) = true
      · cases hm : mode <;> cases he : b.expanded line <;>
          simp [hs, hh, hm, he, colourise, toggleFold, isFolded]
      · by_cases hp : b.foldParent line = -1
        · simp [hs, hh, hp, colourise, toggleFold, isFolded]
        · cases hm : mode <;> cases he : b.expanded (b.foldParent line) <;>
            simp [hs, hh, hp, hm, he, colourise, toggleFold, isFolded]
  exact ⟨key, by rw [key], by rw [key]⟩

/-! ### `setLineIndent`, single selection -/

/-- C6: with one selection `(cpMin, cpMax)` and an indent position that grows from
`posBefore` to `posAfter`, `setLineIndent` sets the selection to the two endpoints
mapped independently: `p + (posAfter - posBefore)` when `p ≥ posBefore`, `p` otherwise. -/
theorem setLineIndent_single_grow (setLineIndentation : Int → Nat → EditView → EditView)
    (line : Int) (indent : Nat) (v : EditView) (cpMin cpMax : Int)
    (hsel : v.selections = [(cpMin, cpMax)])
    (hgrow : (setLineIndentation line indent v).lineIndentPosition line
      > v.lineIndentPosition line) :
    (setLineIndent setLineIndentation line indent v).selections =
      [(if cpMin ≥ v.lineIndentPosition line then
          cpMin + ((setLineIndentation line indent v).lineIndentPosition line
            - v.lineIndentPosition line)
        else cpMin,
        if cpMax ≥ v.lineIndentPosition line then
          cpMax + ((setLineIndentation line indent v).lineIndentPosition line
            - v.lineIndentPosition line)
        else cpMax)] := by
  simp [setLineIndent, hsel, adjustOffset, hgrow]

/-- C6, the example: the selection `[10, 20]` with the indent position moving from
5 to 8 becomes `[13, 23]`. -/
theorem setLineIndent_single_grow_witness :
    exampleView.selections = [(10, 20)] ∧
    (indentTo 8 0 4 exampleView).lineIndentPosition 0 > exampleView.lineIndentPosition 0 ∧
    (setLineIndent (indentTo 8) 0 4 exampleView).selections = [(13, 23)] :=
  ⟨rfl, by decide,
    by
      have h := setLineIndent_single_grow (indentTo 8) 0 4 exampleView 10 20 rfl (by decide)
      simpa [exampleView, indentTo] using h⟩

/-- C7: with one selection `(cpMin, cpMax)` and an indent position that shrinks
from `posBefore` to `posAfter`, `setLineIndent` maps each endpoint `p` to
`p + (posAfter - posBefore)` when `p ≥ posBefore`, to `posAfter` when
`posAfter ≤ p < posBefore`, and to `p` when `p < posAfter`. -/
theorem setLineIndent_single_shrink (setLineIndentation : Int → Nat → EditView → EditView)
    (line : Int) (indent : Nat) (v : EditView) (cpMin cpMax : Int)
    (hsel : v.selections = [(cpMin, cpMax)])
    (hshrink : (setLineIndentation line indent v).lineIndentPosition line
      < v.lineIndentPosition line) :
    (setLineIndent setLineIndentation line indent v).selections =
      [(if cpMin ≥ v.lineIndentPosition line then
          cpMin + ((setLineIndentation line indent v).lineIndentPosition line
            - v.lineIndentPosition line)
        else if cpMin ≥ (setLineIndentation line indent v).lineIndentPosition line then
          (setLineIndentation line indent v).lineIndentPosition line
        else cpMin,
        if cpMax ≥ v.lineIndentPosition line then
          cpMax + ((setLineIndentation line indent v).lineIndentPosition line
            - v.lineIndentPosition line)
        else if cpMax ≥ (setLineIndentation line indent v).lineIndentPosition line then
          (setLineIndentation line indent v).lineIndentPosition line
        else cpMax)] := by
  have hng : ¬ (setLineIndentation line indent v).lineIndentPosition line
      > v.lineIndentPosition line := by omega
  simp only [setLineIndent, hsel, adjustOffset, hng, hshrink, List.length_singleton,
    if_true, if_false, List.getD_cons_zero]
  congr 2
  · split_ifs <;> first | rfl | omega
  · split_ifs <;> first | rfl | omega

/-- C7, the example: an endpoint at offset 6 with the indent position moving from
8 to 4 becomes 4 (not 2); the other endpoint, 12, moves to 8. -/
theorem setLineIndent_single_shrink_witness :
    exampleViewShrink.selections = [(6, 12)] ∧
    (indentTo 4 0 1 exampleViewShrink).lineIndentPosition 0
      < exampleViewShrink.lineIndentPosition 0 ∧
    (setLineIndent (indentTo 4) 0 1 exampleViewShrink).selections = [(4, 8)] :=
  ⟨rfl, by decide,
    by
      have h := setLineIndent_single_shrink (indentTo 4) 0 1 exampleViewShrink 6 12 rfl
        (by decide)
      simpa [exampleViewShrink, indentTo] using h⟩

/-! ### `foldLevel` on the five-line example -/

/-- C8, as stated, fails: on the example document `foldLevel(1, collapse)` also
toggles header line 3, whose fold-expanded flag goes from true to false. -/
theorem foldLevel_example_changes_line3 :
    exampleDoc.expanded 3 = true ∧
    isHeaderLevel (exampleDoc.foldLevel 3) = true ∧
    ∃ b, foldLevel exampleDoc 1 fold_collapse = Except.ok b ∧
      b.expanded 3 = false ∧ Call.toggleFold 3 ∈ b.calls :=
  ⟨rfl, rfl, toggleFold (toggleFold exampleDoc 1) 3, rfl, rfl, by decide⟩

/-- C8, amended: on the example document `foldLevel(1, collapse)` returns, issues
a toggle for line 1 and then for line 3 (the two headers at nesting depth 2) and
no other call, leaves lines 1 and 3 collapsed and changes the fold-expanded flag of
no other line, so header line 0 stays expanded; the block of line 1 is line 2. -/
theorem foldLevel_example_depth2 :
    ∃ b, foldLevel exampleDoc 1 fold_collapse = Except.ok b ∧
      b.calls = [Call.toggleFold 1, Call.toggleFold 3] ∧
      b.expanded 1 = false ∧ b.expanded 3 = false ∧ b.expanded 0 = true ∧
      (∀ l, l ≠ 1 → l ≠ 3 → b.expanded l = exampleDoc.expanded l) ∧
      exampleDoc.lastChild 1 (-1) = 2 := by
  refine ⟨toggleFold (toggleFold exampleDoc 1) 3, rfl, rfl, rfl, rfl, rfl, ?_, rfl⟩
  intro l h1 h3
  simp [toggleFold, h1, h3]

/-- C14: `hidelineMarkerClicked(lineNumber)` returns false exactly when the line
carries neither a BEGIN nor an END hide marker, and when it returns false the
buffer is left as it was: no marker added or deleted, no line shown or hidden,
no call issued. -/
theorem hidelineMarkerClicked_false (b : Buffer) (lineNumber : Int) :
    ((hidelineMarkerClicked b lineNumber).1 = false ↔
      (b.markerBegin lineNumber = false ∧ b.markerEnd lineNumber = false)) ∧
    ((hidelineMarkerClicked b lineNumber).1 = false →
      (hidelineMarkerClicked b lineNumber).2 = b) := by
  unfold hidelineMarkerClicked
  cases hb : b.markerBegin lineNumber <;> cases he : b.markerEnd lineNumber
  · simp
  · simp only [Bool.not_false, Bool.not_true, Bool.and_false, Bool.false_eq_true, if_false]
    split <;> simp
  · simp
  · simp

/-- C15: for a line that is not a fold header and whose fold parent query yields
-1, `fold(line, mode)` issues no toggle and leaves the fold-expanded flag of every
line as it was, for both modes: all it may do is style the text first. -/
theorem fold_no_parent (b : Buffer) (line : Int) (mode : Bool)
    (hh : isHeaderLevel (b.foldLevel line) = false) (hp : b.foldParent line = -1) :
    fold b line mode = (if b.endStyled < b.textLength then colourise b else b) ∧
    (fold b line mode).expanded = b.expanded ∧
    (∀ l, Call.toggleFold l ∈ (fold b line mode).calls → Call.toggleFold l ∈ b.calls) := by
  have key : fold b line mode = (if b.endStyled < b.textLength then colourise b else b) := by
    unfold fold
    by_cases hs : b.endStyled < b.textLength
    · simp [hs, colourise, hh, hp]
    · simp [hs, hh, hp]
  rw [key]
  refine ⟨rfl, ?_, ?_⟩
  · split <;> rfl
  · intro l hl
    split at hl
    · simpa [colourise] using hl
    · exact hl

/-- C15, an instance: in the five-line example document line 4 is no header and
has no fold parent; `fold(4, collapse)` and `fold(4, expand)` change nothing. -/
theorem fold_no_parent_witness :
    isHeaderLevel (exampleDoc.foldLevel 4) = false ∧ exampleDoc.foldParent 4 = -1 ∧
    (fold exampleDoc 4 fold_collapse).expanded = exampleDoc.expanded ∧
    (fold exampleDoc 4 fold_expand).expanded = exampleDoc.expanded :=
  ⟨by decide, by decide,
    (fold_no_parent exampleDoc 4 fold_collapse (by decide) (by decide)).2.1,
    (fold_no_parent exampleDoc 4 fold_expand (by decide) (by decide)).2.1⟩

/-- C16: `hideLines` leaves the buffer as it was (no marker added or deleted, no
hide-line change notified) when the document has fewer than three lines, and when
the clamped range is empty: start line (raised to 1 if it is 0) greater than end
line (lowered by one if it is the last line); this is the case for a selection
that lies on line 0 only or on the last line only. -/
theorem hideLines_noop (b : Buffer) (sa sb : Int)
    (h : (b.nbLines : Int) < 3 ∨
      (if sa = 0 then sa + 1 else sa) > (if sb = (b.nbLines : Int) - 1 then sb - 1 else sb)) :
    hideLinesRun b sa sb = none ∧ hideLines b sa sb = b ∧
    (hideLines b 0 0 = b ∧
      hideLines b ((b.nbLines : Int) - 1) ((b.nbLines : Int) - 1) = b) := by
  have hnone : ∀ x y : Int, ((b.nbLines : Int) < 3 ∨
      (if x = 0 then x + 1 else x) > (if y = (b.nbLines : Int) - 1 then y - 1 else y)) →
      hideLinesRun b x y = none := by
    intro x y hxy
    unfold hideLinesRun
    simp only
    by_cases hn : (b.nbLines : Int) < 3
    · rw [if_pos hn]
    · rw [if_neg hn]
      rcases hxy with h' | h'
      · exact absurd h' hn
      · rw [if_pos h']
  have hsame : ∀ x y : Int, hideLinesRun b x y = none → hideLines b x y = b := by
    intro x y hxy
    simp [hideLines, hxy]
  refine ⟨hnone sa sb h, hsame sa sb (hnone sa sb h), hsame 0 0 (hnone 0 0 ?_),
    hsame _ _ (hnone _ _ ?_)⟩
  · by_cases hn : (b.nbLines : Int) < 3
    · exact Or.inl hn
    · right
      simp only [if_true]
      split <;> omega
  · by_cases hn : (b.nbLines : Int) < 3
    · exact Or.inl hn
    · right
      simp only [if_true]
      split <;> omega

/-- C16, instances: a two-line document, and the selection of line 0 only in the
document with a region from line 1 to line 4. -/
theorem hideLines_noop_witness :
    ((twoLineDoc.nbLines : Int) < 3 ∧ hideLines twoLineDoc 0 1 = twoLineDoc) ∧
    hideLines oneRegionDoc 0 0 = oneRegionDoc :=
  ⟨⟨by decide, (hideLines_noop twoLineDoc 0 1 (Or.inl (by decide))).2.1⟩,
    (hideLines_noop oneRegionDoc 0 0 (Or.inr (by decide))).2.1⟩

/-- C20: when `line` resolves to the header `h` (itself if it carries the header
flag, otherwise its fold parent, which then carries the header flag),
`fold(line, mode)` is: style the text if needed, then one `SCI_TOGGLEFOLD` on `h`
if the state of `h` differs from `mode` and nothing otherwise; afterwards the
state query on `h` equals `mode`, and the result is that of `fold(h, mode)`. -/
theorem fold_resolves (b : Buffer) (line h : Int) (mode : Bool)
    (hres : (isHeaderLevel (b.foldLevel line) = true ∧ h = line) ∨
      (isHeaderLevel (b.foldLevel line) = false ∧ b.foldParent line = h ∧ h ≠ -1 ∧
        isHeaderLevel (b.foldLevel h) = true)) :
    fold b line mode =
      (if isFolded b h != mode then
        toggleFold (if b.endStyled < b.textLength then colourise b else b) h
       else (if b.endStyled < b.textLength then colourise b else b)) ∧
    isFolded (fold b line mode) h = mode ∧
    fold b line mode = fold b h mode := by
  have hstyle : ∀ x : Int, (if b.endStyled < b.textLength then colourise b else b).foldLevel x
      = b.foldLevel x := by
    intro x; split <;> rfl
  have hpar : ∀ x : Int, (if b.endStyled < b.textLength then colourise b else b).foldParent x
      = b.foldParent x := by
    intro x; split <;> rfl
  have hexp : ∀ x : Int, isFolded (if b.endStyled < b.textLength then colourise b else b) x
      = isFolded b x := by
    intro x; unfold isFolded; split <;> rfl
  have hhead : ∀ x : Int, isHeaderLevel (b.foldLevel x) = true →
      fold b x mode =
        (if isFolded b x != mode then
          toggleFold (if b.endStyled < b.textLength then colourise b else b) x
         else (if b.endStyled < b.textLength then colourise b else b)) := by
    intro x hx
    unfold fold
    simp only [hstyle, hx, if_true, hexp]
  have key : fold b line mode =
      (if isFolded b h != mode then
        toggleFold (if b.endStyled < b.textLength then colourise b else b) h
       else (if b.endStyled < b.textLength then colourise b else b)) := by
    rcases hres with ⟨hl, rfl⟩ | ⟨hl, hp, hne, _⟩
    · exact hhead h hl
    · unfold fold
      simp only [hstyle, hl, Bool.false_eq_true, if_false, hpar, hp, hne, hexp]
  have hh : isHeaderLevel (b.foldLevel h) = true := by
    rcases hres with ⟨hl, rfl⟩ | ⟨_, _, _, hh⟩
    · exact hl
    · exact hh
  refine ⟨key, ?_, by rw [key, hhead h hh]⟩
  rw [key]
  by_cases hd : (isFolded b h != mode) = true
  · rw [if_pos hd]
    have : isFolded b h = !mode := by
      cases hx : isFolded b h <;> cases mode <;> simp_all
    simp only [isFolded] at this ⊢
    simp only [toggleFold, if_true]
    have hb1 : (if b.endStyled < b.textLength then colourise b else b).expanded h
        = b.expanded h := by split <;> rfl
    rw [hb1, this]; simp
  · rw [if_neg hd, hexp]
    cases hx : isFolded b h <;> cases mode <;> simp_all

/-- C20, an instance: in the five-line example document line 2 resolves to its fold
parent, header line 1; `fold(2, collapse)` collapses line 1 with one toggle. -/
theorem fold_resolves_witness :
    isHeaderLevel (exampleDoc.foldLevel 2) = false ∧ exampleDoc.foldParent 2 = 1 ∧
    isHeaderLevel (exampleDoc.foldLevel 1) = true ∧
    isFolded (fold exampleDoc 2 fold_collapse) 1 = fold_collapse ∧
    (fold exampleDoc 2 fold_collapse).calls = [Call.toggleFold 1] :=
  ⟨by decide, by decide, by decide,
    (fold_resolves exampleDoc 2 1 fold_collapse
      (Or.inr ⟨by decide, by decide, by decide, by decide⟩)).2.1,
    by decide⟩

theorem not_deepInside_of_high {b : Buffer} {a c : Int}
    (h : ∀ k : Nat, k < ((b.nbLines : Int) - (c + 2)).toNat →
      b.markerEnd (c + 2 + (k : Int)) = false) : ¬ DeepInside b a c := by
  rintro ⟨s, e, hr, hs, he⟩
  have hv := (Buffer.markerEnd_valid hr.2.1).2
  have := h (e - (c + 2)).toNat (by omega)
  have hl : c + 2 + ((e - (c + 2)).toNat : Int) = e := by omega
  rw [hl, hr.2.1] at this
  cases this

theorem threeRegionDoc_wellPaired : WellPaired threeRegionDoc :=
  hideLines_wellPaired
    (hideLines_wellPaired
      (hideLines_wellPaired (plainBuffer_noMarkers 12).wellPaired 2 2 (by decide) (by decide)
        (by decide) ((plainBuffer_noMarkers 12).not_deepInside _ _))
      5 5 (by decide) (by decide) (by decide)
      (not_deepInside_of_high (by decide)))
    7 7 (by decide) (by decide) (by decide)
    (not_deepInside_of_marker 6 (by decide) (by decide) (Or.inr (by decide)))

theorem region_of_concrete {b : Buffer} {s e : Int} (hb : b.markerBegin s = true)
    (he : b.markerEnd e = true) (hse : s < e)
    (hin : ∀ k : Nat, k < (e - s - 1).toNat →
      b.markerBegin (s + 1 + k) = false ∧ b.markerEnd (s + 1 + k) = false) : Region b s e := by
  refine ⟨hb, he, hse, ?_⟩
  intro l h1 h2
  have := hin (l - s - 1).toNat (by omega)
  have hl : s + 1 + ((l - s - 1).toNat : Int) = l := by omega
  rw [hl] at this
  exact this

/-- C11, as stated, fails: in the well-paired state with the regions (1, 3), (4, 6)
and (6, 8), the consecutive regions (1, 3) and (4, 6) have no marker between
them, and `hideLines` on the lines 3 to 4 merges them into the region (1, 6);
but line 6 keeps the BEGIN marker of the third region, so the lines 1 to 6 carry
two BEGIN markers. -/
theorem hideLines_merge_between_counterexample :
    WellPaired threeRegionDoc ∧ Region threeRegionDoc 1 3 ∧ Region threeRegionDoc 4 6 ∧
    (hideLines threeRegionDoc 3 4).markerBegin 1 = true ∧
    (hideLines threeRegionDoc 3 4).markerBegin 6 = true ∧
    (hideLines threeRegionDoc 3 4).markerEnd 6 = true := by
  refine ⟨threeRegionDoc_wellPaired, region_of_concrete (by decide) (by decide) (by decide)
    (by decide), region_of_concrete (by decide) (by decide) (by decide) (by decide),
    by decide, by decide, by decide⟩

/-- C11, amended: in a well-paired state with two regions, BEGIN `s1` to END `e1`
and BEGIN `s2` to END `e2`, `e1 ≤ s2`, such that the lines `s1..e2` carry no hide
marker other than these four (so no marker between the regions, no END of an
earlier region on `s1` and no BEGIN of a later region on `e2`), `hideLines` on
the selection of the lines `e1..s2` merges all into one region: afterwards the
lines `s1..e2` carry exactly one BEGIN marker, on `s1`, and exactly one END
marker, on `e2`, and the markers of every line outside `s1..e2` are unchanged. -/
theorem hideLines_merge_between (b : Buffer) (hwp : WellPaired b) (s1 e1 s2 e2 : Int)
    (hr1 : Region b s1 e1) (hr2 : Region b s2 e2) (h12 : e1 ≤ s2)
    (hclean : ∀ l, s1 ≤ l → l ≤ e2 →
      (b.markerBegin l = true → l = s1 ∨ l = s2) ∧ (b.markerEnd l = true → l = e1 ∨ l = e2)) :
    (∀ l, s1 ≤ l → l ≤ e2 →
      ((hideLines b e1 s2).markerBegin l = true ↔ l = s1) ∧
      ((hideLines b e1 s2).markerEnd l = true ↔ l = e2)) ∧
    (∀ l, l < s1 ∨ e2 < l →
      (hideLines b e1 s2).markerBegin l = b.markerBegin l ∧
      (hideLines b e1 s2).markerEnd l = b.markerEnd l) := by
  have hs0 := (Buffer.markerBegin_valid hr1.1).1
  have hen := (Buffer.markerEnd_valid hr2.2.1).2
  have hse1 := hr1.2.2.1
  have hse2 := hr2.2.2.1
  rw [hideLines_eq_from b e1 s2 (by omega) h12 (by omega)]
  have hnd : ¬ DeepInside b e1 s2 := by
    rintro ⟨s', e', hr', h1, h2⟩
    by_cases h : s' < s1
    · have := (hr'.2.2.2 s1 h (by omega)).1
      rw [hr1.1] at this; cases this
    · rcases (hclean s' (by omega) (by omega)).1 hr'.1 with h' | h'
      · subst h'
        have := hr'.end_unique hr1
        omega
      · omega
  obtain ⟨S, T, -, -, -, -, -, -, hB, hE, -, hcase⟩ :=
    hideLinesFrom_spec hwp e1 s2 (by omega) h12 (by omega)
  obtain ⟨hS1, hS2, hT1, hT2⟩ := hcase hnd
  have hS : S = s1 := by
    by_cases hP : MidAt b (e1 - 1)
    · obtain ⟨e', hr', h1, h2⟩ := hS2 hP
      by_cases h : s1 ≤ e1 - 1
      · exact ((Region.same_of_open hr' hr1 (l := e1 - 1) (by omega) h2 h (by omega)).1)
      · omega
    · rw [hS1 hP]
      by_contra hne
      exact hP ⟨s1, e1, hr1, by omega, by omega⟩
  have hT : T = e2 := by
    by_cases hQ : MidAt b (s2 + 1)
    · obtain ⟨s', hr', h1, h2⟩ := hT2 hQ
      exact ((Region.same_of_open hr' hr2 (l := s2) (by omega) (by omega) (le_refl _) hse2).2)
    · rw [hT1 hQ]
      by_contra hne
      exact hQ ⟨s2, e2, hr2, by omega, by omega⟩
  subst hS hT
  constructor
  · intro l h1 h2
    rw [hB l, hE l]
    constructor
    · constructor
      · rintro (h | ⟨hb, hx⟩)
        · exact h
        · rcases (hclean l h1 h2).1 hb with h | h
          · exact h
          · omega
      · intro h; exact Or.inl h
    · constructor
      · rintro (h | ⟨hb, hx⟩)
        · exact h
        · rcases (hclean l h1 h2).2 hb with h | h
          · omega
          · exact h
      · intro h; exact Or.inl h
  · intro l hl
    have hBl : (hideLinesFrom b e1 s2).buf.markerBegin l = true ↔ b.markerBegin l = true := by
      rw [hB l]
      constructor
      · rintro (h | ⟨hb, _⟩)
        · omega
        · exact hb
      · intro hb; exact Or.inr ⟨hb, by omega⟩
    have hEl : (hideLinesFrom b e1 s2).buf.markerEnd l = true ↔ b.markerEnd l = true := by
      rw [hE l]
      constructor
      · rintro (h | ⟨hb, _⟩)
        · omega
        · exact hb
      · intro hb; exact Or.inr ⟨hb, by omega⟩
    exact ⟨Bool.eq_iff_iff.2 hBl, Bool.eq_iff_iff.2 hEl⟩

/-- C11, an instance: in the document with the regions (1, 3) and (3, 6), which
share line 3, selecting line 3 merges them into the region (1, 6). -/
theorem hideLines_merge_between_witness :
    WellPaired twoRegionDoc ∧ Region twoRegionDoc 1 3 ∧ Region twoRegionDoc 3 6 ∧
    (hideLines twoRegionDoc 3 3).markerBegin 1 = true ∧
    (hideLines twoRegionDoc 3 3).markerEnd 6 = true ∧
    (hideLines twoRegionDoc 3 3).markerBegin 3 = false ∧
    (hideLines twoRegionDoc 3 3).markerEnd 3 = false := by
  have hr1 : Region twoRegionDoc 1 3 :=
    region_of_concrete (by decide) (by decide) (by decide) (by decide)
  have hr2 : Region twoRegionDoc 3 6 :=
    region_of_concrete (by decide) (by decide) (by decide) (by decide)
  have hclean : ∀ l : Int, 1 ≤ l → l ≤ 6 →
      (twoRegionDoc.markerBegin l = true → l = 1 ∨ l = 3) ∧
      (twoRegionDoc.markerEnd l = true → l = 3 ∨ l = 6) := by
    intro l h1 h2
    have : l = 1 ∨ l = 2 ∨ l = 3 ∨ l = 4 ∨ l = 5 ∨ l = 6 := by omega
    rcases this with h | h | h | h | h | h <;> subst h <;> decide
  have h := hideLines_merge_between twoRegionDoc twoRegionDoc_wellPaired 1 3 3 6 hr1 hr2
    (by decide) hclean
  exact ⟨twoRegionDoc_wellPaired, hr1, hr2, (h.1 1 (by decide) (by decide)).1.2 rfl,
    (h.1 6 (by decide) (by decide)).2.2 rfl,
    bool_eq_false_of_not (fun hc => absurd ((h.1 3 (by decide) (by decide)).1.1 hc) (by decide)),
    bool_eq_false_of_not (fun hc => absurd ((h.1 3 (by decide) (by decide)).2.1 hc) (by decide))⟩

theorem getD_set_self {α : Type} (l : List α) (i : Nat) (a d : α) (h : i < l.length) :
    (l.set i a).getD i d = a := by
  simp [List.getD_eq_getElem?_getD, List.getElem?_set, h]

theorem getD_set_ne {α : Type} (l : List α) (i j : Nat) (a d : α) (h : i ≠ j) :
    (l.set i a).getD j d = l.getD j d := by
  simp [List.getD_eq_getElem?_getD, List.getElem?_set, h]

theorem setLineIndentScan_succ (prim : Int → Nat → EditView → EditView) (indent : Nat) :
    ∀ (k j : Nat) (v : EditView),
      setLineIndentScan prim indent (k + 1) j v
        = setLineIndentStep prim indent (j + k) (setLineIndentScan prim indent k j v) := by
  intro k
  induction k with
  | zero => intro j v; simp [setLineIndentScan]
  | succ n ih =>
    intro j v
    rw [setLineIndentScan, ih (j + 1) (setLineIndentStep prim indent j v)]
    have : j + 1 + n = j + (n + 1) := by omega
    rw [this]
    rfl

/-- The pair arithmetic of the multi-selection path is the single-selection
arithmetic applied to each endpoint. -/
theorem setLineIndentStep_selection (prim : Int → Nat → EditView → EditView) (indent : Nat)
    (i : Nat) (v : EditView)
    (hi : i < (prim (v.lineFromPosition (v.selections.getD i (0, 0)).1) indent v).selections.length) :
    (setLineIndentStep prim indent i v).selections.getD i (0, 0)
      = (adjustOffset (v.lineIndentPosition (v.lineFromPosition (v.selections.getD i (0, 0)).1))
          ((prim (v.lineFromPosition (v.selections.getD i (0, 0)).1) indent v).lineIndentPosition
            (v.lineFromPosition (v.selections.getD i (0, 0)).1))
          (v.selections.getD i (0, 0)).1,
         adjustOffset (v.lineIndentPosition (v.lineFromPosition (v.selections.getD i (0, 0)).1))
          ((prim (v.lineFromPosition (v.selections.getD i (0, 0)).1) indent v).lineIndentPosition
            (v.lineFromPosition (v.selections.getD i (0, 0)).1))
          (v.selections.getD i (0, 0)).2) := by
  unfold setLineIndentStep
  simp only
  rw [getD_set_self _ _ _ _ (by simpa using hi), getD_set_self _ _ _ _ hi]
  unfold adjustOffset
  simp only
  split
  · rfl
  · split <;> rfl

theorem setLineIndentStep_other (prim : Int → Nat → EditView → EditView) (indent : Nat)
    (i j : Nat) (v : EditView) (hij : i ≠ j) :
    (setLineIndentStep prim indent i v).selections.getD j (0, 0)
      = (prim (v.lineFromPosition (v.selections.getD i (0, 0)).1) indent v).selections.getD j
          (0, 0) := by
  unfold setLineIndentStep
  simp only
  rw [getD_set_ne _ _ _ _ _ hij, getD_set_ne _ _ _ _ _ hij]

theorem setLineIndentScan_add (prim : Int → Nat → EditView → EditView) (indent : Nat) :
    ∀ (a c j : Nat) (v : EditView),
      setLineIndentScan prim indent (a + c) j v
        = setLineIndentScan prim indent c (j + a) (setLineIndentScan prim indent a j v) := by
  intro a
  induction a with
  | zero => intro c j v; simp [setLineIndentScan]
  | succ n ih =>
    intro c j v
    have e1 : n + 1 + c = (n + c) + 1 := by omega
    have e2 : j + (n + 1) = j + 1 + n := by omega
    rw [e1, setLineIndentScan, ih, setLineIndentScan, e2]

theorem setLineIndentScan_other (prim : Int → Nat → EditView → EditView) (indent : Nat)
    (hsel : ∀ l w, (prim l indent w).selections = w.selections) (i : Nat) :
    ∀ (count j : Nat) (v : EditView), i < j ∨ j + count ≤ i →
      (setLineIndentScan prim indent count j v).selections.getD i (0, 0)
        = v.selections.getD i (0, 0) := by
  intro count
  induction count with
  | zero => intro j v _; rfl
  | succ n ih =>
    intro j v h
    rw [setLineIndentScan, ih (j + 1) _ (by omega),
      setLineIndentStep_other prim indent j i v (by omega), hsel]

/-- C17, amended: with a number of selections other than one, `setLineIndent` runs
the loop over the selections, and the iteration for selection `i` (applied to the
view `vi` the loop has reached) sets that range to the single-selection adjustment
of the `(start_i, end_i)` it reads: to what the single-selection path of
`setLineIndent` computes for the one selection `(start_i, end_i)` and the same
indentation change of the line `l` of `start_i`, each endpoint being adjusted on
its own by the endpoint rule with `posBefore`/`posAfter` of line `l`. When
`SCI_SETLINEINDENTATION` itself leaves the selections as they are, `(start_i,
end_i)` are the offsets of range `i` before the call and the adjusted pair is
range `i` when the call returns. -/
theorem setLineIndent_multi_rule (prim : Int → Nat → EditView → EditView) (line : Int)
    (indent : Nat) (v : EditView) (hmulti : v.selections.length ≠ 1) (i : Nat)
    (vi : EditView) (l : Int)
    (hvi : vi = setLineIndentScan prim indent i 0 { v with undoMarks := v.undoMarks ++ [true] })
    (hl : l = vi.lineFromPosition (vi.selections.getD i (0, 0)).1)
    (hi : i < (prim l indent vi).selections.length) :
    (setLineIndent prim line indent v).selections
      = (setLineIndentScan prim indent v.selections.length 0
          { v with undoMarks := v.undoMarks ++ [true] }).selections ∧
    (setLineIndentScan prim indent (i + 1) 0
        { v with undoMarks := v.undoMarks ++ [true] }).selections.getD i (0, 0)
      = (setLineIndent (fun _ _ _ => prim l indent vi) l indent
          { vi with selections := [vi.selections.getD i (0, 0)] }).selections.getD 0 (0, 0) ∧
    (setLineIndentScan prim indent (i + 1) 0
        { v with undoMarks := v.undoMarks ++ [true] }).selections.getD i (0, 0)
      = (adjustOffset (vi.lineIndentPosition l) ((prim l indent vi).lineIndentPosition l)
          (vi.selections.getD i (0, 0)).1,
         adjustOffset (vi.lineIndentPosition l) ((prim l indent vi).lineIndentPosition l)
          (vi.selections.getD i (0, 0)).2) ∧
    ((∀ k w, (prim k indent w).selections = w.selections) → i < v.selections.length →
      (setLineIndent prim line indent v).selections.getD i (0, 0)
        = (adjustOffset (vi.lineIndentPosition l) ((prim l indent vi).lineIndentPosition l)
            (v.selections.getD i (0, 0)).1,
           adjustOffset (vi.lineIndentPosition l) ((prim l indent vi).lineIndentPosition l)
            (v.selections.getD i (0, 0)).2)) := by
  have hstep : (setLineIndentScan prim indent (i + 1) 0
        { v with undoMarks := v.undoMarks ++ [true] }).selections.getD i (0, 0)
      = (adjustOffset (vi.lineIndentPosition l) ((prim l indent vi).lineIndentPosition l)
          (vi.selections.getD i (0, 0)).1,
         adjustOffset (vi.lineIndentPosition l) ((prim l indent vi).lineIndentPosition l)
          (vi.selections.getD i (0, 0)).2) := by
    rw [setLineIndentScan_succ, Nat.zero_add, ← hvi]
    subst hl
    exact setLineIndentStep_selection prim indent i vi hi
  have hfinal : (setLineIndent prim line indent v).selections
      = (setLineIndentScan prim indent v.selections.length 0
          { v with undoMarks := v.undoMarks ++ [true] }).selections := by
    simp [setLineIndent, hmulti]
  refine ⟨hfinal, ?_, hstep, ?_⟩
  · rw [hstep]
    simp [setLineIndent]
  · intro hsel hlen
    have hvsel : vi.selections.getD i (0, 0) = v.selections.getD i (0, 0) := by
      rw [hvi]
      exact setLineIndentScan_other prim indent hsel i i 0 _ (Or.inr (by omega))
    have hsplit : v.selections.length = (i + 1) + (v.selections.length - (i + 1)) := by omega
    rw [hfinal, hsplit, setLineIndentScan_add,
      setLineIndentScan_other prim indent hsel i _ _ _ (Or.inl (by omega)), hstep, hvsel]

/-- C17, an instance of the amended statement: with the selections `[10, 20]` on
line 0 and `[30, 40]` on line 1 and every indent position moving by 3, the second
iteration turns `[30, 40]` into `[33, 43]` and the call ends with `[13, 23]` and
`[33, 43]`. -/
theorem setLineIndent_multi_rule_witness :
    exampleViewMulti.selections.length ≠ 1 ∧
    (setLineIndentScan indentBy3 4 (1 + 1) 0
      { exampleViewMulti with undoMarks := exampleViewMulti.undoMarks ++ [true] }).selections.getD
        1 (0, 0) = (33, 43) ∧
    (setLineIndent indentBy3 0 4 exampleViewMulti).selections = [(13, 23), (33, 43)] := by
  have h := setLineIndent_multi_rule indentBy3 0 4 exampleViewMulti (by decide) 1
    (setLineIndentScan indentBy3 4 1 0
      { exampleViewMulti with undoMarks := exampleViewMulti.undoMarks ++ [true] }) 1 rfl
    (by decide) (by decide)
  refine ⟨by decide, ?_, by decide⟩
  rw [h.2.2.1]
  decide

theorem set_getD_self {α : Type} (d : α) :
    ∀ (l : List α) (i : Nat), l.set i (l.getD i d) = l := by
  intro l
  induction l with
  | nil => intro i; rfl
  | cons x xs ih =>
    intro i
    cases i with
    | zero => rfl
    | succ n => simp only [List.set, List.getD_cons_succ, ih]

theorem setLineIndentStep_unmoved (prim : Int → Nat → EditView → EditView) (indent : Nat)
    (i : Nat) (v : EditView)
    (hpos : (prim (v.lineFromPosition (v.selections.getD i (0, 0)).1) indent v).lineIndentPosition
        (v.lineFromPosition (v.selections.getD i (0, 0)).1)
      = v.lineIndentPosition (v.lineFromPosition (v.selections.getD i (0, 0)).1))
    (hsel : (prim (v.lineFromPosition (v.selections.getD i (0, 0)).1) indent v).selections
      = v.selections) :
    (setLineIndentStep prim indent i v).selections = v.selections := by
  unfold setLineIndentStep
  simp only [hpos, hsel, gt_iff_lt, lt_self_iff_false, if_false]
  by_cases h : i < v.selections.length
  · rw [getD_set_self _ _ _ _ h]
    simp only [List.set_set]
    exact set_getD_self _ _ _
  · have h1 : ∀ p : Int × Int, v.selections.set i p = v.selections :=
      fun p => List.set_eq_of_length_le (by omega)
    simp only [h1]

theorem setLineIndentScan_unmoved (prim : Int → Nat → EditView → EditView) (indent : Nat)
    (hpos : ∀ l w, (prim l indent w).lineIndentPosition l = w.lineIndentPosition l)
    (hsel : ∀ l w, (prim l indent w).selections = w.selections) :
    ∀ (count i : Nat) (v : EditView),
      (setLineIndentScan prim indent count i v).selections = v.selections := by
  intro count
  induction count with
  | zero => intro i v; rfl
  | succ n ih =>
    intro i v
    rw [setLineIndentScan, ih, setLineIndentStep_unmoved prim indent i v (hpos _ _) (hsel _ _)]

/-- C19, as stated, fails in the multi-selection path: with the range `[3, 4]` and
a caret on offset 1 on one line whose indentation is rewritten without moving its
indent position (offset 1), the widget itself moves the caret to offset 0 during
the first iteration; the second iteration reads `[0, 0]` and writes it back, so
the call ends with the second selection on `[0, 0]` instead of `[1, 1]`. -/
theorem setLineIndent_unmoved_counterexample :
    twoSelectionView.selections = [(3, 4), (1, 1)] ∧
    (∀ l k w, (retab l k w).lineIndentPosition l = w.lineIndentPosition l) ∧
    (setLineIndent retab 0 4 twoSelectionView).selections = [(3, 4), (0, 0)] :=
  ⟨rfl, fun _ _ _ => rfl, by decide⟩

/-- C19, amended: when the indentation change does not move the indent position,
the single-selection path sets the selection to exactly the start and end offsets
it had before the call; in the multi-selection path every iteration writes back
exactly the offsets it has read for its range, which are the offsets before the
call when `SCI_SETLINEINDENTATION` leaves the selections as they are. -/
theorem setLineIndent_unmoved (prim : Int → Nat → EditView → EditView) (line : Int)
    (indent : Nat) (v : EditView) :
    (∀ c, v.selections = [c] →
      (prim line indent v).lineIndentPosition line = v.lineIndentPosition line →
      (setLineIndent prim line indent v).selections = [c]) ∧
    (∀ (i : Nat) (w : EditView),
      (prim (w.lineFromPosition (w.selections.getD i (0, 0)).1) indent w).lineIndentPosition
          (w.lineFromPosition (w.selections.getD i (0, 0)).1)
        = w.lineIndentPosition (w.lineFromPosition (w.selections.getD i (0, 0)).1) →
      i < (prim (w.lineFromPosition (w.selections.getD i (0, 0)).1) indent w).selections.length →
      (setLineIndentStep prim indent i w).selections.getD i (0, 0) = w.selections.getD i (0, 0)) ∧
    (v.selections.length ≠ 1 →
      (∀ l w, (prim l indent w).lineIndentPosition l = w.lineIndentPosition l) →
      (∀ l w, (prim l indent w).selections = w.selections) →
      (setLineIndent prim line indent v).selections = v.selections) := by
  refine ⟨?_, ?_, ?_⟩
  · intro c hc hpos
    simp [setLineIndent, hc, hpos, adjustOffset]
  · intro i w hpos hi
    rw [setLineIndentStep_selection prim indent i w hi, hpos]
    simp [adjustOffset]
  · intro hmulti hpos hsel
    simp only [setLineIndent, hmulti, if_false]
    exact setLineIndentScan_unmoved prim indent hpos hsel _ _ _

/-- C19, instances of the amended statement: with an indentation primitive that
changes nothing, the single selection `[10, 20]` and the two selections `[10, 20]`,
`[30, 40]` are set to the offsets they had. -/
theorem setLineIndent_unmoved_witness :
    (setLineIndent (fun _ _ w => w) 0 4 exampleView).selections = [(10, 20)] ∧
    (setLineIndent (fun _ _ w => w) 0 4 exampleViewMulti).selections = [(10, 20), (30, 40)] :=
  ⟨(setLineIndent_unmoved (fun _ _ w => w) 0 4 exampleView).1 (10, 20) rfl rfl,
    (setLineIndent_unmoved (fun _ _ w => w) 0 4 exampleViewMulti).2.2 (by decide)
      (fun _ _ => rfl) (fun _ _ => rfl)⟩

theorem showHiddenScan_at_begin (endOfDoc : Bool) (b : Buffer) (i e : Int) (hr : Region b i e)
    (count : Nat) :
    showHiddenScan endOfDoc true b.nbLines (count + 1) i b
      = if (!endOfDoc) = true then
          ((b.showLines (i + 1) (e - 1)).markerDeleteBegin i).markerDeleteEnd e
        else showHiddenScan endOfDoc true b.nbLines count (i + 1)
          (((b.showLines (i + 1) (e - 1)).markerDeleteBegin i).markerDeleteEnd e) := by
  have hv := Buffer.markerEnd_valid hr.2.1
  have hfind : findEndLine b ((b.nbLines : Int) - (i + 1)).toNat (i + 1) (i + 1) = e - 1 := by
    apply findEndLine_find b e hr.2.1 (e - (i + 1)).toNat
    · have := hr.2.2.1; omega
    · have := hr.2.2.1; omega
    · intro l h1 h2
      exact (hr.2.2.2 l (by omega) h2).2
  rw [showHiddenScan]
  simp only [hr.1, if_true, hfind, sub_add_cancel]

theorem showHiddenScan_advance (endOfDoc doDelete : Bool) (n : Int) (b : Buffer) :
    ∀ (k : Nat) (i : Int) (count : Nat), (∀ l, i ≤ l → l < i + k → b.markerBegin l = false) →
      showHiddenScan endOfDoc doDelete n (k + count) i b
        = showHiddenScan endOfDoc doDelete n count (i + k) b := by
  intro k
  induction k with
  | zero => intro i count _; simp
  | succ m ih =>
    intro i count hno
    have e1 : m + 1 + count = (m + count) + 1 := by omega
    rw [e1, showHiddenScan]
    simp only [hno i (le_refl _) (by push_cast; omega), Bool.false_eq_true, if_false]
    rw [ih (i + 1) count (fun l h1 h2 => hno l (by omega) (by push_cast; omega))]
    congr 1
    push_cast; omega

theorem eq_false_iff_imp {x : Bool} {p : Prop} (h : x = true ↔ p) : x = false ↔ ¬ p := by
  cases x <;> simp_all

theorem region_remove_iff {b b2 : Buffer} (hwp : WellPaired b) {i e : Int} (hr : Region b i e)
    (hB : ∀ l, b2.markerBegin l = true ↔ b.markerBegin l = true ∧ l ≠ i)
    (hE : ∀ l, b2.markerEnd l = true ↔ b.markerEnd l = true ∧ l ≠ e) (s' e' : Int) :
    Region b2 s' e' ↔ Region b s' e' ∧ s' ≠ i := by
  unfold Region
  constructor
  · rintro ⟨hb2, he2, hlt, hbt⟩
    obtain ⟨hb, hsi⟩ := (hB s').1 hb2
    obtain ⟨he, hee⟩ := (hE e').1 he2
    have hbetween : ∀ l, s' < l → l < e' →
        (b.markerBegin l = true → l = i) ∧ (b.markerEnd l = true → l = e) := by
      intro l h1 h2
      obtain ⟨x1, x2⟩ := hbt l h1 h2
      have y1 := (eq_false_iff_imp (hB l)).1 x1
      have y2 := (eq_false_iff_imp (hE l)).1 x2
      exact ⟨fun h => by by_contra hc; exact y1 ⟨h, hc⟩,
        fun h => by by_contra hc; exact y2 ⟨h, hc⟩⟩
    have hnest : ¬ (s' < i ∧ i < e') := by
      rintro ⟨h1, h2⟩
      obtain ⟨x, hx⟩ := hwp.1 s' hb
      have hxi : x ≤ i := WellPaired.apart hx hr h1
      have := (hbetween x hx.2.2.1 (by omega)).2 hx.2.1
      have := hr.2.2.1
      omega
    refine ⟨⟨hb, he, hlt, ?_⟩, hsi⟩
    intro l h1 h2
    constructor
    · cases hbl : b.markerBegin l
      · rfl
      · exfalso
        have hli := (hbetween l h1 h2).1 hbl
        subst hli
        exact hnest ⟨h1, h2⟩
    · cases hel : b.markerEnd l
      · rfl
      · exfalso
        have hle := (hbetween l h1 h2).2 hel
        subst hle
        rcases lt_trichotomy i s' with h | h | h
        · have := (hr.2.2.2 s' h h1).1
          rw [hb] at this; cases this
        · exact hsi h.symm
        · exact hnest ⟨h, by have := hr.2.2.1; omega⟩
  · rintro ⟨⟨hb, he, hlt, hbetween⟩, hsi⟩
    refine ⟨(hB s').2 ⟨hb, hsi⟩, (hE e').2 ⟨he, ?_⟩, hlt, ?_⟩
    · intro hee
      subst hee
      exact hsi (Region.begin_unique ⟨hb, he, hlt, hbetween⟩ hr)
    · intro l h1 h2
      have := hbetween l h1 h2
      refine ⟨(eq_false_iff_imp (hB l)).2 ?_, (eq_false_iff_imp (hE l)).2 ?_⟩
      · rintro ⟨h, -⟩; rw [this.1] at h; cases h
      · rintro ⟨h, -⟩; rw [this.2] at h; cases h

theorem wellPaired_remove {b b2 : Buffer} (hwp : WellPaired b) {i e : Int} (hr : Region b i e)
    (hB : ∀ l, b2.markerBegin l = true ↔ b.markerBegin l = true ∧ l ≠ i)
    (hE : ∀ l, b2.markerEnd l = true ↔ b.markerEnd l = true ∧ l ≠ e) : WellPaired b2 := by
  constructor
  · intro s hs
    obtain ⟨h1, h2⟩ := (hB s).1 hs
    obtain ⟨x, hx⟩ := hwp.1 s h1
    exact ⟨x, (region_remove_iff hwp hr hB hE s x).2 ⟨hx, h2⟩⟩
  · intro x hx
    obtain ⟨h1, h2⟩ := (hE x).1 hx
    obtain ⟨s, hs⟩ := hwp.2 x h1
    refine ⟨s, (region_remove_iff hwp hr hB hE s x).2 ⟨hs, ?_⟩⟩
    intro hsi
    subst hsi
    exact h2 (Region.end_unique hs hr)

theorem shown_markerBegin (b : Buffer) (i e l : Int) :
    (((b.showLines (i + 1) (e - 1)).markerDeleteBegin i).markerDeleteEnd e).markerBegin l = true
      ↔ b.markerBegin l = true ∧ l ≠ i := by
  simp

theorem shown_markerEnd (b : Buffer) (i e l : Int) :
    (((b.showLines (i + 1) (e - 1)).markerDeleteBegin i).markerDeleteEnd e).markerEnd l = true
      ↔ b.markerEnd l = true ∧ l ≠ e := by
  simp

theorem shown_calls (b : Buffer) (i e : Int) :
    (((b.showLines (i + 1) (e - 1)).markerDeleteBegin i).markerDeleteEnd e).calls
      = b.calls ++ [Call.showLines (i + 1) (e - 1)] := by
  simp [Buffer.showLines]

theorem shown_nbLines (b : Buffer) (i e : Int) :
    (((b.showLines (i + 1) (e - 1)).markerDeleteBegin i).markerDeleteEnd e).nbLines
      = b.nbLines := by
  simp

theorem visible_markerDeleteBegin (b : Buffer) (k : Int) :
    (b.markerDeleteBegin k).visible = b.visible := by
  unfold Buffer.markerDeleteBegin; split <;> rfl

theorem visible_markerDeleteEnd (b : Buffer) (k : Int) :
    (b.markerDeleteEnd k).visible = b.visible := by
  unfold Buffer.markerDeleteEnd; split <;> rfl

theorem shown_visible (b : Buffer) (i e l : Int) :
    (((b.showLines (i + 1) (e - 1)).markerDeleteBegin i).markerDeleteEnd e).visible l = true
      ↔ b.visible l = true ∨ (i < l ∧ l < e) := by
  rw [visible_markerDeleteEnd, visible_markerDeleteBegin]
  unfold Buffer.showLines
  simp only
  by_cases h : i + 1 ≤ l ∧ l ≤ e - 1
  · rw [if_pos h]; simp only [true_iff]; right; omega
  · rw [if_neg h]
    constructor
    · exact Or.inl
    · rintro (h1 | h1)
      · exact h1
      · exact absurd ⟨by omega, by omega⟩ h

theorem showHiddenScan_all (n : Int) :
    ∀ (count : Nat) (i : Int) (b : Buffer), WellPaired b → n = (b.nbLines : Int) →
      n ≤ i + count →
      ∃ regs : List (Int × Int),
        (∀ s e, (s, e) ∈ regs ↔ Region b s e ∧ i ≤ s) ∧
        regs.Pairwise (fun p q => p.1 < q.1) ∧
        (showHiddenScan true true n count i b).calls
          = b.calls ++ regs.map (fun p => Call.showLines (p.1 + 1) (p.2 - 1)) ∧
        (∀ l, (showHiddenScan true true n count i b).markerBegin l = true
          ↔ b.markerBegin l = true ∧ l < i) ∧
        (∀ l, (showHiddenScan true true n count i b).markerEnd l = true
          ↔ b.markerEnd l = true ∧ ∀ s, Region b s l → s < i) ∧
        (∀ l, (showHiddenScan true true n count i b).visible l = true
          ↔ b.visible l = true ∨ ∃ s e, Region b s e ∧ i ≤ s ∧ s < l ∧ l < e) := by
  intro count
  induction count with
  | zero =>
    intro i b _ hn hcount
    have hlow : ∀ s, b.markerBegin s = true → s < i := by
      intro s hs
      have := Buffer.markerBegin_valid hs
      push_cast at hcount; omega
    refine ⟨[], ?_, List.Pairwise.nil, by simp [showHiddenScan], ?_, ?_, ?_⟩
    · intro s e
      simp only [List.not_mem_nil, false_iff, not_and, not_le]
      exact fun hr => hlow s hr.1
    · intro l
      exact ⟨fun h => ⟨h, hlow l h⟩, fun h => h.1⟩
    · intro l
      exact ⟨fun h => ⟨h, fun s hr => hlow s hr.1⟩, fun h => h.1⟩
    · intro l
      refine ⟨Or.inl, ?_⟩
      rintro (h | ⟨s, e, hr, h1, -⟩)
      · exact h
      · have := hlow s hr.1; omega
  | succ m ih =>
    intro i b hwp hn hcount
    cases hbi : b.markerBegin i
    · have hstep : showHiddenScan true true n (m + 1) i b
          = showHiddenScan true true n m (i + 1) b := by
        rw [showHiddenScan]; simp only [hbi, Bool.false_eq_true, if_false]
      rw [hstep]
      obtain ⟨regs, hmem, hpw, hcalls, hB, hE, hV⟩ :=
        ih (i + 1) b hwp hn (by push_cast at hcount ⊢; omega)
      have hne : ∀ s e, Region b s e → s ≠ i := by
        intro s e hr hs
        subst hs
        rw [hr.1] at hbi; cases hbi
      refine ⟨regs, ?_, hpw, hcalls, ?_, ?_, ?_⟩
      · intro s e
        rw [hmem]
        constructor
        · rintro ⟨hr, h⟩; exact ⟨hr, by omega⟩
        · rintro ⟨hr, h⟩; have := hne s e hr; exact ⟨hr, by omega⟩
      · intro l
        rw [hB]
        constructor
        · rintro ⟨h1, h2⟩
          refine ⟨h1, ?_⟩
          have : l ≠ i := by intro h; subst h; rw [h1] at hbi; cases hbi
          omega
        · rintro ⟨h1, h2⟩; exact ⟨h1, by omega⟩
      · intro l
        rw [hE]
        constructor
        · rintro ⟨h1, h2⟩
          refine ⟨h1, fun s hr => ?_⟩
          have := h2 s hr
          have := hne s l hr
          omega
        · rintro ⟨h1, h2⟩
          exact ⟨h1, fun s hr => by have := h2 s hr; omega⟩
      · intro l
        rw [hV]
        constructor
        · rintro (h | ⟨s, e, hr, h1, h2⟩)
          · exact Or.inl h
          · exact Or.inr ⟨s, e, hr, by omega, h2⟩
        · rintro (h | ⟨s, e, hr, h1, h2⟩)
          · exact Or.inl h
          · have := hne s e hr
            exact Or.inr ⟨s, e, hr, by omega, h2⟩
    · obtain ⟨e, hr⟩ := hwp.1 i hbi
      subst hn
      rw [showHiddenScan_at_begin true b i e hr m]
      simp only [Bool.not_true, Bool.false_eq_true, if_false]
      have hB2 := shown_markerBegin b i e
      have hE2 := shown_markerEnd b i e
      have hR2 := region_remove_iff hwp hr hB2 hE2
      obtain ⟨regs, hmem, hpw, hcalls, hB, hE, hV⟩ :=
        ih (i + 1) _ (wellPaired_remove hwp hr hB2 hE2) (by rw [shown_nbLines])
          (by push_cast at hcount ⊢; omega)
      refine ⟨(i, e) :: regs, ?_, ?_, ?_, ?_, ?_, ?_⟩
      · intro s x
        rw [List.mem_cons, hmem, hR2]
        constructor
        · rintro (h | ⟨⟨h1, h2⟩, h3⟩)
          · cases h; exact ⟨hr, le_refl _⟩
          · exact ⟨h1, by omega⟩
        · rintro ⟨h1, h2⟩
          by_cases hs : s = i
          · subst hs
            left
            rw [Region.end_unique h1 hr]
          · exact Or.inr ⟨⟨h1, hs⟩, by omega⟩
      · rw [List.pairwise_cons]
        refine ⟨?_, hpw⟩
        intro p hp
        have := ((hmem p.1 p.2).1 hp).2
        show i < p.1
        omega
      · rw [hcalls, shown_calls, List.map_cons, List.append_assoc]
        rfl
      · intro l
        rw [hB, hB2]
        constructor
        · rintro ⟨⟨h1, h2⟩, h3⟩; exact ⟨h1, by omega⟩
        · rintro ⟨h1, h2⟩; exact ⟨⟨h1, by omega⟩, by omega⟩
      · intro l
        rw [hE, hE2]
        constructor
        · rintro ⟨⟨h1, h2⟩, h3⟩
          refine ⟨h1, fun s hs => ?_⟩
          have hsi : s ≠ i := by
            intro h; subst h; exact h2 (Region.end_unique hs hr)
          have := h3 s ((hR2 s l).2 ⟨hs, hsi⟩)
          omega
        · rintro ⟨h1, h2⟩
          refine ⟨⟨h1, ?_⟩, fun s hs => ?_⟩
          · intro h; subst h
            have := h2 i hr
            omega
          · have := h2 s ((hR2 s l).1 hs).1
            omega
      · intro l
        rw [hV, shown_visible]
        constructor
        · rintro ((h | h) | ⟨s, x, hs, h1, h2⟩)
          · exact Or.inl h
          · exact Or.inr ⟨i, e, hr, le_refl _, h⟩
          · exact Or.inr ⟨s, x, ((hR2 s x).1 hs).1, by omega, h2⟩
        · rintro (h | ⟨s, x, hs, h1, h2⟩)
          · exact Or.inl (Or.inl h)
          · by_cases hsi : s = i
            · subst hsi
              rw [Region.end_unique hs hr] at h2
              exact Or.inl (Or.inr h2)
            · exact Or.inr ⟨s, x, (hR2 s x).2 ⟨hs, hsi⟩, by omega, h2⟩

/-- C12: on a well-paired marker state `showHiddenLines(searchStart, endOfDoc, true)`
works region by region. Without a BEGIN marker at or after `searchStart` it changes
nothing. Otherwise, with `bl` the first line at or after `searchStart` carrying a
BEGIN marker, its pair is the first END marker on a line `e > bl` (the region
`bl`, `e`); with `endOfDoc = false` the call shows lines `bl+1..e-1`, deletes the
BEGIN marker of `bl` and the END marker of `e`, leaves every other marker as it
was and issues no other call. With `endOfDoc = true` it does so for every region
beginning at or after `searchStart`, in ascending order: one show call per such
region, exactly their markers deleted, their inner lines visible, and no BEGIN
marker left at or after `searchStart`. -/
theorem showHiddenLines_wellPaired (b : Buffer) (hwp : WellPaired b) (searchStart : Int) :
    ((∀ l, searchStart ≤ l → b.markerBegin l = false) →
      ∀ endOfDoc, showHiddenLines b searchStart endOfDoc true = b) ∧
    (∀ bl, searchStart ≤ bl → b.markerBegin bl = true →
      (∀ l, searchStart ≤ l → l < bl → b.markerBegin l = false) →
      ∃ e, Region b bl e ∧
        showHiddenLines b searchStart false true
          = ((b.showLines (bl + 1) (e - 1)).markerDeleteBegin bl).markerDeleteEnd e ∧
        (showHiddenLines b searchStart false true).calls
          = b.calls ++ [Call.showLines (bl + 1) (e - 1)] ∧
        (∀ l, (showHiddenLines b searchStart false true).markerBegin l = true
          ↔ b.markerBegin l = true ∧ l ≠ bl) ∧
        (∀ l, (showHiddenLines b searchStart false true).markerEnd l = true
          ↔ b.markerEnd l = true ∧ l ≠ e) ∧
        (∀ l, (showHiddenLines b searchStart false true).visible l = true
          ↔ b.visible l = true ∨ (bl < l ∧ l < e))) ∧
    (∃ regs : List (Int × Int),
      (∀ s e, (s, e) ∈ regs ↔ Region b s e ∧ searchStart ≤ s) ∧
      regs.Pairwise (fun p q => p.1 < q.1) ∧
      (showHiddenLines b searchStart true true).calls
        = b.calls ++ regs.map (fun p => Call.showLines (p.1 + 1) (p.2 - 1)) ∧
      (∀ l, (showHiddenLines b searchStart true true).markerBegin l = true
        ↔ b.markerBegin l = true ∧ l < searchStart) ∧
      (∀ l, (showHiddenLines b searchStart true true).markerEnd l = true
        ↔ b.markerEnd l = true ∧ ∀ s, Region b s l → s < searchStart) ∧
      (∀ l, (showHiddenLines b searchStart true true).visible l = true
        ↔ b.visible l = true ∨ ∃ s e, Region b s e ∧ searchStart ≤ s ∧ s < l ∧ l < e) ∧
      (∀ l, searchStart ≤ l →
        (showHiddenLines b searchStart true true).markerBegin l = false)) := by
  refine ⟨?_, ?_, ?_⟩
  · intro hno endOfDoc
    exact showHiddenScan_skip endOfDoc true _ b _ searchStart hno
  · intro bl hbl hb hfirst
    obtain ⟨e, hr⟩ := hwp.1 bl hb
    have hv := Buffer.markerBegin_valid hb
    have hrun : showHiddenLines b searchStart false true
        = ((b.showLines (bl + 1) (e - 1)).markerDeleteBegin bl).markerDeleteEnd e := by
      unfold showHiddenLines
      simp only
      have hcount : ((b.nbLines : Int) - searchStart).toNat
          = (bl - searchStart).toNat + (((b.nbLines : Int) - bl - 1).toNat + 1) := by omega
      rw [hcount, showHiddenScan_advance false true _ b (bl - searchStart).toNat searchStart _
        (fun l h1 h2 => hfirst l h1 (by omega))]
      have hbl2 : searchStart + ((bl - searchStart).toNat : Int) = bl := by omega
      rw [hbl2, showHiddenScan_at_begin false b bl e hr]
      simp
    refine ⟨e, hr, hrun, ?_, ?_, ?_, ?_⟩
    · rw [hrun]; exact shown_calls b bl e
    · intro l; rw [hrun]; exact shown_markerBegin b bl e l
    · intro l; rw [hrun]; exact shown_markerEnd b bl e l
    · intro l; rw [hrun]; exact shown_visible b bl e l
  · obtain ⟨regs, hmem, hpw, hcalls, hB, hE, hV⟩ :=
      showHiddenScan_all (b.nbLines : Int) ((b.nbLines : Int) - searchStart).toNat searchStart b
        hwp rfl (by omega)
    refine ⟨regs, hmem, hpw, hcalls, hB, hE, hV, ?_⟩
    intro l hl
    cases h : (showHiddenLines b searchStart true true).markerBegin l
    · rfl
    · have := ((hB l).1 h).2
      omega

/-- C12, on an instance: in the twelve-line document with the regions (1, 3),
(4, 6) and (6, 8), `showHiddenLines(2, false, true)` takes the BEGIN marker of
line 4 with the END marker of line 6 and issues the one call showing line 5, and
`showHiddenLines(2, true, true)` leaves no BEGIN marker on a line from 2 on. -/
theorem showHiddenLines_wellPaired_witness :
    WellPaired threeRegionDoc ∧
    (∃ e, Region threeRegionDoc 4 e ∧
      (showHiddenLines threeRegionDoc 2 false true).calls
        = threeRegionDoc.calls ++ [Call.showLines (4 + 1) (e - 1)]) ∧
    (∀ l, 2 ≤ l → (showHiddenLines threeRegionDoc 2 true true).markerBegin l = false) := by
  have h := showHiddenLines_wellPaired threeRegionDoc threeRegionDoc_wellPaired 2
  refine ⟨threeRegionDoc_wellPaired, ?_, ?_⟩
  · obtain ⟨e, hr, -, hc, -⟩ := h.2.1 4 (by decide) (by decide) (by
      intro l h1 h2
      have : l = 2 ∨ l = 3 := by omega
      rcases this with rfl | rfl <;> decide)
    exact ⟨e, hr, hc⟩
  · obtain ⟨regs, -, -, -, -, -, -, hno⟩ := h.2.2
    exact hno

theorem hideMarkedScan_markers (endOfDoc : Bool) (maxLines : Int) :
    ∀ (count : Nat) (i startHiding : Int) (isInSection : Bool) (b : Buffer),
      (hideMarkedScan endOfDoc maxLines count i startHiding isInSection b).nbLines = b.nbLines ∧
      (hideMarkedScan endOfDoc maxLines count i startHiding isInSection b).hasBegin = b.hasBegin ∧
      (hideMarkedScan endOfDoc maxLines count i startHiding isInSection b).hasEnd = b.hasEnd := by
  intro count
  induction count with
  | zero =>
    intro i sh ins b
    unfold hideMarkedScan
    split <;> exact ⟨rfl, rfl, rfl⟩
  | succ n ih =>
    intro i sh ins b
    unfold hideMarkedScan
    simp only
    split
    · exact ⟨rfl, rfl, rfl⟩
    · split
      · rw [(ih _ _ _ _).1, (ih _ _ _ _).2.1, (ih _ _ _ _).2.2]
        split <;> exact ⟨rfl, rfl, rfl⟩
      · rw [(ih _ _ _ _).1, (ih _ _ _ _).2.1, (ih _ _ _ _).2.2]
        split <;> exact ⟨rfl, rfl, rfl⟩

theorem hideMarkedScan_step_true (n : Int) (count : Nat) (i sh : Int) (ins : Bool) (b : Buffer) :
    hideMarkedScan true n (count + 1) i sh ins b
      = hideMarkedScan true n count (i + 1)
          (if b.markerBegin i = true then i + 1 else sh)
          (if b.markerBegin i = true then true else if b.markerEnd i = true then false else ins)
          (if (b.markerEnd i && ins) = true then b.hideLinesCall sh (i - 1) else b) := by
  rw [hideMarkedScan]
  cases b.markerEnd i <;> cases b.markerBegin i <;> cases ins <;> simp

theorem hideMarkedScan_all (b0 : Buffer) (hwp : WellPaired b0) (n : Int)
    (hn : n = (b0.nbLines : Int)) :
    ∀ (count : Nat) (i sh : Int) (ins : Bool) (b : Buffer),
      (∀ l, b.markerBegin l = b0.markerBegin l) → (∀ l, b.markerEnd l = b0.markerEnd l) →
      n ≤ i + count →
      (ins = true ↔ ∃ s e, Region b0 s e ∧ s < i ∧ i ≤ e) →
      (∀ s e, Region b0 s e → s < i → i ≤ e → sh = s + 1) →
      ∃ regs : List (Int × Int),
        (∀ s e, (s, e) ∈ regs ↔ Region b0 s e ∧ i ≤ e) ∧
        regs.Pairwise (fun p q => p.1 < q.1) ∧
        (hideMarkedScan true n count i sh ins b).calls
          = b.calls ++ regs.map (fun p => Call.hideLines (p.1 + 1) (p.2 - 1)) ∧
        (∀ l, (hideMarkedScan true n count i sh ins b).visible l = true
          ↔ b.visible l = true ∧ ¬ ∃ s e, Region b0 s e ∧ i ≤ e ∧ s < l ∧ l < e) := by
  intro count
  induction count with
  | zero =>
    intro i sh ins b _ _ hcount hins _
    have hnone : ∀ s e, Region b0 s e → ¬ i ≤ e := by
      intro s e hr
      have := Buffer.markerEnd_valid hr.2.1
      push_cast at hcount; omega
    have hins' : ins = false := by
      cases ins
      · rfl
      · obtain ⟨s, e, hr, -, h⟩ := hins.1 rfl
        exact absurd h (hnone s e hr)
    subst hins'
    refine ⟨[], ?_, List.Pairwise.nil, by simp [hideMarkedScan], ?_⟩
    · intro s e
      simp only [List.not_mem_nil, false_iff, not_and]
      exact hnone s e
    · intro l
      simp only [hideMarkedScan, Bool.false_and, Bool.false_eq_true, if_false]
      exact ⟨fun h => ⟨h, fun ⟨s, e, hr, h1, _⟩ => hnone s e hr h1⟩, fun h => h.1⟩
  | succ m ih =>
    intro i sh ins b hB hE hcount hins hsh
    rw [hideMarkedScan_step_true, hB i, hE i]
    have hcount' : n ≤ i + 1 + (m : Int) := by push_cast at hcount; omega
    -- the state after line `i` satisfies the invariant at line `i + 1`
    have hins1 : ((if b0.markerBegin i = true then true
          else if b0.markerEnd i = true then false else ins) = true
        ↔ ∃ s e, Region b0 s e ∧ s < i + 1 ∧ i + 1 ≤ e) := by
      cases hbi : b0.markerBegin i
      · simp only [Bool.false_eq_true, if_false]
        have hne : ∀ s e, Region b0 s e → s ≠ i := by
          intro s e hr h; subst h; rw [hr.1] at hbi; cases hbi
        cases hei : b0.markerEnd i
        · simp only [Bool.false_eq_true, if_false]
          rw [hins]
          constructor
          · rintro ⟨s, e, hr, h1, h2⟩
            have : e ≠ i := by intro h; subst h; rw [hr.2.1] at hei; cases hei
            exact ⟨s, e, hr, by omega, by omega⟩
          · rintro ⟨s, e, hr, h1, h2⟩
            have := hne s e hr
            exact ⟨s, e, hr, by omega, by omega⟩
        · simp only [if_true, Bool.false_eq_true, false_iff]
          rintro ⟨s, e, hr, h1, h2⟩
          have := hne s e hr
          have := (hr.2.2.2 i (by omega) (by omega)).2
          rw [hei] at this; cases this
      · simp only [if_true, true_iff]
        obtain ⟨e, hr⟩ := hwp.1 i hbi
        exact ⟨i, e, hr, by omega, by have := hr.2.2.1; omega⟩
    have hsh1 : ∀ s e, Region b0 s e → s < i + 1 → i + 1 ≤ e →
        (if b0.markerBegin i = true then i + 1 else sh) = s + 1 := by
      intro s e hr h1 h2
      cases hbi : b0.markerBegin i
      · simp only [Bool.false_eq_true, if_false]
        have : s ≠ i := by intro h; subst h; rw [hr.1] at hbi; cases hbi
        exact hsh s e hr (by omega) (by omega)
      · simp only [if_true]
        obtain ⟨e', hr'⟩ := hwp.1 i hbi
        have := (Region.same_of_open hr hr' (l := i) (by omega) (by omega) (le_refl _)
          hr'.2.2.1).1
        omega
    cases hei : b0.markerEnd i
    · -- no END marker on line `i`: no call
      rw [hei] at hins1
      simp only [Bool.false_and, Bool.false_eq_true, if_false] at hins1 ⊢
      obtain ⟨regs, hmem, hpw, hcalls, hV⟩ := ih (i + 1) _ _ b hB hE hcount' hins1 hsh1
      have hne : ∀ s e, Region b0 s e → e ≠ i := by
        intro s e hr h; subst h; rw [hr.2.1] at hei; cases hei
      refine ⟨regs, ?_, hpw, hcalls, ?_⟩
      · intro s e
        rw [hmem]
        constructor
        · rintro ⟨hr, h⟩; exact ⟨hr, by omega⟩
        · rintro ⟨hr, h⟩; have := hne s e hr; exact ⟨hr, by omega⟩
      · intro l
        rw [hV]
        constructor
        · rintro ⟨h1, h2⟩
          refine ⟨h1, ?_⟩
          rintro ⟨s, e, hr, h3, h4⟩
          have := hne s e hr
          exact h2 ⟨s, e, hr, by omega, h4⟩
        · rintro ⟨h1, h2⟩
          refine ⟨h1, ?_⟩
          rintro ⟨s, e, hr, h3, h4⟩
          exact h2 ⟨s, e, hr, by omega, h4⟩
    · -- an END marker on line `i`: it closes the open region
      obtain ⟨s, hr⟩ := hwp.2 i hei
      have hin : ins = true := hins.2 ⟨s, i, hr, hr.2.2.1, le_refl _⟩
      have hs : sh = s + 1 := hsh s i hr hr.2.2.1 (le_refl _)
      subst hin hs
      rw [hei] at hins1
      simp only [Bool.and_self, if_true] at hins1 ⊢
      obtain ⟨regs, hmem, hpw, hcalls, hV⟩ :=
        ih (i + 1) _ _ (b.hideLinesCall (s + 1) (i - 1)) hB hE hcount' hins1 hsh1
      refine ⟨(s, i) :: regs, ?_, ?_, ?_, ?_⟩
      · intro s' e'
        rw [List.mem_cons, hmem]
        constructor
        · rintro (h | ⟨h1, h2⟩)
          · cases h; exact ⟨hr, le_refl _⟩
          · exact ⟨h1, by omega⟩
        · rintro ⟨h1, h2⟩
          by_cases he : e' = i
          · subst he
            left
            rw [Region.begin_unique h1 hr]
          · exact Or.inr ⟨h1, by omega⟩
      · rw [List.pairwise_cons]
        refine ⟨?_, hpw⟩
        intro p hp
        obtain ⟨hp1, hp2⟩ := (hmem p.1 p.2).1 hp
        show s < p.1
        rcases lt_trichotomy s p.1 with h | h | h
        · exact h
        · exfalso
          rw [h] at hr
          have := Region.end_unique hr hp1
          omega
        · exfalso
          have := WellPaired.apart hp1 hr h
          have := hr.2.2.1
          omega
      · rw [hcalls]
        simp [Buffer.hideLinesCall]
      · intro l
        rw [hV]
        have hvis : (b.hideLinesCall (s + 1) (i - 1)).visible l = true
            ↔ b.visible l = true ∧ ¬ (s < l ∧ l < i) := by
          unfold Buffer.hideLinesCall
          simp only
          by_cases h : s + 1 ≤ l ∧ l ≤ i - 1
          · rw [if_pos h]
            simp only [Bool.false_eq_true, false_iff, not_and, not_not]
            intro _; omega
          · rw [if_neg h]
            exact ⟨fun h1 => ⟨h1, fun h2 => h ⟨by omega, by omega⟩⟩, fun h1 => h1.1⟩
        rw [hvis]
        constructor
        · rintro ⟨⟨h1, h2⟩, h3⟩
          refine ⟨h1, ?_⟩
          rintro ⟨s', e', hr', h4, h5⟩
          by_cases he : e' = i
          · subst he
            rw [Region.begin_unique hr' hr] at h5
            exact h2 h5
          · exact h3 ⟨s', e', hr', by omega, h5⟩
        · rintro ⟨h1, h2⟩
          refine ⟨⟨h1, fun h => h2 ⟨s, i, hr, le_refl _, h⟩⟩, ?_⟩
          rintro ⟨s', e', hr', h4, h5⟩
          exact h2 ⟨s', e', hr', by omega, h5⟩

theorem hideMarkedScan_none_false (n : Int) (b : Buffer) :
    ∀ (count : Nat) (i sh : Int), (∀ l, i ≤ l → b.markerBegin l = false) →
      hideMarkedScan false n count i sh false b = b := by
  intro count
  induction count with
  | zero => intro i sh _; simp [hideMarkedScan]
  | succ m ih =>
    intro i sh hno
    rw [hideMarkedScan]
    simp only [hno i (le_refl _), Bool.and_false, Bool.false_and, Bool.false_eq_true, if_false,
      ite_self]
    exact ih (i + 1) sh (fun l hl => hno l (by omega))

theorem hideMarkedScan_skip_false (n : Int) (b : Buffer) :
    ∀ (k : Nat) (i sh : Int) (count : Nat), (∀ l, i ≤ l → l < i + k → b.markerBegin l = false) →
      hideMarkedScan false n (k + count) i sh false b
        = hideMarkedScan false n count (i + k) sh false b := by
  intro k
  induction k with
  | zero => intro i sh count _; simp
  | succ m ih =>
    intro i sh count hno
    have e1 : m + 1 + count = (m + count) + 1 := by omega
    rw [e1, hideMarkedScan]
    simp only [hno i (le_refl _) (by push_cast; omega), Bool.and_false, Bool.false_and,
      Bool.false_eq_true, if_false, ite_self]
    rw [ih (i + 1) sh count (fun l h1 h2 => hno l (by omega) (by push_cast; omega))]
    congr 1
    push_cast; omega

theorem hideMarkedScan_begin_false (n : Int) (b : Buffer) (count : Nat) (i sh : Int)
    (hb : b.markerBegin i = true) :
    hideMarkedScan false n (count + 1) i sh false b
      = hideMarkedScan false n count (i + 1) (i + 1) true b := by
  rw [hideMarkedScan]
  simp [hb]

theorem hideMarkedScan_seek_end (n : Int) (b : Buffer) :
    ∀ (k : Nat) (j sh : Int) (count : Nat), b.markerEnd (j + k) = true →
      (∀ l, j ≤ l → l < j + k → b.markerBegin l = false ∧ b.markerEnd l = false) →
      hideMarkedScan false n (k + (count + 1)) j sh true b = b.hideLinesCall sh (j + k - 1) := by
  intro k
  induction k with
  | zero =>
    intro j sh count he _
    simp only [Nat.cast_zero, add_zero] at he
    rw [Nat.zero_add, hideMarkedScan]
    simp [he]
  | succ m ih =>
    intro j sh count he hno
    have e1 : m + 1 + (count + 1) = (m + (count + 1)) + 1 := by omega
    obtain ⟨h1, h2⟩ := hno j (le_refl _) (by push_cast; omega)
    rw [e1, hideMarkedScan]
    simp only [h1, h2, Bool.false_and, Bool.false_eq_true, if_false]
    have e2 : j + 1 + (m : Int) = j + ((m + 1 : Nat) : Int) := by push_cast; omega
    rw [ih (j + 1) sh count (by rw [e2]; exact he)
      (fun l h3 h4 => hno l (by omega) (by push_cast; omega)), e2]

/-- C13: on a well-paired marker state `hideMarkedLines(0, true)` issues one
hide-lines call `[s+1, e-1]` for each region (BEGIN on `s`, END on `e`), in
ascending line order, and no other call, hides exactly the lines strictly inside a
region and changes no marker; `hideMarkedLines(searchStart, false)` changes
nothing when no BEGIN marker lies at or after `searchStart`, and otherwise issues
the one hide call for the first region whose BEGIN is at or after `searchStart`
and stops. -/
theorem hideMarkedLines_wellPaired (b : Buffer) (hwp : WellPaired b) :
    (∃ regs : List (Int × Int),
      (∀ s e, (s, e) ∈ regs ↔ Region b s e) ∧
      regs.Pairwise (fun p q => p.1 < q.1) ∧
      (hideMarkedLines b 0 true).calls
        = b.calls ++ regs.map (fun p => Call.hideLines (p.1 + 1) (p.2 - 1)) ∧
      (∀ l, (hideMarkedLines b 0 true).visible l = true
        ↔ b.visible l = true ∧ ¬ ∃ s e, Region b s e ∧ s < l ∧ l < e)) ∧
    (∀ searchStart endOfDoc,
      (hideMarkedLines b searchStart endOfDoc).nbLines = b.nbLines ∧
      (hideMarkedLines b searchStart endOfDoc).hasBegin = b.hasBegin ∧
      (hideMarkedLines b searchStart endOfDoc).hasEnd = b.hasEnd) ∧
    (∀ searchStart, (∀ l, searchStart ≤ l → b.markerBegin l = false) →
      hideMarkedLines b searchStart false = b) ∧
    (∀ searchStart bl, searchStart ≤ bl → b.markerBegin bl = true →
      (∀ l, searchStart ≤ l → l < bl → b.markerBegin l = false) →
      ∃ e, Region b bl e ∧
        hideMarkedLines b searchStart false = b.hideLinesCall (bl + 1) (e - 1)) := by
  refine ⟨?_, ?_, ?_, ?_⟩
  · obtain ⟨regs, hmem, hpw, hcalls, hV⟩ :=
      hideMarkedScan_all b hwp (b.nbLines : Int) rfl ((b.nbLines : Int) - 0).toNat 0 0 false b
        (fun _ => rfl) (fun _ => rfl) (by omega)
        (by
          simp only [Bool.false_eq_true, false_iff, not_exists, not_and, not_le]
          intro s e hr hs
          have := Buffer.markerBegin_valid hr.1
          omega)
        (by
          intro s e hr hs
          have := Buffer.markerBegin_valid hr.1
          omega)
    have hpos : ∀ s e, Region b s e → (0 : Int) ≤ e := by
      intro s e hr
      have := Buffer.markerEnd_valid hr.2.1
      omega
    refine ⟨regs, ?_, hpw, hcalls, ?_⟩
    · intro s e
      rw [hmem]
      exact ⟨fun h => h.1, fun h => ⟨h, hpos s e h⟩⟩
    · intro l
      unfold hideMarkedLines
      rw [hV]
      constructor
      · rintro ⟨h1, h2⟩
        exact ⟨h1, fun ⟨s, e, hr, h3, h4⟩ => h2 ⟨s, e, hr, hpos s e hr, h3, h4⟩⟩
      · rintro ⟨h1, h2⟩
        exact ⟨h1, fun ⟨s, e, hr, _, h3, h4⟩ => h2 ⟨s, e, hr, h3, h4⟩⟩
  · intro searchStart endOfDoc
    exact hideMarkedScan_markers endOfDoc _ _ _ _ _ b
  · intro searchStart hno
    exact hideMarkedScan_none_false _ b _ _ _ hno
  · intro searchStart bl hbl hb hfirst
    obtain ⟨e, hr⟩ := hwp.1 bl hb
    have hv := Buffer.markerEnd_valid hr.2.1
    have hlt := hr.2.2.1
    refine ⟨e, hr, ?_⟩
    unfold hideMarkedLines
    simp only
    have hcount : ((b.nbLines : Int) - searchStart).toNat
        = (bl - searchStart).toNat
          + (((e - (bl + 1)).toNat + (((b.nbLines : Int) - e - 1).toNat + 1)) + 1) := by omega
    rw [hcount, hideMarkedScan_skip_false _ b (bl - searchStart).toNat searchStart _ _
      (fun l h1 h2 => hfirst l h1 (by omega))]
    have hbl2 : searchStart + ((bl - searchStart).toNat : Int) = bl := by omega
    rw [hbl2, hideMarkedScan_begin_false _ b _ bl _ hb]
    have he2 : bl + 1 + ((e - (bl + 1)).toNat : Int) = e := by omega
    rw [hideMarkedScan_seek_end _ b (e - (bl + 1)).toNat (bl + 1) (bl + 1) _
      (by rw [he2]; exact hr.2.1)
      (fun l h1 h2 => hr.2.2.2 l (by omega) (by omega)), he2]

/-- C13, on an instance: in the twelve-line document with the regions (1, 3),
(4, 6) and (6, 8), `hideMarkedLines(0, true)` keeps every marker, and
`hideMarkedLines(2, false)` is the one hide call for the region beginning on
line 4. -/
theorem hideMarkedLines_wellPaired_witness :
    WellPaired threeRegionDoc ∧
    (hideMarkedLines threeRegionDoc 0 true).hasBegin = threeRegionDoc.hasBegin ∧
    (∃ e, Region threeRegionDoc 4 e ∧
      hideMarkedLines threeRegionDoc 2 false = threeRegionDoc.hideLinesCall (4 + 1) (e - 1)) := by
  have h := hideMarkedLines_wellPaired threeRegionDoc threeRegionDoc_wellPaired
  refine ⟨threeRegionDoc_wellPaired, (h.2.1 0 true).2.1, ?_⟩
  exact h.2.2.2 2 4 (by decide) (by decide) (by
    intro l h1 h2
    have : l = 2 ∨ l = 3 := by omega
    rcases this with rfl | rfl <;> decide)

theorem adjustOffset_le (posBefore posAfter p q : Int) (hpq : p ≤ q) :
    adjustOffset posBefore posAfter p ≤ adjustOffset posBefore posAfter q := by
  unfold adjustOffset
  simp only
  split_ifs <;> omega

/-- C27: the selection adjustment of `setLineIndent` is monotone in the offset: for
all `posBefore`, `posAfter` and offsets `p ≤ q` the adjusted `p` is at most the
adjusted `q`; so the single-selection path turns a selection `[p, q]` into one
with start at most end, and so does the iteration of the multi-selection path for
its range. -/
theorem setLineIndent_monotone (posBefore posAfter p q : Int) (hpq : p ≤ q) :
    adjustOffset posBefore posAfter p ≤ adjustOffset posBefore posAfter q ∧
    (∀ (prim : Int → Nat → EditView → EditView) (line : Int) (indent : Nat) (v : EditView),
      v.selections = [(p, q)] →
      ∃ p' q', (setLineIndent prim line indent v).selections = [(p', q')] ∧ p' ≤ q') ∧
    (∀ (prim : Int → Nat → EditView → EditView) (indent : Nat) (i : Nat) (w : EditView),
      w.selections.getD i (0, 0) = (p, q) →
      i < (prim (w.lineFromPosition p) indent w).selections.length →
      ((setLineIndentStep prim indent i w).selections.getD i (0, 0)).1
        ≤ ((setLineIndentStep prim indent i w).selections.getD i (0, 0)).2) := by
  refine ⟨adjustOffset_le _ _ _ _ hpq, ?_, ?_⟩
  · intro prim line indent v hv
    refine ⟨_, _, ?_, adjustOffset_le (v.lineIndentPosition line)
      ((prim line indent v).lineIndentPosition line) p q hpq⟩
    simp [setLineIndent, hv]
  · intro prim indent i w hw hi
    have hi' : i < (prim (w.lineFromPosition (w.selections.getD i (0, 0)).1) indent
        w).selections.length := by rw [hw]; exact hi
    rw [setLineIndentStep_selection prim indent i w hi', hw]
    exact adjustOffset_le _ _ _ _ hpq

/-- C27, on instances: with `posBefore = 8` and `posAfter = 4` the offsets 6 and 9
are adjusted to 4 and 5, and the single selection `[10, 20]` of the example view
keeps start at most end when its line is indented from offset 5 to offset 8. -/
theorem setLineIndent_monotone_witness :
    (6 : Int) ≤ 9 ∧ adjustOffset 8 4 6 ≤ adjustOffset 8 4 9 ∧
    (∃ p' q', (setLineIndent (indentTo 8) 0 4 exampleView).selections = [(p', q')] ∧ p' ≤ q') :=
  ⟨by decide, (setLineIndent_monotone 8 4 6 9 (by decide)).1,
    (setLineIndent_monotone 5 8 10 20 (by decide)).2.1 (indentTo 8) 0 4 exampleView rfl⟩

theorem hideLinesFrom_placed (b : Buffer) (a c : Int) :
    (0 ≤ (hideLinesFrom b a c).startMarker →
      (hideLinesFrom b a c).startMarker < (b.nbLines : Int) →
      (hideLinesFrom b a c).buf.markerBegin (hideLinesFrom b a c).startMarker = true) ∧
    (0 ≤ (hideLinesFrom b a c).endMarker →
      (hideLinesFrom b a c).endMarker < (b.nbLines : Int) →
      (hideLinesFrom b a c).buf.markerEnd (hideLinesFrom b a c).endMarker = true) := by
  have hn := (mergeWalk_mono b.nbLines (a - 1) (c + 1) (removeSelected b a c)).2.2.1
  rw [removeSelected_nbLines] at hn
  unfold hideLinesFrom
  simp only [Buffer.markerBegin_setHideLineChanged, Buffer.markerEnd_setHideLineChanged,
    Buffer.markerBegin_markerAddEnd, Buffer.markerBegin_markerAddBegin,
    Buffer.markerEnd_markerAddEnd, Buffer.markerEnd_markerAddBegin, decide_True, Bool.true_and,
    Bool.or_eq_true]
  constructor
  · intro h0 h1
    right
    rw [Buffer.validLine_iff, hn]
    exact ⟨h0, h1⟩
  · intro h0 h1
    right
    rw [Buffer.validLine_iff, Buffer.nbLines_markerAddBegin, hn]
    exact ⟨h0, h1⟩

/-- C22: whenever `hideLines()` does not return early, with `startLine..endLine`
the clamped target range, no line of `startLine..endLine` carries a BEGIN or an
END hide marker after the call, the line `startMarker` given to the BEGIN
`SCI_MARKERADD` is below `startLine` and the line `endMarker` given to the END
`SCI_MARKERADD` is above `endLine`; these two lines carry the markers placed
(when they are lines of the document), and every other marker present after the
call was there before. This holds for every marker state. -/
theorem hideLines_clears_range (b : Buffer) (selStartLine selEndLine : Int) (out : HideOutcome)
    (hrun : hideLinesRun b selStartLine selEndLine = some out) :
    (∀ l, (if selStartLine = 0 then selStartLine + 1 else selStartLine) ≤ l →
      l ≤ (if selEndLine = (b.nbLines : Int) - 1 then selEndLine - 1 else selEndLine) →
      out.buf.markerBegin l = false ∧ out.buf.markerEnd l = false) ∧
    out.startMarker < (if selStartLine = 0 then selStartLine + 1 else selStartLine) ∧
    (if selEndLine = (b.nbLines : Int) - 1 then selEndLine - 1 else selEndLine) < out.endMarker ∧
    (0 ≤ out.startMarker → out.startMarker < (b.nbLines : Int) →
      out.buf.markerBegin out.startMarker = true) ∧
    (0 ≤ out.endMarker → out.endMarker < (b.nbLines : Int) →
      out.buf.markerEnd out.endMarker = true) ∧
    (∀ l, l ≠ out.startMarker → out.buf.markerBegin l = true → b.markerBegin l = true) ∧
    (∀ l, l ≠ out.endMarker → out.buf.markerEnd l = true → b.markerEnd l = true) ∧
    hideLines b selStartLine selEndLine = out.buf := by
  have hout : hideLines b selStartLine selEndLine = out.buf := by
    unfold hideLines; rw [hrun]
  by_cases hn : (b.nbLines : Int) < 3
  · simp [hideLinesRun, hn] at hrun
  by_cases hac : (if selStartLine = 0 then selStartLine + 1 else selStartLine)
      > (if selEndLine = (b.nbLines : Int) - 1 then selEndLine - 1 else selEndLine)
  · simp [hideLinesRun, hn, hac] at hrun
  have hac' := not_lt.1 hac
  rw [hideLinesRun_eq b _ _ (by omega) hac'] at hrun
  cases hrun
  obtain ⟨hS, hT, hB, hE⟩ := hideLinesFrom_markers_sub b _ _ hac'
  obtain ⟨hpB, hpE⟩ := hideLinesFrom_placed b
    (if selStartLine = 0 then selStartLine + 1 else selStartLine)
    (if selEndLine = (b.nbLines : Int) - 1 then selEndLine - 1 else selEndLine)
  refine ⟨?_, by omega, by omega, hpB, hpE, ?_, ?_, hout⟩
  · intro l h1 h2
    constructor
    · cases h : (hideLinesFrom b _ _).buf.markerBegin l
      · rfl
      · rcases hB l h with h' | ⟨-, h'⟩
        · omega
        · exact absurd ⟨by omega, h2⟩ h'
    · cases h : (hideLinesFrom b _ _).buf.markerEnd l
      · rfl
      · rcases hE l h with h' | ⟨-, h'⟩
        · omega
        · exact absurd ⟨h1, by omega⟩ h'
  · intro l hl h
    rcases hB l h with h' | ⟨h', -⟩
    · exact absurd h' hl
    · exact h'
  · intro l hl h
    rcases hE l h with h' | ⟨h', -⟩
    · exact absurd h' hl
    · exact h'

/-- C22, on an instance: in the document with the regions (1, 3), (4, 6) and
(6, 8), `hideLines()` on the lines 3 to 6 does not return early and leaves no
hide marker on the lines 3 to 6. -/
theorem hideLines_clears_range_witness :
    hideLinesRun threeRegionDoc 3 6 = some (hideLinesFrom threeRegionDoc 3 6) ∧
    (∀ l, 3 ≤ l → l ≤ 6 →
      (hideLinesFrom threeRegionDoc 3 6).buf.markerBegin l = false ∧
      (hideLinesFrom threeRegionDoc 3 6).buf.markerEnd l = false) :=
  ⟨rfl, (hideLines_clears_range threeRegionDoc 3 6 (hideLinesFrom threeRegionDoc 3 6) rfl).1⟩

theorem showHiddenLines_at_begin (b : Buffer) (s e : Int) (hr : Region b s e) :
    showHiddenLines b s false true
      = ((b.showLines (s + 1) (e - 1)).markerDeleteBegin s).markerDeleteEnd e := by
  have hv := Buffer.markerBegin_valid hr.1
  unfold showHiddenLines
  simp only
  have hcount : ((b.nbLines : Int) - s).toNat = ((b.nbLines : Int) - s - 1).toNat + 1 := by omega
  rw [hcount, showHiddenScan_at_begin false b s e hr]
  simp

theorem findOpeningLine_find (b : Buffer) (s : Int) (hs : b.markerBegin s = true) :
    ∀ (k : Nat) (l : Int) (fuel : Nat), l = s + k → k + 1 ≤ fuel →
      (∀ x, s < x → x ≤ l → b.markerBegin x = false) →
      findOpeningLine b fuel l = s := by
  have hv := Buffer.markerBegin_valid hs
  intro k
  induction k with
  | zero =>
    intro l fuel hl hfuel _
    obtain ⟨f, rfl⟩ : ∃ f, fuel = f + 1 := ⟨fuel - 1, by omega⟩
    have : l = s := by simpa using hl
    subst this
    simp [findOpeningLine, hs, hv.1]
  | succ n ih =>
    intro l fuel hl hfuel hno
    obtain ⟨f, rfl⟩ : ∃ f, fuel = f + 1 := ⟨fuel - 1, by omega⟩
    have hl0 : 0 ≤ l := by push_cast at hl; omega
    rw [findOpeningLine, if_pos hl0, hno l (by push_cast at hl; omega) (le_refl _)]
    simp only [Bool.false_eq_true, if_false]
    exact ih (l - 1) f (by push_cast at hl; omega) (by omega)
      (fun x h1 h2 => hno x h1 (by omega))

/-- C23: on a well-paired marker state, for a line `e` that carries an END marker
but no BEGIN marker, `hidelineMarkerClicked(e)` returns true; the backward scan
stops on the nearest line `s < e` with a BEGIN marker, which is the BEGIN paired
with the END of `e`; the call shows the lines `s+1..e-1` (the one call issued),
deletes the BEGIN marker of `s` and the END marker of `e`, and leaves every other
marker as it was. -/
theorem hidelineMarkerClicked_end (b : Buffer) (hwp : WellPaired b) (e : Int)
    (hE : b.markerEnd e = true) (hB : b.markerBegin e = false) :
    ∃ s, Region b s e ∧ (∀ l, s < l → l ≤ e → b.markerBegin l = false) ∧
      findOpeningLine b (e + 1).toNat e = s ∧
      hidelineMarkerClicked b e
        = (true, ((b.showLines (s + 1) (e - 1)).markerDeleteBegin s).markerDeleteEnd e) ∧
      (hidelineMarkerClicked b e).2.calls = b.calls ++ [Call.showLines (s + 1) (e - 1)] ∧
      (∀ l, (hidelineMarkerClicked b e).2.markerBegin l = true
        ↔ b.markerBegin l = true ∧ l ≠ s) ∧
      (∀ l, (hidelineMarkerClicked b e).2.markerEnd l = true
        ↔ b.markerEnd l = true ∧ l ≠ e) ∧
      (∀ l, (hidelineMarkerClicked b e).2.visible l = true
        ↔ b.visible l = true ∨ (s < l ∧ l < e)) := by
  obtain ⟨s, hr⟩ := hwp.2 e hE
  have hvs := Buffer.markerBegin_valid hr.1
  have hlt := hr.2.2.1
  have hnear : ∀ l, s < l → l ≤ e → b.markerBegin l = false := by
    intro l h1 h2
    by_cases h : l = e
    · subst h; exact hB
    · exact (hr.2.2.2 l h1 (by omega)).1
  have hfind : findOpeningLine b (e + 1).toNat e = s :=
    findOpeningLine_find b s hr.1 (e - s).toNat e _ (by omega) (by omega) hnear
  have hrun : hidelineMarkerClicked b e
      = (true, ((b.showLines (s + 1) (e - 1)).markerDeleteBegin s).markerDeleteEnd e) := by
    unfold hidelineMarkerClicked
    simp only [hB, hE, hfind, Bool.not_false, Bool.not_true, Bool.and_false, Bool.false_eq_true,
      if_false, if_pos hvs.1]
    rw [showHiddenLines_at_begin b s e hr]
  refine ⟨s, hr, hnear, hfind, hrun, ?_, ?_, ?_, ?_⟩
  · rw [hrun]; exact shown_calls b s e
  · intro l; rw [hrun]; exact shown_markerBegin b s e l
  · intro l; rw [hrun]; exact shown_markerEnd b s e l
  · intro l; rw [hrun]; exact shown_visible b s e l

/-- C23, on an instance: in the eight-line document with the region (1, 4), a
click on the END marker of line 4 returns true and leaves no BEGIN marker on
line 1 and no END marker on line 4. -/
theorem hidelineMarkerClicked_end_witness :
    WellPaired oneRegionDoc ∧ oneRegionDoc.markerEnd 4 = true ∧
    oneRegionDoc.markerBegin 4 = false ∧
    (hidelineMarkerClicked oneRegionDoc 4).1 = true ∧
    (hidelineMarkerClicked oneRegionDoc 4).2.markerBegin 1 = false ∧
    (hidelineMarkerClicked oneRegionDoc 4).2.markerEnd 4 = false := by
  obtain ⟨s, hr, -, -, hrun, -, hB, hE, -⟩ :=
    hidelineMarkerClicked_end oneRegionDoc oneRegionDoc_wellPaired 4 (by decide) (by decide)
  refine ⟨oneRegionDoc_wellPaired, by decide, by decide, by rw [hrun], by decide, by decide⟩

/-- C26: for a document without hide markers and a selection of the lines `a..c`
with `1 ≤ a ≤ c ≤ n - 2` (so `n ≥ 3`), `hideLines()` puts the BEGIN marker on
`a - 1` and the END marker on `c + 1`, and the following
`showHiddenLines(a - 1, false, true)` issues the one call `SCI_SHOWLINES(a, c)`,
after which the lines `a..c` are visible and no line carries a BEGIN or an END
marker. -/
theorem hideLines_then_show (b : Buffer) (hno : NoMarkers b) (a c : Int) (ha : 1 ≤ a)
    (hac : a ≤ c) (hc : c ≤ (b.nbLines : Int) - 2) :
    3 ≤ (b.nbLines : Int) ∧
    (∀ l, (hideLines b a c).markerBegin l = true ↔ l = a - 1) ∧
    (∀ l, (hideLines b a c).markerEnd l = true ↔ l = c + 1) ∧
    showHiddenLines (hideLines b a c) (a - 1) false true
      = (((hideLines b a c).showLines a c).markerDeleteBegin (a - 1)).markerDeleteEnd (c + 1) ∧
    (showHiddenLines (hideLines b a c) (a - 1) false true).calls
      = (hideLines b a c).calls ++ [Call.showLines a c] ∧
    (∀ l, a ≤ l → l ≤ c →
      (showHiddenLines (hideLines b a c) (a - 1) false true).visible l = true) ∧
    NoMarkers (showHiddenLines (hideLines b a c) (a - 1) false true) := by
  have hc' : c + 2 ≤ (b.nbLines : Int) := by omega
  have hfrom := hideLines_eq_from b a c ha hac hc'
  obtain ⟨S, T, -, -, -, -, -, -, hB, hE, -, hcase⟩ :=
    hideLinesFrom_spec hno.wellPaired a c ha hac hc'
  obtain ⟨hS, -, hT, -⟩ := hcase (hno.not_deepInside _ _)
  have hS' := hS (hno.not_midAt _)
  have hT' := hT (hno.not_midAt _)
  subst hS' hT'
  rw [← hfrom] at hB hE
  have hB' : ∀ l, (hideLines b a c).markerBegin l = true ↔ l = a - 1 := by
    intro l
    rw [hB l]
    constructor
    · rintro (h | ⟨h, -⟩)
      · exact h
      · rw [(hno l).1] at h; cases h
    · exact Or.inl
  have hE' : ∀ l, (hideLines b a c).markerEnd l = true ↔ l = c + 1 := by
    intro l
    rw [hE l]
    constructor
    · rintro (h | ⟨h, -⟩)
      · exact h
      · rw [(hno l).2] at h; cases h
    · exact Or.inl
  have hr : Region (hideLines b a c) (a - 1) (c + 1) := by
    refine ⟨(hB' _).2 rfl, (hE' _).2 rfl, by omega, ?_⟩
    intro l h1 h2
    exact ⟨(eq_false_iff_imp (hB' l)).2 (by omega), (eq_false_iff_imp (hE' l)).2 (by omega)⟩
  have hrun := showHiddenLines_at_begin (hideLines b a c) (a - 1) (c + 1) hr
  simp only [sub_add_cancel, add_sub_cancel_right] at hrun
  refine ⟨by omega, hB', hE', hrun, ?_, ?_, ?_⟩
  · rw [hrun]; simp [Buffer.showLines]
  · intro l h1 h2
    rw [hrun, visible_markerDeleteEnd, visible_markerDeleteBegin]
    simp [Buffer.showLines, h1, h2]
  · intro l
    rw [hrun]
    have h1 : ((((hideLines b a c).showLines a c).markerDeleteBegin (a - 1)).markerDeleteEnd
        (c + 1)).markerBegin l = true ↔ (hideLines b a c).markerBegin l = true ∧ l ≠ a - 1 := by
      simp
    have h2 : ((((hideLines b a c).showLines a c).markerDeleteBegin (a - 1)).markerDeleteEnd
        (c + 1)).markerEnd l = true ↔ (hideLines b a c).markerEnd l = true ∧ l ≠ c + 1 := by
      simp
    exact ⟨(eq_false_iff_imp h1).2 (fun h => h.2 ((hB' l).1 h.1)),
      (eq_false_iff_imp h2).2 (fun h => h.2 ((hE' l).1 h.1))⟩

/-- C26, on an instance: in the plain eight-line document, hiding the lines 2 to 3
and then calling `showHiddenLines(1, false, true)` issues the call
`SCI_SHOWLINES(2, 3)` and leaves no hide marker. -/
theorem hideLines_then_show_witness :
    NoMarkers (plainBuffer 8) ∧ (3 : Int) ≤ ((plainBuffer 8).nbLines : Int) - 2 ∧
    (showHiddenLines (hideLines (plainBuffer 8) 2 3) (2 - 1) false true).calls
      = (hideLines (plainBuffer 8) 2 3).calls ++ [Call.showLines 2 3] ∧
    NoMarkers (showHiddenLines (hideLines (plainBuffer 8) 2 3) (2 - 1) false true) :=
  ⟨plainBuffer_noMarkers 8, by decide,
    (hideLines_then_show (plainBuffer 8) (plainBuffer_noMarkers 8) 2 3 (by decide) (by decide)
      (by decide)).2.2.2.2.1,
    (hideLines_then_show (plainBuffer 8) (plainBuffer_noMarkers 8) 2 3 (by decide) (by decide)
      (by decide)).2.2.2.2.2.2⟩

theorem hideMarkedScan_false_shape (n : Int) :
    ∀ (count : Nat) (i sh : Int) (ins : Bool) (b : Buffer),
      hideMarkedScan false n count i sh ins b = b ∨
      ∃ sh' e, i ≤ e ∧ b.markerEnd e = true ∧
        hideMarkedScan false n count i sh ins b = b.hideLinesCall sh' (e - 1) := by
  intro count
  induction count with
  | zero => intro i sh ins b; left; simp [hideMarkedScan]
  | succ m ih =>
    intro i sh ins b
    rw [hideMarkedScan]
    simp only [Bool.not_false, Bool.and_true]
    by_cases h : (b.markerEnd i && ins) = true
    · rw [if_pos h]
      right
      exact ⟨sh, i, le_refl _, by revert h; cases b.markerEnd i <;> simp, rfl⟩
    · rw [if_neg h]
      simp only [h, if_false]
      have hstep : ∀ sh2 ins2, hideMarkedScan false n m (i + 1) sh2 ins2 b = b ∨
          ∃ sh' e, i ≤ e ∧ b.markerEnd e = true ∧
            hideMarkedScan false n m (i + 1) sh2 ins2 b = b.hideLinesCall sh' (e - 1) := by
        intro sh2 ins2
        rcases ih (i + 1) sh2 ins2 b with h1 | ⟨sh', e, h1, h2, h3⟩
        · exact Or.inl h1
        · exact Or.inr ⟨sh', e, by omega, h2, h3⟩
      split
      · exact hstep _ _
      · exact hstep _ _

theorem hideMarkedScan_prefix (n : Int) :
    ∀ (k : Nat) (i sh : Int) (ins : Bool) (b : Buffer),
      ∃ (sh' : Int) (ins' : Bool) (b' : Buffer),
        (∀ count, hideMarkedScan true n (k + count) i sh ins b
          = hideMarkedScan true n count (i + k) sh' ins' b') ∧
        (∀ l, b'.markerBegin l = b.markerBegin l) ∧ (∀ l, b'.markerEnd l = b.markerEnd l) ∧
        (∃ extra, b'.calls = b.calls ++ extra) := by
  intro k
  induction k with
  | zero =>
    intro i sh ins b
    exact ⟨sh, ins, b, fun count => by simp, fun _ => rfl, fun _ => rfl, [], by simp⟩
  | succ m ih =>
    intro i sh ins b
    obtain ⟨sh', ins', b', h, hB, hE, extra, hc⟩ := ih (i + 1)
      (if b.markerBegin i = true then i + 1 else sh)
      (if b.markerBegin i = true then true else if b.markerEnd i = true then false else ins)
      (if (b.markerEnd i && ins) = true then b.hideLinesCall sh (i - 1) else b)
    refine ⟨sh', ins', b', ?_, ?_, ?_, ?_⟩
    · intro count
      have e1 : m + 1 + count = (m + count) + 1 := by omega
      have e2 : i + ((m + 1 : Nat) : Int) = i + 1 + (m : Int) := by push_cast; omega
      rw [e1, hideMarkedScan_step_true, h count, e2]
    · intro l; rw [hB l]; split <;> rfl
    · intro l; rw [hE l]; split <;> rfl
    · split at hc
      · exact ⟨Call.hideLines sh (i - 1) :: extra, by rw [hc]; simp [Buffer.hideLinesCall]⟩
      · exact ⟨extra, hc⟩

theorem hideMarkedScan_tail (n : Int) (b : Buffer) :
    ∀ (count : Nat) (j sh : Int),
      (∀ l, j ≤ l → b.markerBegin l = false ∧ b.markerEnd l = false) →
      hideMarkedScan true n count j sh true b = b.hideLinesCall sh (n - 1) := by
  intro count
  induction count with
  | zero => intro j sh _; simp [hideMarkedScan]
  | succ m ih =>
    intro j sh hno
    rw [hideMarkedScan_step_true, (hno j (le_refl _)).1, (hno j (le_refl _)).2]
    simp only [Bool.false_eq_true, if_false, Bool.false_and]
    exact ih (j + 1) sh (fun l hl => hno l (by omega))

/-- C29, as stated, fails: in the six-line document with BEGIN markers on the
lines 1 and 3 and no END marker, the BEGIN marker of line 1 has no END marker on
a later line, but `hideMarkedLines(0, true)` issues the one call
`SCI_HIDELINES(4, 5)`: the lines 2 and 3 stay visible. -/
theorem hideMarkedLines_unmatched_counterexample :
    twoBeginDoc.markerBegin 1 = true ∧ (∀ l, twoBeginDoc.markerEnd l = false) ∧
    (hideMarkedLines twoBeginDoc 0 true).calls = [Call.hideLines 4 5] ∧
    (hideMarkedLines twoBeginDoc 0 true).visible 2 = true ∧
    (hideMarkedLines twoBeginDoc 0 true).visible 3 = true := by
  refine ⟨by decide, ?_, by decide, by decide, by decide⟩
  intro l
  unfold twoBeginDoc
  rw [Buffer.markerEnd_markerAddBegin, Buffer.markerEnd_markerAddBegin]
  exact (plainBuffer_noMarkers 6 l).2

/-- C29, amended: when line `bl` carries a BEGIN marker and no later line carries an
END marker, then (1) if moreover no later line carries a BEGIN marker,
`hideMarkedLines(searchStart, true)` with `searchStart ≤ bl` ends with the call
`SCI_HIDELINES(bl + 1, lineCount - 1)`, after which every line from `bl + 1`
through the last line of the document is hidden; (2)
`hideMarkedLines(searchStart, false)` hides no line from `bl` on, and every hide
call it issues ends below `bl`. -/
theorem hideMarkedLines_unmatched (b : Buffer) (bl : Int) (hB : b.markerBegin bl = true)
    (hE : ∀ l, bl < l → b.markerEnd l = false) :
    (∀ searchStart, searchStart ≤ bl → (∀ l, bl < l → b.markerBegin l = false) →
      (∃ before, (hideMarkedLines b searchStart true).calls
        = b.calls ++ before ++ [Call.hideLines (bl + 1) ((b.nbLines : Int) - 1)]) ∧
      (∀ l, bl < l → l ≤ (b.nbLines : Int) - 1 →
        (hideMarkedLines b searchStart true).visible l = false)) ∧
    (∀ searchStart,
      (∀ l, bl ≤ l → (hideMarkedLines b searchStart false).visible l = b.visible l) ∧
      (∀ x y, Call.hideLines x y ∈ (hideMarkedLines b searchStart false).calls →
        Call.hideLines x y ∈ b.calls ∨ y < bl)) := by
  have hv := Buffer.markerBegin_valid hB
  constructor
  · intro searchStart hss hlast
    obtain ⟨sh', ins', b', hrun, hB', hE', extra, hcalls⟩ :=
      hideMarkedScan_prefix (b.nbLines : Int) (bl - searchStart).toNat searchStart searchStart
        false b
    have hcount : ((b.nbLines : Int) - searchStart).toNat
        = (bl - searchStart).toNat + (((b.nbLines : Int) - bl - 1).toNat + 1) := by omega
    have hbl : searchStart + ((bl - searchStart).toNat : Int) = bl := by omega
    have hfinal : hideMarkedLines b searchStart true
        = (if (b'.markerEnd bl && ins') = true then b'.hideLinesCall sh' (bl - 1)
            else b').hideLinesCall (bl + 1) ((b.nbLines : Int) - 1) := by
      unfold hideMarkedLines
      simp only
      rw [hcount, hrun, hbl, hideMarkedScan_step_true, hB' bl, hB]
      simp only [if_true]
      apply hideMarkedScan_tail
      intro l hl
      constructor
      · have : (if (b'.markerEnd bl && ins') = true then b'.hideLinesCall sh' (bl - 1)
            else b').markerBegin l = b'.markerBegin l := by split <;> rfl
        rw [this, hB' l]
        exact hlast l (by omega)
      · have : (if (b'.markerEnd bl && ins') = true then b'.hideLinesCall sh' (bl - 1)
            else b').markerEnd l = b'.markerEnd l := by split <;> rfl
        rw [this, hE' l]
        exact hE l (by omega)
    constructor
    · rw [hfinal]
      split
      · exact ⟨extra ++ [Call.hideLines sh' (bl - 1)], by simp [Buffer.hideLinesCall, hcalls]⟩
      · exact ⟨extra, by simp [Buffer.hideLinesCall, hcalls]⟩
    · intro l h1 h2
      rw [hfinal]
      simp only [Buffer.hideLinesCall]
      rw [if_pos ⟨by omega, h2⟩]
  · intro searchStart
    rcases hideMarkedScan_false_shape (b.nbLines : Int) ((b.nbLines : Int) - searchStart).toNat
      searchStart searchStart false b with h | ⟨sh', e, -, he, h⟩
    · have h' : hideMarkedLines b searchStart false = b := h
      rw [h']
      exact ⟨fun _ _ => rfl, fun x y hxy => Or.inl hxy⟩
    · have h' : hideMarkedLines b searchStart false = b.hideLinesCall sh' (e - 1) := h
      have hebl : e ≤ bl := by
        by_contra hc
        rw [hE e (by omega)] at he
        cases he
      rw [h']
      constructor
      · intro l hl
        simp only [Buffer.hideLinesCall]
        rw [if_neg (by omega)]
      · intro x y hxy
        simp only [Buffer.hideLinesCall, List.mem_append, List.mem_singleton] at hxy
        rcases hxy with hxy | hxy
        · exact Or.inl hxy
        · right
          cases hxy
          omega

/-- C29, on an instance of the amended statement: in the six-line document with
BEGIN markers on the lines 1 and 3 and no END marker, `hideMarkedLines(0, true)`
hides the lines 4 and 5, the lines after the last BEGIN marker, and
`hideMarkedLines(0, false)` leaves line 4 visible. -/
theorem hideMarkedLines_unmatched_witness :
    twoBeginDoc.markerBegin 3 = true ∧
    (hideMarkedLines twoBeginDoc 0 true).visible 4 = false ∧
    (hideMarkedLines twoBeginDoc 0 true).visible 5 = false ∧
    (hideMarkedLines twoBeginDoc 0 false).visible 4 = twoBeginDoc.visible 4 := by
  have hE : ∀ l : Int, 3 < l → twoBeginDoc.markerEnd l = false := by
    intro l _
    unfold twoBeginDoc
    rw [Buffer.markerEnd_markerAddBegin, Buffer.markerEnd_markerAddBegin]
    exact (plainBuffer_noMarkers 6 l).2
  have hB : ∀ l : Int, 3 < l → twoBeginDoc.markerBegin l = false := by
    intro l hl
    have h1 : l ≠ 1 := by omega
    have h3 : l ≠ 3 := by omega
    unfold twoBeginDoc
    rw [Buffer.markerBegin_markerAddBegin, Buffer.markerBegin_markerAddBegin,
      (plainBuffer_noMarkers 6 l).1]
    simp [h1, h3]
  have h := hideMarkedLines_unmatched twoBeginDoc 3 (by decide) hE
  exact ⟨by decide, (h.1 0 (by decide) hB).2 4 (by decide) (by decide),
    (h.1 0 (by decide) hB).2 5 (by decide) (by decide), (h.2 0).1 4 (by decide)⟩

theorem popCount_le (st : List Nat) (lv : Nat) : ∀ c, FoldLevelStack.popCount st lv c ≤ c := by
  intro c
  induction c with
  | zero => simp [FoldLevelStack.popCount]
  | succ n ih =>
    rw [FoldLevelStack.popCount]
    split
    · omega
    · exact le_refl _

theorem popCount_top (st : List Nat) (lv : Nat) :
    ∀ c, 0 < FoldLevelStack.popCount st lv c →
      st.getD (FoldLevelStack.popCount st lv c - 1) 0 < lv := by
  intro c
  induction c with
  | zero => simp [FoldLevelStack.popCount]
  | succ n ih =>
    rw [FoldLevelStack.popCount]
    split
    · exact ih
    · intro _
      simp only [Nat.add_sub_cancel]
      omega

theorem popCount_relabel (f : Nat → Nat) (hf : StrictMono f) (st st' : List Nat) (lv : Nat) :
    ∀ c, (∀ i, i < c → st'.getD i 0 = f (st.getD i 0)) →
      FoldLevelStack.popCount st' (f lv) c = FoldLevelStack.popCount st lv c := by
  intro c
  induction c with
  | zero => intro _; rfl
  | succ n ih =>
    intro h
    rw [FoldLevelStack.popCount, FoldLevelStack.popCount, h n (by omega),
      ih (fun i hi => h i (by omega))]
    simp only [hf.le_iff_le]

theorem push_increasing {s s1 : FoldLevelStack} (hs : s.Increasing) (lv : Nat)
    (h : s.push lv = some s1) :
    s1.Increasing ∧ 0 < s1.levelCount ∧ s1.levelCount ≤ s.levelCount + 1 ∧
    s1.levelStack.getD (s1.levelCount - 1) 0 = lv := by
  obtain ⟨h8, hlen, hinc⟩ := hs
  unfold FoldLevelStack.push at h
  simp only at h
  split at h
  · rename_i hc
    cases h
    have hle := popCount_le s.levelStack lv s.levelCount
    have htop := popCount_top s.levelStack lv s.levelCount
    refine ⟨⟨by simp only; omega, by simp [hlen], ?_⟩, by simp, by simp only; omega, ?_⟩
    · intro i j hij hj
      simp only at hj
      have hi : i ≠ FoldLevelStack.popCount s.levelStack lv s.levelCount := by omega
      rw [getD_set_ne _ _ _ _ _ (Ne.symm hi)]
      by_cases hjc : j = FoldLevelStack.popCount s.levelStack lv s.levelCount
      · subst hjc
        rw [getD_set_self _ _ _ _ (by omega)]
        have h1 := htop (by omega)
        by_cases hi' : i = FoldLevelStack.popCount s.levelStack lv s.levelCount - 1
        · rw [hi']; exact h1
        · exact lt_trans (hinc i _ (by omega) (by omega)) h1
      · rw [getD_set_ne _ _ _ _ _ (Ne.symm hjc)]
        exact hinc i j hij (by omega)
    · simp only [Nat.add_sub_cancel]
      exact getD_set_self _ _ _ _ (by omega)
  · cases h

theorem push_relabel (f : Nat → Nat) (hf : StrictMono f) {s t : FoldLevelStack}
    (hr : FoldLevelStack.Relabelled f s t) (lv : Nat) :
    (s.push lv = none ∧ t.push (f lv) = none) ∨
    ∃ s1 t1, s.push lv = some s1 ∧ t.push (f lv) = some t1 ∧
      FoldLevelStack.Relabelled f s1 t1 := by
  obtain ⟨hc, hls, hlt, hrel⟩ := hr
  have hpop := popCount_relabel f hf s.levelStack t.levelStack lv s.levelCount hrel
  have hle := popCount_le s.levelStack lv s.levelCount
  have hsp : s.push lv
      = if FoldLevelStack.popCount s.levelStack lv s.levelCount < 8 then
          some { levelCount := FoldLevelStack.popCount s.levelStack lv s.levelCount + 1
                 levelStack := s.levelStack.set
                   (FoldLevelStack.popCount s.levelStack lv s.levelCount) lv }
        else none := rfl
  have htp : t.push (f lv)
      = if FoldLevelStack.popCount s.levelStack lv s.levelCount < 8 then
          some { levelCount := FoldLevelStack.popCount s.levelStack lv s.levelCount + 1
                 levelStack := t.levelStack.set
                   (FoldLevelStack.popCount s.levelStack lv s.levelCount) (f lv) }
        else none := by
    unfold FoldLevelStack.push
    simp only [hc, hpop]
  by_cases h8 : FoldLevelStack.popCount s.levelStack lv s.levelCount < 8
  · right
    rw [if_pos h8] at hsp htp
    refine ⟨_, _, hsp, htp, rfl, by simp [hls], by simp [hlt], ?_⟩
    intro i hi
    simp only at hi ⊢
    by_cases hic : i = FoldLevelStack.popCount s.levelStack lv s.levelCount
    · subst hic
      rw [getD_set_self _ _ _ _ (by omega), getD_set_self _ _ _ _ (by omega)]
    · rw [getD_set_ne _ _ _ _ _ (Ne.symm hic), getD_set_ne _ _ _ _ _ (Ne.symm hic)]
      exact hrel i (by omega)
  · left
    rw [if_neg h8] at hsp htp
    exact ⟨hsp, htp⟩

theorem pushAll_relabel (f : Nat → Nat) (hf : StrictMono f) :
    ∀ (levels : List Nat) (s t : FoldLevelStack), FoldLevelStack.Relabelled f s t →
      (s.pushAll levels = none ∧ t.pushAll (levels.map f) = none) ∨
      ∃ s1 t1, s.pushAll levels = some s1 ∧ t.pushAll (levels.map f) = some t1 ∧
        FoldLevelStack.Relabelled f s1 t1 := by
  intro levels
  induction levels with
  | nil => intro s t hr; exact Or.inr ⟨s, t, rfl, rfl, hr⟩
  | cons lv rest ih =>
    intro s t hr
    rcases push_relabel f hf hr lv with ⟨h1, h2⟩ | ⟨s1, t1, h1, h2, hr1⟩
    · left
      simp [FoldLevelStack.pushAll, h1, h2]
    · simp only [FoldLevelStack.pushAll, List.map_cons, h1, h2]
      exact ih s1 t1 hr1

theorem pushAll_increasing :
    ∀ (levels : List Nat) (s s1 : FoldLevelStack), s.Increasing →
      s.pushAll levels = some s1 → s1.Increasing := by
  intro levels
  induction levels with
  | nil => intro s s1 hs h; cases h; exact hs
  | cons lv rest ih =>
    intro s s1 hs h
    rw [FoldLevelStack.pushAll] at h
    cases hp : s.push lv with
    | none => rw [hp] at h; cases h
    | some s2 =>
      rw [hp] at h
      exact ih s2 s1 (push_increasing hs lv hp).1 h

theorem empty_increasing : FoldLevelStack.empty.Increasing :=
  ⟨by decide, by decide, fun i j _ hj => absurd hj (by simp [FoldLevelStack.empty])⟩

theorem empty_relabelled (f : Nat → Nat) :
    FoldLevelStack.Relabelled f FoldLevelStack.empty FoldLevelStack.empty :=
  ⟨rfl, by decide, by decide, fun i hi => absurd hi (by simp [FoldLevelStack.empty])⟩

/-- C24: the depth `FoldLevelStack` reports depends only on the relative order of
the pushed levels: for every list of levels, every strictly increasing relabelling
`f` and every number `k` of pushes, pushing the first `k` levels and pushing their
relabellings onto a fresh stack either both store outside the array or both
succeed with the same `levelCount`; and after every successful push the stored
levels `levelStack[0 .. levelCount-1]` are strictly increasing from bottom to
top. -/
theorem push_depth_relabel (f : Nat → Nat) (hf : StrictMono f) (levels : List Nat) (k : Nat) :
    ((FoldLevelStack.empty.pushAll ((levels.map f).take k)).map (fun s => s.levelCount)
      = (FoldLevelStack.empty.pushAll (levels.take k)).map (fun s => s.levelCount)) ∧
    (∀ s, FoldLevelStack.empty.pushAll (levels.take k) = some s →
      s.levelCount ≤ 8 ∧
      ∀ i j, i < j → j < s.levelCount → s.levelStack.getD i 0 < s.levelStack.getD j 0) := by
  constructor
  · rw [← List.map_take]
    rcases pushAll_relabel f hf (levels.take k) _ _ (empty_relabelled f) with
      ⟨h1, h2⟩ | ⟨s1, t1, h1, h2, hr⟩
    · rw [h1, h2]
    · rw [h1, h2]
      simp [hr.1]
  · intro s hs
    have hinc := pushAll_increasing _ _ _ empty_increasing hs
    exact ⟨hinc.1, hinc.2.2⟩

/-- C24, on an instance: the levels 1, 2, 2, 1, 3 and their doubles give depth 2
after the five pushes. -/
theorem push_depth_relabel_witness :
    StrictMono (fun n : Nat => 2 * n) ∧
    (FoldLevelStack.empty.pushAll (([1, 2, 2, 1, 3].map (fun n : Nat => 2 * n)).take 5)).map
        (fun s => s.levelCount) = some 2 ∧
    (FoldLevelStack.empty.pushAll (([1, 2, 2, 1, 3] : List Nat).take 5)).map
        (fun s => s.levelCount) = some 2 := by
  have hf : StrictMono (fun n : Nat => 2 * n) := fun a b h => by simp only; omega
  have h := (push_depth_relabel (fun n : Nat => 2 * n) hf [1, 2, 2, 1, 3] 5).1
  refine ⟨hf, ?_, by decide⟩
  rw [h]
  decide

theorem OnlyRaised.refl (b : Buffer) : OnlyRaised b b :=
  ⟨rfl, rfl, rfl, rfl, rfl, rfl, fun _ h => h, fun _ h => h, [], by simp, by simp,
    fun _ h => Or.inl h, fun _ h => Or.inl h⟩

theorem OnlyRaised.trans {a b c : Buffer} (h1 : OnlyRaised a b) (h2 : OnlyRaised b c) :
    OnlyRaised a c := by
  obtain ⟨a1, a2, a3, a4, a5, a6, a7, a8, e1, a9, a10, a11, a12⟩ := h1
  obtain ⟨b1, b2, b3, b4, b5, b6, b7, b8, e2, b9, b10, b11, b12⟩ := h2
  refine ⟨b1.trans a1, b2.trans a2, b3.trans a3, b4.trans a4, b5.trans a5, b6.trans a6,
    fun l h => b7 l (a7 l h), fun l h => b8 l (a8 l h), e1 ++ e2, ?_, ?_, ?_, ?_⟩
  · rw [b9, a9, List.append_assoc]
  · intro x hx
    rcases List.mem_append.1 hx with h | h
    · exact a10 x h
    · exact b10 x h
  · intro l h
    rcases b11 l h with h' | h'
    · rcases a11 l h' with h'' | h''
      · exact Or.inl h''
      · exact Or.inr (List.mem_append.2 (Or.inl h''))
    · exact Or.inr (List.mem_append.2 (Or.inr h'))
  · intro l h
    rcases b12 l h with h' | h'
    · rcases a12 l h' with h'' | h''
      · exact Or.inl h''
      · exact Or.inr (List.mem_append.2 (Or.inl h''))
    · exact Or.inr (List.mem_append.2 (Or.inr h'))

theorem OnlyRaised.showLines (b : Buffer) (l : Int) : OnlyRaised b (b.showLines l l) := by
  refine ⟨rfl, rfl, rfl, rfl, rfl, rfl, fun _ h => h, ?_, [Call.showLines l l], rfl, ?_,
    fun _ h => Or.inl h, ?_⟩
  · intro k h
    simp only [Buffer.showLines]
    split
    · rfl
    · exact h
  · intro c hc
    left
    exact ⟨l, by simpa using hc⟩
  · intro k h
    simp only [Buffer.showLines] at h
    by_cases hk : l ≤ k ∧ k ≤ l
    · right
      have : k = l := by omega
      subst this
      simp
    · rw [if_neg hk] at h
      exact Or.inl h

theorem OnlyRaised.setFoldExpanded (b : Buffer) (l : Int) :
    OnlyRaised b (b.setFoldExpanded l true) := by
  refine ⟨rfl, rfl, rfl, rfl, rfl, rfl, ?_, fun _ h => h, [Call.setFoldExpanded l true], rfl,
    ?_, ?_, fun _ h => Or.inl h⟩
  · intro k h
    simp only [Buffer.setFoldExpanded]
    split
    · rfl
    · exact h
  · intro c hc
    right
    exact ⟨l, by simpa using hc⟩
  · intro k h
    simp only [Buffer.setFoldExpanded] at h
    by_cases hk : k = l
    · subst hk; right; simp
    · rw [if_neg hk] at h
      exact Or.inl h

theorem expandLoop_rel (Q : Buffer → Buffer → Prop) (hrefl : ∀ b, Q b b)
    (htrans : ∀ a b c, Q a b → Q b c → Q a c) (doExpand : Bool)
    (hshow : doExpand = true → ∀ b l, Q b (b.showLines l l))
    (hset : doExpand = true → ∀ b l, Q b (b.setFoldExpanded l true))
    (callee : Int → Buffer → Option (Int × Buffer))
    (hcallee : ∀ l b r, callee l b = some r → Q b r.2) (visLevels level lineMaxSubord : Int) :
    ∀ (fuel : Nat) (line : Int) (b : Buffer) (r : Int × Buffer),
      expandLoop callee doExpand false visLevels level lineMaxSubord fuel line b = some r →
      Q b r.2 := by
  intro fuel
  induction fuel with
  | zero => intro line b r h; simp [expandLoop] at h
  | succ n ih =>
    intro line b r h
    rw [expandLoop] at h
    by_cases hl : line ≤ lineMaxSubord
    · rw [if_pos hl] at h
      simp only at h
      have h1 : Q b (expandVisit doExpand false visLevels line b) := by
        unfold expandVisit
        simp only [Bool.false_eq_true, if_false]
        split
        · rename_i hd; exact hshow hd b line
        · exact hrefl b
      have h2 : ∀ b1, Q b1 (expandHeader doExpand false visLevels line b1) := by
        intro b1
        unfold expandHeader
        simp only [Bool.false_eq_true, if_false]
        split
        · rename_i hd
          split
          · exact hset hd b1 line
          · exact hrefl b1
        · exact hrefl b1
      by_cases hh : landMask (expandLevelLine level line
          (expandVisit doExpand false visLevels line b)) SC_FOLDLEVELHEADERFLAG ≠ 0
      · rw [if_pos hh] at h
        cases hc : callee line (expandHeader doExpand false visLevels line
            (expandVisit doExpand false visLevels line b)) with
        | none => rw [hc] at h; cases h
        | some rc =>
          rw [hc] at h
          exact htrans _ _ _ h1 (htrans _ _ _ (h2 _) (htrans _ _ _ (hcallee _ _ _ hc)
            (ih rc.1 rc.2 r h)))
      · rw [if_neg hh] at h
        exact htrans _ _ _ h1 (ih _ _ r h)
    · rw [if_neg hl] at h
      cases h
      exact hrefl b

theorem expand_rel (Q : Buffer → Buffer → Prop) (hrefl : ∀ b, Q b b)
    (htrans : ∀ a b c, Q a b → Q b c → Q a c) (doExpand : Bool)
    (hshow : doExpand = true → ∀ b l, Q b (b.showLines l l))
    (hset : doExpand = true → ∀ b l, Q b (b.setFoldExpanded l true)) :
    ∀ (fuel : Nat) (line visLevels level : Int) (b : Buffer) (r : Int × Buffer),
      expand fuel line doExpand false visLevels level b = some r → Q b r.2 := by
  intro fuel
  induction fuel with
  | zero => intro line visLevels level b r h; simp [expand] at h
  | succ n ih =>
    intro line visLevels level b r h
    rw [expand] at h
    exact expandLoop_rel Q hrefl htrans doExpand hshow hset _
      (fun l b1 r1 h1 => ih l (visLevels - 1) (-1) b1 r1 h1) _ _ _ _ _ _ _ h

theorem alternateScan_of_step (b : Buffer) (count : Nat) (i : Int) (o o1 : Option Int)
    (h : alternateStep b i o = some o1) :
    alternateScan b (count + 1) i o = alternateScan b count (i + 1) o1 := by
  rw [alternateScan, h]

theorem alternateScan_complete {b : Buffer} (hwp : WellPaired b)
    (hgap : ∀ s e, Region b s e → s + 2 ≤ e) :
    ∀ (count : Nat) (i : Int) (openLine : Option Int), (b.nbLines : Int) ≤ i + count →
      (∀ s, openLine = some s ↔ ∃ e, Region b s e ∧ s < i ∧ i ≤ e) →
      alternateScan b count i openLine = true := by
  intro count
  induction count with
  | zero =>
    intro i openLine hcount hinv
    cases openLine with
    | none => rfl
    | some s =>
      obtain ⟨e, hr, -, h⟩ := (hinv s).1 rfl
      have := Buffer.markerEnd_valid hr.2.1
      push_cast at hcount; omega
  | succ m ih =>
    intro i openLine hcount hinv
    have hcount' : (b.nbLines : Int) ≤ i + 1 + (m : Int) := by push_cast at hcount; omega
    -- the invariant after a BEGIN marker on line `i`
    have hopen : b.markerBegin i = true →
        ∀ s, some i = some s ↔ ∃ e, Region b s e ∧ s < i + 1 ∧ i + 1 ≤ e := by
      intro hb s
      constructor
      · intro h
        cases h
        obtain ⟨e, hr⟩ := hwp.1 i hb
        exact ⟨e, hr, by omega, by have := hr.2.2.1; omega⟩
      · rintro ⟨e, hr, h1, h2⟩
        by_cases hs : s = i
        · rw [hs]
        · exfalso
          have := (hr.2.2.2 i (by omega) (by omega)).1
          rw [hb] at this; cases this
    -- the invariant when no region is open after line `i`
    have hnone : b.markerBegin i = false →
        (∀ s e, Region b s e → s < i → i ≤ e → e = i) →
        ∀ s, (none : Option Int) = some s ↔ ∃ e, Region b s e ∧ s < i + 1 ∧ i + 1 ≤ e := by
      intro hb hclosed s
      constructor
      · intro h; cases h
      · rintro ⟨e, hr, h1, h2⟩
        exfalso
        by_cases hs : s = i
        · subst hs; rw [hr.1] at hb; cases hb
        · have := hclosed s e hr (by omega) (by omega)
          omega
    cases openLine with
    | none =>
      have hno : ∀ s e, Region b s e → s < i → i ≤ e → False := by
        intro s e hr h1 h2
        have := (hinv s).2 ⟨e, hr, h1, h2⟩
        cases this
      have he : b.markerEnd i = false := by
        cases he : b.markerEnd i
        · rfl
        · obtain ⟨s, hr⟩ := hwp.2 i he
          exact (hno s i hr hr.2.2.1 (le_refl _)).elim
      cases hb : b.markerBegin i
      · rw [alternateScan_of_step b m i none none (by simp [alternateStep, he, hb])]
        exact ih _ _ hcount' (hnone hb (fun s e hr h1 h2 => (hno s e hr h1 h2).elim))
      · rw [alternateScan_of_step b m i none (some i) (by simp [alternateStep, he, hb])]
        exact ih _ _ hcount' (hopen hb)
    | some s =>
      obtain ⟨e, hr, h1, h2⟩ := (hinv s).1 rfl
      cases he : b.markerEnd i
      · have hie : i < e := by
          rcases lt_or_eq_of_le h2 with h | h
          · exact h
          · exfalso; subst h; rw [hr.2.1] at he; cases he
        have hb : b.markerBegin i = false := (hr.2.2.2 i h1 hie).1
        rw [alternateScan_of_step b m i (some s) (some s) (by simp [alternateStep, he, hb])]
        refine ih _ _ hcount' ?_
        intro s'
        constructor
        · intro h; cases h; exact ⟨e, hr, by omega, by omega⟩
        · rintro ⟨e', hr', h3, h4⟩
          rw [(Region.same_of_open hr hr' (l := i) (by omega) hie (by omega) (by omega)).1]
      · have hei : e = i := by
          rcases lt_or_eq_of_le h2 with h | h
          · exfalso
            have := (hr.2.2.2 i h1 h).2
            rw [he] at this; cases this
          · exact h.symm
        subst hei
        have hg := hgap s e hr
        cases hb : b.markerBegin e
        · rw [alternateScan_of_step b m e (some s) none (by simp [alternateStep, he, hb, hg])]
          refine ih _ _ hcount' (hnone hb ?_)
          intro s' e' hr' h3 h4
          rcases lt_or_eq_of_le h4 with h | h
          · exfalso
            have := (hr'.2.2.2 e h3 h).2
            rw [he] at this; cases this
          · exact h.symm
        · rw [alternateScan_of_step b m e (some s) (some e)
            (by simp [alternateStep, he, hb, hg])]
          exact ih _ _ hcount' (hopen hb)

theorem alternateStep_some {b : Buffer} {i : Int} {o o1 : Option Int}
    (h : alternateStep b i o = some o1) :
    (b.markerEnd i = true → ∃ s, o = some s ∧ s + 2 ≤ i) ∧
    (b.markerBegin i = true → o1 = some i ∧ (b.markerEnd i = false → o = none)) ∧
    (b.markerBegin i = false → b.markerEnd i = true → o1 = none) ∧
    (b.markerBegin i = false → b.markerEnd i = false → o1 = o) := by
  unfold alternateStep at h
  cases he : b.markerEnd i <;> cases hb : b.markerBegin i <;> cases o with
  | none => simp_all
  | some s =>
    by_cases hg : s + 2 ≤ i
    · simp_all
    · simp_all

theorem alternateScan_sound (b : Buffer) :
    ∀ (count : Nat) (i : Int) (o : Option Int), (b.nbLines : Int) ≤ i + count →
      alternateScan b count i o = true →
      (∀ s, o = some s → ∃ e, i ≤ e ∧ s + 2 ≤ e ∧ b.markerEnd e = true ∧
        ∀ l, i ≤ l → l < e → b.markerBegin l = false ∧ b.markerEnd l = false) ∧
      (∀ s, i ≤ s → b.markerBegin s = true → ∃ e, s + 2 ≤ e ∧ b.markerEnd e = true ∧
        ∀ l, s < l → l < e → b.markerBegin l = false ∧ b.markerEnd l = false) ∧
      (∀ e, i ≤ e → b.markerEnd e = true →
        (∃ s, i ≤ s ∧ s + 2 ≤ e ∧ b.markerBegin s = true ∧
          ∀ l, s < l → l < e → b.markerBegin l = false ∧ b.markerEnd l = false) ∨
        (∃ s, o = some s ∧
          ∀ l, i ≤ l → l < e → b.markerBegin l = false ∧ b.markerEnd l = false)) := by
  intro count
  induction count with
  | zero =>
    intro i o hcount h
    cases o with
    | some s => exact absurd h (by simp [alternateScan])
    | none =>
      refine ⟨?_, ?_, ?_⟩
      · intro s hs; cases hs
      · intro s hs hb
        have := Buffer.markerBegin_valid hb
        push_cast at hcount; omega
      · intro e he hE
        have := Buffer.markerEnd_valid hE
        push_cast at hcount; omega
  | succ m ih =>
    intro i o hcount h
    have hcount' : (b.nbLines : Int) ≤ i + 1 + (m : Int) := by push_cast at hcount; omega
    rw [alternateScan] at h
    cases hstep : alternateStep b i o with
    | none => rw [hstep] at h; cases h
    | some o1 =>
      rw [hstep] at h
      simp only at h
      obtain ⟨hA, hB, hC⟩ := ih (i + 1) o1 hcount' h
      obtain ⟨s1, s2, s3, s4⟩ := alternateStep_some hstep
      refine ⟨?_, ?_, ?_⟩
      · intro s hs
        cases he : b.markerEnd i
        · have hb : b.markerBegin i = false := by
            cases hb : b.markerBegin i
            · rfl
            · have := (s2 hb).2 he
              rw [this] at hs; cases hs
          obtain ⟨e, h1, h2, h3, h4⟩ := hA s (by rw [s4 hb he]; exact hs)
          refine ⟨e, by omega, h2, h3, ?_⟩
          intro l hl1 hl2
          by_cases hli : l = i
          · rw [hli]; exact ⟨hb, he⟩
          · exact h4 l (by omega) hl2
        · obtain ⟨s', hs', hg⟩ := s1 he
          rw [hs] at hs'
          cases hs'
          exact ⟨i, le_refl _, hg, he, fun l h1 h2 => by omega⟩
      · intro s hs hb
        by_cases hsi : s = i
        · subst hsi
          obtain ⟨e, h1, h2, h3, h4⟩ := hA s (s2 hb).1
          exact ⟨e, h2, h3, fun l hl1 hl2 => h4 l (by omega) hl2⟩
        · exact hB s (by omega) hb
      · intro e he hE
        by_cases hei : e = i
        · subst hei
          obtain ⟨s', hs', -⟩ := s1 hE
          exact Or.inr ⟨s', hs', fun l h1 h2 => by omega⟩
        · rcases hC e (by omega) hE with ⟨s, h1, h2, h3, h4⟩ | ⟨s, hs, hno⟩
          · exact Or.inl ⟨s, by omega, h2, h3, h4⟩
          · cases hb : b.markerBegin i
            · cases hei2 : b.markerEnd i
              · right
                refine ⟨s, by rw [← s4 hb hei2]; exact hs, ?_⟩
                intro l hl1 hl2
                by_cases hli : l = i
                · rw [hli]; exact ⟨hb, hei2⟩
                · exact hno l (by omega) hl2
              · rw [s3 hb hei2] at hs
                cases hs
            · obtain ⟨e0, g1, g2, g3, g4⟩ := hA i (s2 hb).1
              have hee : e = e0 := by
                rcases lt_trichotomy e e0 with hlt | heq | hgt
                · have := (g4 e (by omega) hlt).2
                  rw [hE] at this; cases this
                · exact heq
                · have := (hno e0 g1 hgt).2
                  rw [g3] at this; cases this
              left
              exact ⟨i, le_refl _, by omega, hb, fun l hl1 hl2 => hno l (by omega) hl2⟩

theorem alternating_iff (b : Buffer) :
    Alternating b ↔ WellPaired b ∧ ∀ s e, Region b s e → s + 2 ≤ e := by
  constructor
  · intro h
    obtain ⟨-, hB, hC⟩ := alternateScan_sound b b.nbLines 0 none (by omega) h
    have hbeg : ∀ s, b.markerBegin s = true → ∃ e, Region b s e ∧ s + 2 ≤ e := by
      intro s hs
      obtain ⟨e, h1, h2, h3⟩ := hB s (Buffer.markerBegin_valid hs).1 hs
      exact ⟨e, ⟨hs, h2, by omega, h3⟩, h1⟩
    refine ⟨⟨?_, ?_⟩, ?_⟩
    · intro s hs
      obtain ⟨e, hr, -⟩ := hbeg s hs
      exact ⟨e, hr⟩
    · intro e he
      rcases hC e (Buffer.markerEnd_valid he).1 he with ⟨s, -, h2, h3, h4⟩ | ⟨s, hs, -⟩
      · exact ⟨s, h3, he, by omega, h4⟩
      · cases hs
    · intro s e hr
      obtain ⟨e', hr', hg⟩ := hbeg s hr.1
      rw [Region.end_unique hr hr']
      exact hg
  · rintro ⟨hwp, hgap⟩
    apply alternateScan_complete hwp hgap b.nbLines 0 none (by omega)
    intro s
    constructor
    · intro h; cases h
    · rintro ⟨e, hr, h1, -⟩
      have := Buffer.markerBegin_valid hr.1
      omega

theorem hideLinesFrom_gap {b : Buffer} (hwp : WellPaired b)
    (hgap : ∀ s e, Region b s e → s + 2 ≤ e) (a c : Int) (ha : 1 ≤ a) (hac : a ≤ c)
    (hc : c + 2 ≤ (b.nbLines : Int)) (hnd : ¬ DeepInside b a c) :
    ∀ s e, Region (hideLinesFrom b a c).buf s e → s + 2 ≤ e := by
  obtain ⟨S, T, -, -, -, hS1, hT1, -, hB, hE, -, hcase⟩ := hideLinesFrom_spec hwp a c ha hac hc
  obtain ⟨hS, hSm, hT, hTm⟩ := hcase hnd
  intro s e hr
  by_contra hlt
  have hse := hr.2.2.1
  have hes : e = s + 1 := by omega
  subst hes
  rcases (hB s).1 hr.1 with h1 | ⟨h1, h1'⟩ <;> rcases (hE (s + 1)).1 hr.2.1 with h2 | ⟨h2, h2'⟩
  · omega
  · subst h1
    have hmid : MidAt b (a - 1) := by
      by_contra hm
      have := hS hm
      exact h2' ⟨by omega, by omega⟩
    obtain ⟨e0, hr0, h3, h4⟩ := hSm hmid
    have := (hr0.2.2.2 (s + 1) (by omega) (by omega)).2
    rw [h2] at this; cases this
  · have hmid : MidAt b (c + 1) := by
      by_contra hm
      have := hT hm
      exact h1' ⟨by omega, by omega⟩
    obtain ⟨s0, hr0, h3, h4⟩ := hTm hmid
    have hs : c < s := by
      by_contra hcs
      exact h1' ⟨by omega, by omega⟩
    have := (hr0.2.2.2 s (by omega) (by omega)).1
    rw [h1] at this; cases this
  · obtain ⟨x, hx⟩ := hwp.1 s h1
    have hg := hgap s x hx
    have := (hx.2.2.2 (s + 1) (by omega) (by omega)).2
    rw [h2] at this; cases this

/-- C25: when the hide markers alternate BEGIN, END, BEGIN, END in a scan of the
lines upward (an END read before a BEGIN on the same line), every END at least two
lines after its BEGIN, and the start line or the end line of the selection (in
particular: neither of them) does not lie strictly between a BEGIN marker and its
END marker, the markers alternate in the same way after `hideLines()`. The
alternation is the same as: every BEGIN marker opens a region, every END marker
closes one, and the two markers of a region are at least two lines apart. -/
theorem hideLines_keeps_alternating (b : Buffer) (halt : Alternating b)
    (selStartLine selEndLine : Int) (h0 : 0 ≤ selStartLine)
    (hn : selEndLine < (b.nbLines : Int))
    (hmid : ¬ MidAt b selStartLine ∨ ¬ MidAt b selEndLine) :
    Alternating (hideLines b selStartLine selEndLine) ∧
    (∀ d : Buffer, Alternating d ↔ WellPaired d ∧ ∀ s e, Region d s e → s + 2 ≤ e) := by
  refine ⟨?_, alternating_iff⟩
  obtain ⟨hwp, hgap⟩ := (alternating_iff b).1 halt
  by_cases hn3 : (b.nbLines : Int) < 3
  · have : hideLines b selStartLine selEndLine = b := by simp [hideLines, hideLinesRun, hn3]
    rw [this]; exact halt
  by_cases hac : (if selStartLine = 0 then selStartLine + 1 else selStartLine)
      > (if selEndLine = (b.nbLines : Int) - 1 then selEndLine - 1 else selEndLine)
  · have : hideLines b selStartLine selEndLine = b := by
      simp [hideLines, hideLinesRun, hn3, hac]
    rw [this]; exact halt
  have hac' := not_lt.1 hac
  have hrun : hideLines b selStartLine selEndLine
      = (hideLinesFrom b (if selStartLine = 0 then selStartLine + 1 else selStartLine)
          (if selEndLine = (b.nbLines : Int) - 1 then selEndLine - 1 else selEndLine)).buf := by
    unfold hideLines
    rw [hideLinesRun_eq b _ _ (by omega) hac']
  have ha : 1 ≤ (if selStartLine = 0 then selStartLine + 1 else selStartLine) := by
    split <;> omega
  have hc : (if selEndLine = (b.nbLines : Int) - 1 then selEndLine - 1 else selEndLine) + 2
      ≤ (b.nbLines : Int) := by
    split <;> omega
  have hnd : ¬ DeepInside b (if selStartLine = 0 then selStartLine + 1 else selStartLine)
      (if selEndLine = (b.nbLines : Int) - 1 then selEndLine - 1 else selEndLine) := by
    rintro ⟨s, e, hr, h1, h2⟩
    have hs0 := (Buffer.markerBegin_valid hr.1).1
    have hen := (Buffer.markerEnd_valid hr.2.1).2
    rcases hmid with hm | hm
    · apply hm
      refine ⟨s, e, hr, ?_, ?_⟩
      · split at h1 <;> omega
      · split at h1 <;> omega
    · apply hm
      refine ⟨s, e, hr, ?_, ?_⟩
      · split at h2 <;> omega
      · split at h2 <;> omega
  rw [hrun, alternating_iff]
  exact ⟨hideLinesFrom_wellPaired hwp _ _ ha hac' hc hnd,
    hideLinesFrom_gap hwp hgap _ _ ha hac' hc hnd⟩

/-- C25, on an instance: the plain eight-line document has alternating markers
(none), and so has the document after `hideLines()` on the lines 2 to 3. -/
theorem hideLines_keeps_alternating_witness :
    Alternating (plainBuffer 8) ∧ ¬ MidAt (plainBuffer 8) 2 ∧
    Alternating (hideLines (plainBuffer 8) 2 3) :=
  ⟨by unfold Alternating; decide, (plainBuffer_noMarkers 8).not_midAt 2,
    (hideLines_keeps_alternating (plainBuffer 8) (by unfold Alternating; decide) 2 3
      (by decide) (by decide)
      (Or.inl ((plainBuffer_noMarkers 8).not_midAt 2))).1⟩

theorem foldIndentTrace_fst (level2Collapse : Int) (mode : Bool) (maxLine : Int) :
    ∀ (fuel : Nat) (line : Int) (levelStack : FoldLevelStack) (b : Buffer),
      (foldIndentTrace level2Collapse mode maxLine fuel line levelStack b).1
        = foldIndentScan level2Collapse mode maxLine fuel line levelStack b := by
  intro fuel
  induction fuel with
  | zero => intro line levelStack b; rfl
  | succ n ih =>
    intro line levelStack b
    rw [foldIndentTrace, foldIndentScan]
    by_cases hl : line < maxLine
    · simp only [hl, if_true]
      by_cases hh : isHeaderLevel (b.foldLevel line) = true
      · simp only [hh, if_true]
        cases hp : levelStack.push (b.foldLevel line &&& SC_FOLDLEVELNUMBERMASK) with
        | none => rfl
        | some s1 =>
          simp only
          split
          · exact ih _ _ _
          · exact ih _ _ _
      · simp only [hh, if_false]
        exact ih _ _ _
    · simp only [hl, if_false]

theorem fold_frame (b : Buffer) (line : Int) (mode : Bool) :
    (fold b line mode).foldLevel = b.foldLevel ∧ (fold b line mode).lastChild = b.lastChild := by
  unfold fold
  simp only
  constructor <;> (repeat' split) <;> rfl

theorem popCount_lt_of_le_top (st : List Nat) (lv c : Nat) (hc : 0 < c)
    (h : lv ≤ st.getD (c - 1) 0) : FoldLevelStack.popCount st lv c + 1 ≤ c := by
  obtain ⟨n, rfl⟩ : ∃ n, c = n + 1 := ⟨c - 1, by omega⟩
  rw [FoldLevelStack.popCount]
  simp only [Nat.add_sub_cancel] at h
  rw [if_pos h]
  have := popCount_le st lv n
  omega

theorem push_some_of_lt (s : FoldLevelStack) (lv : Nat)
    (h : FoldLevelStack.popCount s.levelStack lv s.levelCount < 8) :
    ∃ s1, s.push lv = some s1 ∧
      s1.levelCount = FoldLevelStack.popCount s.levelStack lv s.levelCount + 1 := by
  unfold FoldLevelStack.push
  simp only [h, if_true]
  exact ⟨_, rfl, rfl⟩

theorem foldIndentTrace_safe (b0 : Buffer) (lc : Int) (mode : Bool) (h1 : 1 ≤ lc) (h8 : lc ≤ 8)
    (hlast : ∀ h : Int, 0 ≤ h → h < (b0.nbLines : Int) →
      isHeaderLevel (b0.foldLevel h) = true →
      h ≤ b0.lastChild h (-1) ∧
      ∀ j, b0.lastChild h (-1) < j → j < (b0.nbLines : Int) →
        isHeaderLevel (b0.foldLevel j) = true →
        (∀ k, b0.lastChild h (-1) < k → k < j → isHeaderLevel (b0.foldLevel k) = false) →
        b0.foldLevel j &&& SC_FOLDLEVELNUMBERMASK ≤ b0.foldLevel h &&& SC_FOLDLEVELNUMBERMASK) :
    ∀ (fuel : Nat) (line : Int) (st : FoldLevelStack) (b : Buffer),
      b.foldLevel = b0.foldLevel → b.lastChild = b0.lastChild → 0 ≤ line →
      st.Increasing → (st.levelCount : Int) ≤ lc →
      ((st.levelCount : Int) = lc → ∀ j, line ≤ j → j < (b0.nbLines : Int) →
        isHeaderLevel (b0.foldLevel j) = true →
        (∀ k, line ≤ k → k < j → isHeaderLevel (b0.foldLevel k) = false) →
        b0.foldLevel j &&& SC_FOLDLEVELNUMBERMASK ≤ st.levelStack.getD (st.levelCount - 1) 0) →
      (b0.nbLines : Int) ≤ line + fuel →
      (∃ r, (foldIndentTrace lc mode b0.nbLines fuel line st b).1 = Except.ok r) ∧
      ∀ d, d ∈ (foldIndentTrace lc mode b0.nbLines fuel line st b).2 → (d : Int) ≤ lc := by
  intro fuel
  induction fuel with
  | zero =>
    intro line st b _ _ _ _ _ _ hfuel
    have hl : ¬ line < (b0.nbLines : Int) := by push_cast at hfuel; omega
    simp [foldIndentTrace, hl]
  | succ n ih =>
    intro line st b hfl hlc hline hinc hcount hnext hfuel
    rw [foldIndentTrace]
    by_cases hl : line < (b0.nbLines : Int)
    · simp only [hl, if_true]
      by_cases hh : isHeaderLevel (b.foldLevel line) = true
      · simp only [hh, if_true]
        have hh0 : isHeaderLevel (b0.foldLevel line) = true := by rw [← hfl]; exact hh
        have hpop := popCount_le st.levelStack (b.foldLevel line &&& SC_FOLDLEVELNUMBERMASK)
          st.levelCount
        have hp1 : ((FoldLevelStack.popCount st.levelStack
            (b.foldLevel line &&& SC_FOLDLEVELNUMBERMASK) st.levelCount + 1 : Nat) : Int)
            ≤ lc := by
          by_cases hfull : (st.levelCount : Int) = lc
          · have htop := hnext hfull line (le_refl _) hl hh0 (fun k hk1 hk2 => by omega)
            rw [← hfl] at htop
            have := popCount_lt_of_le_top st.levelStack _ st.levelCount (by omega) htop
            omega
          · push_cast; omega
        obtain ⟨s1, hs1, hc1⟩ := push_some_of_lt st
          (b.foldLevel line &&& SC_FOLDLEVELNUMBERMASK) (by omega)
        obtain ⟨hinc1, -, -, htop1⟩ := push_increasing hinc _ hs1
        rw [hs1]
        simp only
        obtain ⟨hge, hafter⟩ := hlast line hline hl hh0
        by_cases heq : lc = (s1.levelCount : Int)
        · rw [if_pos heq]
          simp only
          have hb1 : (if (isFolded b line != mode) = true then fold b line mode else b).foldLevel
              = b0.foldLevel := by
            split
            · rw [(fold_frame b line mode).1, hfl]
            · exact hfl
          have hb2 : (if (isFolded b line != mode) = true then fold b line mode else b).lastChild
              = b0.lastChild := by
            split
            · rw [(fold_frame b line mode).2, hlc]
            · exact hlc
          rw [hb2]
          obtain ⟨hok, hds⟩ := ih (b0.lastChild line (-1) + 1) s1 _ hb1 hb2 (by omega) hinc1
            (by omega)
            (by
              intro _ j hj1 hj2 hj3 hj4
              rw [htop1, hfl]
              exact hafter j (by omega) hj2 hj3 (fun k hk1 hk2 => hj4 k (by omega) hk2))
            (by push_cast at hfuel; omega)
          refine ⟨hok, ?_⟩
          intro d hd
          rcases List.mem_cons.1 hd with h | h
          · rw [h]; omega
          · exact hds d h
        · rw [if_neg heq]
          simp only
          have hlt : (s1.levelCount : Int) ≤ lc := by rw [hc1]; exact hp1
          obtain ⟨hok, hds⟩ := ih (line + 1) s1 b hfl hlc (by omega) hinc1 hlt
            (fun hfull => absurd hfull.symm heq) (by push_cast at hfuel; omega)
          refine ⟨hok, ?_⟩
          intro d hd
          rcases List.mem_cons.1 hd with h | h
          · rw [h]; exact hlt
          · exact hds d h
      · simp only [hh, if_false]
        have hh0 : isHeaderLevel (b0.foldLevel line) = false := by
          rw [← hfl]; exact Bool.eq_false_iff.2 hh
        exact ih (line + 1) st b hfl hlc (by omega) hinc hcount
          (by
            intro hfull j hj1 hj2 hj3 hj4
            refine hnext hfull j (by omega) hj2 hj3 ?_
            intro k hk1 hk2
            by_cases hk : k = line
            · rw [hk]; exact hh0
            · exact hj4 k (by omega) hk2)
          (by push_cast at hfuel; omega)
    · simp only [hl, if_false]
      exact ⟨⟨b, rfl⟩, fun d hd => by simp at hd⟩

/-- C28, as stated, fails: in the ten-line document whose lines 0 to 7 are headers
with the level numbers 1 to 8, line 8 a plain line of level number 8 and line 9 a
header of level number 9, the last-child query returns for every header a line
after which the next line (if there is one) has a level not greater than the
header's; yet `foldIndentationBasedLevel(7, mode)` reaches depth 8 on line 7,
skips to line 8, and the `push` for line 9 finds 9 above the top level 8: it
stores into `levelStack[8]`, outside the array, and the depth becomes 9. -/
theorem foldIndentationBasedLevel_overrun_counterexample :
    (∀ h : Nat, h < deepDoc.nbLines → isHeaderLevel (deepDoc.foldLevel h) = true →
      deepDoc.lastChild h (-1) + 1 < (deepDoc.nbLines : Int) →
      deepDoc.foldLevel (deepDoc.lastChild h (-1) + 1) &&& SC_FOLDLEVELNUMBERMASK
        ≤ deepDoc.foldLevel h &&& SC_FOLDLEVELNUMBERMASK) ∧
    foldIndentationBasedLevel deepDoc 7 fold_collapse = Except.error FoldFault.arrayOverrun ∧
    foldIndentationBasedDepths deepDoc 7 fold_collapse = [1, 2, 3, 4, 5, 6, 7, 8, 9] :=
  ⟨by decide, rfl, by decide⟩

/-- C28, amended: for `0 ≤ level2Collapse ≤ 7` and a document whose last-child
query returns, for every header line `h`, a line at or after `h` such that the
first header line after it (if there is one) has a level number not greater than
that of `h`, `foldIndentationBasedLevel(level2Collapse, mode)` returns, every
`push` stores inside the eight-entry array, and the depth of the `FoldLevelStack`
after each `push` is at most `level2Collapse + 1`. -/
theorem foldIndentationBasedLevel_safe (b : Buffer) (level2Collapse : Int) (mode : Bool)
    (h0 : 0 ≤ level2Collapse) (h7 : level2Collapse ≤ 7)
    (hlast : ∀ h : Int, 0 ≤ h → h < (b.nbLines : Int) →
      isHeaderLevel (b.foldLevel h) = true →
      h ≤ b.lastChild h (-1) ∧
      ∀ j, b.lastChild h (-1) < j → j < (b.nbLines : Int) →
        isHeaderLevel (b.foldLevel j) = true →
        (∀ k, b.lastChild h (-1) < k → k < j → isHeaderLevel (b.foldLevel k) = false) →
        b.foldLevel j &&& SC_FOLDLEVELNUMBERMASK ≤ b.foldLevel h &&& SC_FOLDLEVELNUMBERMASK) :
    (∃ r, foldIndentationBasedLevel b level2Collapse mode = Except.ok r) ∧
    (∀ d, d ∈ foldIndentationBasedDepths b level2Collapse mode →
      (d : Int) ≤ level2Collapse + 1 ∧ d ≤ 8) ∧
    foldIndentationBasedLevel b level2Collapse mode
      = (foldIndentTrace (level2Collapse + 1) mode b.nbLines b.nbLines 0
          FoldLevelStack.empty b).1 := by
  obtain ⟨hok, hds⟩ := foldIndentTrace_safe b (level2Collapse + 1) mode (by omega) (by omega)
    hlast b.nbLines 0 FoldLevelStack.empty b rfl rfl (le_refl _) empty_increasing
    (by simp [FoldLevelStack.empty]; omega)
    (by
      intro h
      simp [FoldLevelStack.empty] at h
      omega)
    (by omega)
  have hfst := foldIndentTrace_fst (level2Collapse + 1) mode b.nbLines b.nbLines 0
    FoldLevelStack.empty b
  refine ⟨?_, ?_, hfst.symm⟩
  · obtain ⟨r, hr⟩ := hok
    exact ⟨r, by unfold foldIndentationBasedLevel; rw [← hfst]; exact hr⟩
  · intro d hd
    have := hds d hd
    exact ⟨this, by omega⟩

/-- C28, on an instance of the amended statement: on the five-line example
document `foldIndentationBasedLevel(1, collapse)` returns and its depths are 1, 2
and 2. -/
theorem foldIndentationBasedLevel_safe_witness :
    (∃ r, foldIndentationBasedLevel exampleDoc 1 fold_collapse = Except.ok r) ∧
    foldIndentationBasedDepths exampleDoc 1 fold_collapse = [1, 2, 2] := by
  have h := foldIndentationBasedLevel_safe exampleDoc 1 fold_collapse (by decide) (by decide)
    (by
      intro h h0 hn hh
      have hcases : h = 0 ∨ h = 1 ∨ h = 2 ∨ h = 3 ∨ h = 4 := by
        have : (exampleDoc.nbLines : Int) = 5 := rfl
        omega
      rcases hcases with rfl | rfl | rfl | rfl | rfl
      · refine ⟨by decide, ?_⟩
        intro j hj1 hj2 hj3 _
        have : (exampleDoc.nbLines : Int) = 5 := rfl
        have hj : j = 4 := by
          have : exampleDoc.lastChild 0 (-1) = 3 := rfl
          omega
        subst hj
        exact absurd hj3 (by decide)
      · refine ⟨by decide, ?_⟩
        intro j hj1 hj2 hj3 _
        have : (exampleDoc.nbLines : Int) = 5 := rfl
        have hj : j = 3 ∨ j = 4 := by
          have : exampleDoc.lastChild 1 (-1) = 2 := rfl
          omega
        rcases hj with rfl | rfl
        · decide
        · exact absurd hj3 (by decide)
      · exact absurd hh (by decide)
      · refine ⟨by decide, ?_⟩
        intro j hj1 hj2 hj3 _
        have : (exampleDoc.nbLines : Int) = 5 := rfl
        have hj : j = 4 := by
          have : exampleDoc.lastChild 3 (-1) = 3 := rfl
          omega
        subst hj
        exact absurd hj3 (by decide)
      · exact absurd hh (by decide))
  exact ⟨h.1, by decide⟩

/-- C17, as stated, fails: with the range `[3, 4]` and a caret on offset 1 on one
line whose indentation is rewritten without moving its indent position (offset 1
before and after), the single-selection adjustment of the second range `[1, 1]`
for that indent change is `[1, 1]`, and the single-selection path gives it for a
view with this one selection; but the multi-selection call ends with the second
range on `[0, 0]`: its iteration reads the range after the widget has moved the
caret during the first iteration. -/
theorem setLineIndent_multi_rule_counterexample :
    twoSelectionView.selections.getD 1 (0, 0) = (1, 1) ∧
    twoSelectionView.lineIndentPosition (twoSelectionView.lineFromPosition 1) = 1 ∧
    (retab 0 4 twoSelectionView).lineIndentPosition (twoSelectionView.lineFromPosition 1) = 1 ∧
    (adjustOffset 1 1 1, adjustOffset 1 1 1) = (1, 1) ∧
    (setLineIndent retab 0 4 { twoSelectionView with selections := [(1, 1)] }).selections
      = [(1, 1)] ∧
    (setLineIndent retab 0 4 twoSelectionView).selections.getD 1 (0, 0) = (0, 0) :=
  ⟨rfl, rfl, rfl, by decide, by decide, by decide⟩

theorem asSize_of_bounds (x : Int) (h0 : 0 ≤ x) (h1 : x < 18446744073709551616) :
    asSize x = x :=
  Int.emod_eq_of_lt h0 h1

theorem raisedCalls_congr (b b1 : Buffer) (hf : b1.foldLevel = b.foldLevel) :
    ∀ (count : Nat) (l : Int), (∀ k, l ≤ k → b1.expanded k = b.expanded k) →
      raisedCalls b1 count l = raisedCalls b count l := by
  intro count
  induction count with
  | zero => intro l _; rfl
  | succ n ih =>
    intro l h
    simp only [raisedCalls]
    rw [hf, h l (le_refl _), ih (l + 1) (fun k hk => h k (by omega))]

theorem raisedCalls_add (b : Buffer) (m : Nat) :
    ∀ (n : Nat) (l : Int),
      raisedCalls b (n + m) l = raisedCalls b n l ++ raisedCalls b m (l + n) := by
  intro n
  induction n with
  | zero => intro l; simp [raisedCalls]
  | succ k ih =>
    intro l
    have h1 : k + 1 + m = (k + m) + 1 := by omega
    rw [h1]
    simp only [raisedCalls]
    rw [ih (l + 1)]
    have h2 : l + 1 + (k : Int) = l + ((k + 1 : Nat) : Int) := by push_cast; ring
    rw [h2]
    simp [List.append_assoc]

theorem raisedOn_of_default {level : Int} {b b1 : Buffer} {lo hi : Int}
    (h : RaisedOn (-1) b b1 lo hi) : RaisedOn level b b1 lo hi := by
  obtain ⟨h0, h1, h2, h3, h4, h5, h6, h7, h8, h9⟩ := h
  exact ⟨h0, h1, h2, h3, h4, h5, h6, h7, h8, fun _ => h9 rfl⟩

theorem raisedOn_trans {level : Int} {a b c : Buffer} {lo mid hi : Int}
    (h1 : RaisedOn level a b lo mid) (h2 : RaisedOn level b c mid hi) :
    RaisedOn level a c lo hi := by
  obtain ⟨a0, a1, a2, a3, a4, a5, a6, a7, a8, a9⟩ := h1
  obtain ⟨b0, b1, b2, b3, b4, b5, b6, b7, b8, b9⟩ := h2
  refine ⟨by omega, b1.trans a1, b2.trans a2, b3.trans a3, b4.trans a4, b5.trans a5,
    b6.trans a6, ?_, ?_, ?_⟩
  · intro l
    rw [b7 l, a7 l]
    constructor
    · rintro ((h | h) | h)
      · exact Or.inl h
      · exact Or.inr ⟨h.1, by omega⟩
      · exact Or.inr ⟨by omega, h.2⟩
    · rintro (h | h)
      · exact Or.inl (Or.inl h)
      · by_cases hm : l < mid
        · exact Or.inl (Or.inr ⟨h.1, hm⟩)
        · exact Or.inr ⟨by omega, h.2⟩
  · intro l hl
    rw [b8 l (by omega), a8 l (by omega)]
  · intro hlev
    obtain ⟨a9e, a9c⟩ := a9 hlev
    obtain ⟨b9e, b9c⟩ := b9 hlev
    constructor
    · intro l
      rw [b9e l, a9e l, a4]
      constructor
      · rintro ((h | h) | h)
        · exact Or.inl h
        · exact Or.inr ⟨h.1, by omega, h.2.2⟩
        · exact Or.inr ⟨by omega, h.2.1, h.2.2⟩
      · rintro (h | h)
        · exact Or.inl (Or.inl h)
        · by_cases hm : l < mid
          · exact Or.inl (Or.inr ⟨h.1, hm, h.2.2⟩)
          · exact Or.inr ⟨by omega, h.2.1, h.2.2⟩
    · rw [b9c, a9c, raisedCalls_congr a b a4 _ mid (fun k hk => a8 k (by omega)),
        List.append_assoc]
      have hn : (hi - lo).toNat = (mid - lo).toNat + (hi - mid).toNat := by omega
      have hmid : mid = lo + (((mid - lo).toNat : Nat) : Int) := by omega
      rw [hn, raisedCalls_add, ← hmid]

theorem raisedOn_visit_plain (level cur : Int) (b : Buffer)
    (hh : ¬ landMask (expandLevelLine level cur (b.showLines cur cur))
      SC_FOLDLEVELHEADERFLAG ≠ 0) :
    RaisedOn level b (b.showLines cur cur) cur (cur + 1) := by
  have hone : (cur + 1 - cur).toNat = 1 := by omega
  refine ⟨by omega, rfl, rfl, rfl, rfl, rfl, rfl, ?_, ?_, ?_⟩
  · intro l
    simp only [Buffer.showLines]
    by_cases h : cur ≤ l ∧ l ≤ cur
    · rw [if_pos h]
      exact ⟨fun _ => Or.inr ⟨h.1, by omega⟩, fun _ => rfl⟩
    · rw [if_neg h]
      exact ⟨fun h1 => Or.inl h1, fun h1 => h1.elim id (fun h2 => absurd ⟨h2.1, by omega⟩ h)⟩
  · intro l _
    rfl
  · intro hlev
    subst hlev
    have hnh : ¬ landMask (b.foldLevel cur) SC_FOLDLEVELHEADERFLAG ≠ 0 := by
      simpa [expandLevelLine, Buffer.showLines] using hh
    constructor
    · intro l
      constructor
      · intro h
        exact Or.inl h
      · rintro (h | h)
        · exact h
        · have : l = cur := by omega
          subst this
          exact absurd h.2.2 hnh
    · rw [hone]
      simp only [raisedCalls, Buffer.showLines]
      rw [if_neg (fun h => hnh h.1)]
      rfl

theorem raisedOn_visit_header (level visLevels cur : Int) (b : Buffer)
    (hh : landMask (expandLevelLine level cur (b.showLines cur cur))
      SC_FOLDLEVELHEADERFLAG ≠ 0) :
    RaisedOn level b (expandHeader true false visLevels cur (b.showLines cur cur)) cur
      (cur + 1) := by
  have hone : (cur + 1 - cur).toNat = 1 := by omega
  have hvis : ∀ l, (b.showLines cur cur).visible l = true ↔
      (b.visible l = true ∨ (cur ≤ l ∧ l < cur + 1)) := by
    intro l
    simp only [Buffer.showLines]
    by_cases h : cur ≤ l ∧ l ≤ cur
    · rw [if_pos h]
      exact ⟨fun _ => Or.inr ⟨h.1, by omega⟩, fun _ => rfl⟩
    · rw [if_neg h]
      exact ⟨fun h1 => Or.inl h1, fun h1 => h1.elim id (fun h2 => absurd ⟨h2.1, by omega⟩ h)⟩
  by_cases he : b.expanded cur = true
  · have hb : expandHeader true false visLevels cur (b.showLines cur cur)
        = b.showLines cur cur := by
      simp [expandHeader, isFolded, Buffer.showLines, he]
    rw [hb]
    refine ⟨by omega, rfl, rfl, rfl, rfl, rfl, rfl, hvis, fun _ _ => rfl, ?_⟩
    intro hlev
    subst hlev
    constructor
    · intro l
      constructor
      · intro h
        exact Or.inl h
      · rintro (h | h)
        · exact h
        · have : l = cur := by omega
          subst this
          exact he
    · rw [hone]
      simp only [raisedCalls, Buffer.showLines]
      rw [if_neg (fun h => by rw [he] at h; exact absurd h.2 (by decide))]
      rfl
  · have he1 : b.expanded cur = false := by
      cases h : b.expanded cur
      · rfl
      · exact absurd h he
    have hb : expandHeader true false visLevels cur (b.showLines cur cur)
        = (b.showLines cur cur).setFoldExpanded cur true := by
      simp [expandHeader, isFolded, Buffer.showLines, he1]
    rw [hb]
    refine ⟨by omega, rfl, rfl, rfl, rfl, rfl, rfl, hvis, ?_, ?_⟩
    · intro l hl
      have hne : l ≠ cur := by
        intro h
        exact hl ⟨by omega, by omega⟩
      simp [Buffer.setFoldExpanded, Buffer.showLines, hne]
    · intro hlev
      subst hlev
      have hhd : landMask (b.foldLevel cur) SC_FOLDLEVELHEADERFLAG ≠ 0 := by
        simpa [expandLevelLine, Buffer.showLines] using hh
      constructor
      · intro l
        by_cases hlc : l = cur
        · subst hlc
          simp only [Buffer.setFoldExpanded, Buffer.showLines, if_true]
          exact ⟨fun _ => Or.inr ⟨le_refl _, by omega, hhd⟩, fun _ => trivial⟩
        · simp only [Buffer.setFoldExpanded, Buffer.showLines, if_neg hlc]
          constructor
          · intro h
            exact Or.inl h
          · rintro (h | h)
            · exact h
            · exact absurd (by omega) hlc
      · rw [hone]
        simp only [raisedCalls, Buffer.showLines, Buffer.setFoldExpanded]
        rw [if_pos ⟨hhd, he1⟩]
        simp

theorem raisedOn_refl (level : Int) (b : Buffer) (lo : Int) : RaisedOn level b b lo lo := by
  refine ⟨le_refl _, rfl, rfl, rfl, rfl, rfl, rfl, ?_, fun _ _ => rfl, ?_⟩
  · intro l
    exact ⟨fun h => Or.inl h, fun h => h.elim id (fun h2 => absurd h2.2 (by omega))⟩
  · intro _
    constructor
    · intro l
      exact ⟨fun h => Or.inl h, fun h => h.elim id (fun h2 => absurd h2.2.1 (by omega))⟩
    · have h0 : (lo - lo).toNat = 0 := by omega
      rw [h0]
      simp [raisedCalls]

theorem expandVisit_lastChild (doExpand force : Bool) (visLevels line : Int) (b : Buffer) :
    (expandVisit doExpand force visLevels line b).lastChild = b.lastChild := by
  unfold expandVisit
  split
  · split <;> rfl
  · split <;> rfl

theorem expandHeader_lastChild (doExpand force : Bool) (visLevels line : Int) (b : Buffer) :
    (expandHeader doExpand force visLevels line b).lastChild = b.lastChild := by
  unfold expandHeader
  split
  · split <;> rfl
  · split
    · split <;> rfl
    · rfl

theorem expandLoop_returns (M : Int) (hM : M + 1 < 18446744073709551616)
    (callee : Int → Buffer → Option (Int × Buffer))
    (doExpand force : Bool) (visLevels level lineMaxSubord : Int) (hlms : lineMaxSubord ≤ M)
    (line0 : Int) (h00 : 0 ≤ line0)
    (hcallee : ∀ l b, line0 ≤ l → l ≤ M →
      (∀ k lv, 0 ≤ b.lastChild k lv ∧ b.lastChild k lv ≤ M) →
      ∃ r, callee l b = some r ∧ l < r.1 ∧ r.1 ≤ M + 1 ∧ r.2.lastChild = b.lastChild) :
    ∀ (fuel : Nat) (line : Int) (b : Buffer), line0 ≤ line → line ≤ M + 1 →
      (∀ k lv, 0 ≤ b.lastChild k lv ∧ b.lastChild k lv ≤ M) →
      2 * (M + 1 - line).toNat + 1 ≤ fuel →
      ∃ r, expandLoop callee doExpand force visLevels level lineMaxSubord fuel line b = some r ∧
        line ≤ r.1 ∧ lineMaxSubord < r.1 ∧ r.1 ≤ M + 1 ∧ r.2.lastChild = b.lastChild := by
  intro fuel
  induction fuel with
  | zero => intro line b _ _ _ h; omega
  | succ n ih =>
    intro line b h0 hle hb hfuel
    rw [expandLoop]
    by_cases hl : line ≤ lineMaxSubord
    · rw [if_pos hl]
      simp only
      have hb1 := expandVisit_lastChild doExpand force visLevels line b
      by_cases hh : landMask (expandLevelLine level line
          (expandVisit doExpand force visLevels line b)) SC_FOLDLEVELHEADERFLAG ≠ 0
      · rw [if_pos hh]
        have hb2 := expandHeader_lastChild doExpand force visLevels line
          (expandVisit doExpand force visLevels line b)
        obtain ⟨rc, hrc, hlt, hrle, hlc⟩ := hcallee line _ h0 (by omega)
          (by rw [hb2, hb1]; exact hb)
        rw [hrc]
        simp only
        obtain ⟨r, hr, hle1, hgt, hle2, hlast⟩ := ih rc.1 rc.2 (by omega) hrle
          (by rw [hlc, hb2, hb1]; exact hb) (by omega)
        exact ⟨r, hr, by omega, hgt, hle2, by rw [hlast, hlc, hb2, hb1]⟩
      · rw [if_neg hh, asSize_of_bounds (line + 1) (by omega) (by omega)]
        obtain ⟨r, hr, hle1, hgt, hle2, hlast⟩ := ih (line + 1) _ (by omega) (by omega)
          (by rw [hb1]; exact hb) (by omega)
        exact ⟨r, hr, by omega, hgt, hle2, by rw [hlast, hb1]⟩
    · rw [if_neg hl]
      exact ⟨_, rfl, le_refl _, by simpa using hl, hle, rfl⟩

theorem expand_returns (M : Int) (hM : M + 1 < 18446744073709551616) :
    ∀ (fuel : Nat) (line : Int) (doExpand force : Bool) (visLevels level : Int) (b : Buffer),
      0 ≤ line → line ≤ M → (∀ k lv, 0 ≤ b.lastChild k lv ∧ b.lastChild k lv ≤ M) →
      2 * (M - line).toNat + 2 ≤ fuel →
      ∃ r, expand fuel line doExpand force visLevels level b = some r ∧ line < r.1 ∧
        b.lastChild line (landMask level SC_FOLDLEVELNUMBERMASK) < r.1 ∧
        r.1 ≤ M + 1 ∧ r.2.lastChild = b.lastChild := by
  intro fuel
  induction fuel with
  | zero => intro line _ _ _ _ b _ _ _ h; omega
  | succ n ih =>
    intro line doExpand force visLevels level b h0 hle hb hfuel
    have h1 := asSize_of_bounds (line + 1) (by omega) (by omega)
    have h2 := asSize_of_bounds (b.lastChild line (landMask level SC_FOLDLEVELNUMBERMASK))
      (hb _ _).1 (by have := (hb line (landMask level SC_FOLDLEVELNUMBERMASK)).2; omega)
    rw [expand]
    simp only [h1, h2]
    obtain ⟨r, hr, hle1, hgt, hle2, hlast⟩ := expandLoop_returns M hM
      (fun l b1 => expand n l doExpand force (visLevels - 1) (-1) b1) doExpand force visLevels
      level (b.lastChild line (landMask level SC_FOLDLEVELNUMBERMASK)) (hb _ _).2 (line + 1)
      (by omega)
      (fun l b1 h1 h2 hb1 => by
        obtain ⟨r1, e1, e2, -, e4, e5⟩ := ih l doExpand force (visLevels - 1) (-1) b1
          (by omega) h2 hb1 (by omega)
        exact ⟨r1, e1, e2, e4, e5⟩)
      n (line + 1) b (le_refl _) (by omega) hb (by omega)
    exact ⟨r, hr, by omega, hgt, hle2, hlast⟩

theorem expandLoop_raised (M : Int) (hM : M + 1 < 18446744073709551616)
    (callee : Int → Buffer → Option (Int × Buffer))
    (visLevels level lineMaxSubord : Int) (hlms : lineMaxSubord ≤ M)
    (hcallee : ∀ l b r, 0 ≤ l → l ≤ M →
      (∀ k lv, 0 ≤ b.lastChild k lv ∧ b.lastChild k lv ≤ M) →
      callee l b = some r → RaisedOn (-1) b r.2 (l + 1) r.1) :
    ∀ (fuel : Nat) (line : Int) (b : Buffer) (r : Int × Buffer), 0 ≤ line →
      (∀ k lv, 0 ≤ b.lastChild k lv ∧ b.lastChild k lv ≤ M) →
      expandLoop callee true false visLevels level lineMaxSubord fuel line b = some r →
      lineMaxSubord < r.1 ∧ RaisedOn level b r.2 line r.1 := by
  intro fuel
  induction fuel with
  | zero => intro line b r _ _ h; simp [expandLoop] at h
  | succ n ih =>
    intro line b r h0 hb h
    rw [expandLoop] at h
    by_cases hl : line ≤ lineMaxSubord
    · rw [if_pos hl] at h
      simp only at h
      have hv : expandVisit true false visLevels line b = b.showLines line line := by
        simp [expandVisit]
      rw [hv] at h
      by_cases hh : landMask (expandLevelLine level line (b.showLines line line))
          SC_FOLDLEVELHEADERFLAG ≠ 0
      · rw [if_pos hh] at h
        have hstep := raisedOn_visit_header level visLevels line b hh
        have hlc : (expandHeader true false visLevels line (b.showLines line line)).lastChild
            = b.lastChild := hstep.2.2.2.2.2.2.1
        cases hc : callee line (expandHeader true false visLevels line
            (b.showLines line line)) with
        | none => rw [hc] at h; cases h
        | some rc =>
          rw [hc] at h
          have hcal := hcallee line _ rc h0 (by omega) (by rw [hlc]; exact hb) hc
          have hrc : rc.2.lastChild = b.lastChild := by rw [hcal.2.2.2.2.2.2.1, hlc]
          have hpos : line + 1 ≤ rc.1 := hcal.1
          obtain ⟨hlt, hrest⟩ := ih rc.1 rc.2 r (by omega) (by rw [hrc]; exact hb) h
          exact ⟨hlt, raisedOn_trans (raisedOn_trans hstep (raisedOn_of_default hcal)) hrest⟩
      · rw [if_neg hh, asSize_of_bounds (line + 1) (by omega) (by omega)] at h
        have hstep := raisedOn_visit_plain level line b hh
        obtain ⟨hlt, hrest⟩ := ih (line + 1) (b.showLines line line) r (by omega) hb h
        exact ⟨hlt, raisedOn_trans hstep hrest⟩
    · rw [if_neg hl] at h
      cases h
      exact ⟨by simpa using hl, raisedOn_refl level b line⟩

theorem expand_raised (M : Int) (hM : M + 1 < 18446744073709551616) :
    ∀ (fuel : Nat) (line visLevels level : Int) (b : Buffer) (r : Int × Buffer),
      0 ≤ line → line ≤ M → (∀ k lv, 0 ≤ b.lastChild k lv ∧ b.lastChild k lv ≤ M) →
      expand fuel line true false visLevels level b = some r →
      b.lastChild line (landMask level SC_FOLDLEVELNUMBERMASK) < r.1 ∧
        RaisedOn level b r.2 (line + 1) r.1 := by
  intro fuel
  induction fuel with
  | zero => intro line visLevels level b r _ _ _ h; simp [expand] at h
  | succ n ih =>
    intro line visLevels level b r h0 hle hb h
    have h1 := asSize_of_bounds (line + 1) (by omega) (by omega)
    have h2 := asSize_of_bounds (b.lastChild line (landMask level SC_FOLDLEVELNUMBERMASK))
      (hb _ _).1 (by have := (hb line (landMask level SC_FOLDLEVELNUMBERMASK)).2; omega)
    rw [expand] at h
    simp only [h1, h2] at h
    exact expandLoop_raised M hM
      (fun l b1 => expand n l true false (visLevels - 1) (-1) b1) visLevels level
      (b.lastChild line (landMask level SC_FOLDLEVELNUMBERMASK)) (hb _ _).2
      (fun l b1 r1 hl0 hl1 hb1 hc => (ih l (visLevels - 1) (-1) b1 r1 hl0 hl1 hb1 hc).2)
      n (line + 1) b r (by omega) hb h

/-- C21, as stated, fails: in the three-line document whose line 1 is a collapsed
header below the header of line 0, `expand(0, true, false)` returns with `line = 3`
after the calls `SCI_SHOWLINES(1, 1)`, `SCI_SETFOLDEXPANDED(1, 1)` and
`SCI_SHOWLINES(2, 2)`: the fold-expanded flag of line 1 has changed from false to
true. -/
theorem expand_sets_flag_counterexample :
    isHeaderLevel (nestedFoldDoc.foldLevel 0) = true ∧ nestedFoldDoc.expanded 1 = false ∧
    ∃ r, expand 10 0 true false 0 (-1) nestedFoldDoc = some r ∧ r.1 = 3 ∧
      r.2.expanded 1 = true ∧
      r.2.calls = [Call.showLines 1 1, Call.setFoldExpanded 1 true, Call.showLines 2 2] :=
  ⟨by decide, by decide, _, rfl, by decide, by decide, by decide⟩

/-- When `SCI_GETLASTCHILD` answers `-1`, `lineMaxSubord` is the largest `size_t`
value and the loop of `expand` runs on: in a three-line document it has not ended
after twenty iterations. -/
theorem expand_negative_lastChild :
    (expand 20 0 false false 0 (-1)
      { plainBuffer 3 with lastChild := fun _ _ => -1 }).isSome = false := by
  decide

/-- C21, amended: with `force = false`, `expand` never hides a line and never
clears a fold-expanded flag. With `doExpand = false` it changes nothing: it
issues no call and leaves the buffer as it was. With `doExpand = true` it only
issues `SCI_SHOWLINES(l, l)` and `SCI_SETFOLDEXPANDED(l, 1)` calls: every flag that
was set stays set, a flag is set afterwards only if it was set before or one of
these calls set it, and every visible line stays visible. When the last-child
query answers line numbers `0 .. M`, with `line` among them and `M + 1` a `size_t`
value, and the bound on the depth allows `2 * (M - line) + 2` steps, the call
returns with `line` advanced past the last child of the start line, and with
`doExpand = true` the lines it has visited, those after the start line and before
the returned `line`, are shown and no other line is: a line is visible afterwards
exactly when it was visible before or is one of them, and the flag of every other
line is as before. With the default `level = -1` the flag of a line is set
afterwards exactly when it was set before or the line is a visited line whose
fold level has the header flag, and the calls issued are, for every visited line
in order, `SCI_SHOWLINES(l, l)`, followed by `SCI_SETFOLDEXPANDED(l, 1)` when the line
is a header whose flag was not set. -/
theorem expand_no_force (fuel : Nat) (line visLevels level : Int) (b : Buffer) :
    (∀ r, expand fuel line false false visLevels level b = some r → r.2 = b) ∧
    (∀ r, expand fuel line true false visLevels level b = some r →
      (∀ l, b.expanded l = true → r.2.expanded l = true) ∧
      (∀ l, b.visible l = true → r.2.visible l = true) ∧
      ∃ extra, r.2.calls = b.calls ++ extra ∧
        (∀ c, c ∈ extra →
          (∃ l, c = Call.showLines l l) ∨ (∃ l, c = Call.setFoldExpanded l true)) ∧
        (∀ l, r.2.expanded l = true →
          b.expanded l = true ∨ Call.setFoldExpanded l true ∈ extra)) ∧
    (∀ (M : Int) (doExpand : Bool), 0 ≤ line → line ≤ M → M + 1 < 18446744073709551616 →
      (∀ k lv, 0 ≤ b.lastChild k lv ∧ b.lastChild k lv ≤ M) →
      2 * (M - line).toNat + 2 ≤ fuel →
      ∃ r, expand fuel line doExpand false visLevels level b = some r ∧ line < r.1 ∧
        b.lastChild line (landMask level SC_FOLDLEVELNUMBERMASK) < r.1 ∧ r.1 ≤ M + 1 ∧
        (doExpand = true →
          (∀ l, r.2.visible l = true ↔ (b.visible l = true ∨ (line < l ∧ l < r.1))) ∧
          (∀ l, ¬ (line < l ∧ l < r.1) → r.2.expanded l = b.expanded l) ∧
          (level = -1 →
            (∀ l, r.2.expanded l = true ↔
              (b.expanded l = true ∨
                (line < l ∧ l < r.1 ∧
                  landMask (b.foldLevel l) SC_FOLDLEVELHEADERFLAG ≠ 0))) ∧
            r.2.calls = b.calls ++ raisedCalls b (r.1 - (line + 1)).toNat (line + 1)))) := by
  refine ⟨?_, ?_, ?_⟩
  · intro r h
    exact expand_rel (fun b b1 => b1 = b) (fun _ => rfl) (fun _ _ _ h1 h2 => h2.trans h1) false
      (fun h => by cases h) (fun h => by cases h) fuel line visLevels level b r h
  · intro r h
    obtain ⟨-, -, -, -, -, -, h7, h8, extra, h9, h10, h11, -⟩ :=
      expand_rel OnlyRaised OnlyRaised.refl (fun _ _ _ => OnlyRaised.trans) true
        (fun _ => OnlyRaised.showLines) (fun _ => OnlyRaised.setFoldExpanded)
        fuel line visLevels level b r h
    exact ⟨h7, h8, extra, h9, h10, h11⟩
  · intro M doExpand h0 hle hM hb hfuel
    obtain ⟨r, hr, hlt, hgt, hle2, -⟩ :=
      expand_returns M hM fuel line doExpand false visLevels level b h0 hle hb hfuel
    refine ⟨r, hr, hlt, hgt, hle2, ?_⟩
    intro hd
    subst hd
    obtain ⟨-, -, -, -, -, -, -, -, hvis, hfr, hlev⟩ :=
      expand_raised M hM fuel line visLevels level b r h0 hle hb hr
    refine ⟨?_, ?_, ?_⟩
    · intro l
      rw [hvis l]
      constructor
      · rintro (h | h)
        · exact Or.inl h
        · exact Or.inr ⟨by omega, h.2⟩
      · rintro (h | h)
        · exact Or.inl h
        · exact Or.inr ⟨by omega, h.2⟩
    · intro l hl
      exact hfr l (fun h => hl ⟨by omega, h.2⟩)
    · intro hl
      obtain ⟨hexp, hcalls⟩ := hlev hl
      refine ⟨?_, hcalls⟩
      intro l
      rw [hexp l]
      constructor
      · rintro (h | h)
        · exact Or.inl h
        · exact Or.inr ⟨by omega, h.2⟩
      · rintro (h | h)
        · exact Or.inl h
        · exact Or.inr ⟨by omega, h.2⟩

/-- C21, on an instance of the amended statement: on the three-line document,
where every last-child answer is line 2, `expand(0, true, false)` returns, line 2
is visible afterwards and the fold-expanded flag of the header line 1 is set. -/
theorem expand_no_force_witness :
    (∀ k lv, 0 ≤ nestedFoldDoc.lastChild k lv ∧ nestedFoldDoc.lastChild k lv ≤ 2) ∧
    ∃ r, expand 10 0 true false 0 (-1) nestedFoldDoc = some r ∧ r.2.visible 2 = true ∧
      r.2.expanded 1 = true := by
  have hb : ∀ k lv, 0 ≤ nestedFoldDoc.lastChild k lv ∧ nestedFoldDoc.lastChild k lv ≤ 2 :=
    fun _ _ => ⟨(by decide : (0 : Int) ≤ 2), le_refl _⟩
  obtain ⟨r, hr, -, hgt, -, hex⟩ := (expand_no_force 10 0 0 (-1) nestedFoldDoc).2.2 2 true
    (by decide) (by decide) (by decide) hb (by decide)
  obtain ⟨hvis, -, hlev⟩ := hex rfl
  have h2 : (2 : Int) < r.1 := hgt
  exact ⟨hb, r, hr, (hvis 2).2 (Or.inr ⟨by decide, h2⟩),
    ((hlev rfl).1 1).2 (Or.inr ⟨by decide, by omega, by decide⟩)⟩

end NppFold
